import Mathlib

/-!
# XML-RPC codec (andrew00x/xmlrpc): shallow embedding and verified properties

The embedding follows `src/pkg/xmlrpc/marshaller.go`, `unmarshaller.go` and
`client.go`.

* Go strings and byte buffers that hold text are Lean `String`s (valid UTF-8
  only); `[]byte` payloads are lists of `Byte`.
* A Go function with results `(v, err)` is a Lean function returning the pair,
  the error being `Option GoError` (`none` is the nil error).  Both components
  can be set at once, as in Go.
* `interface{}` values are `GoValue`s; the nil interface is `GoValue.nil`.
* The standard library (`fmt`, `strconv`, `encoding/base64`, `encoding/xml`)
  is modelled by the definitions of the first sections.
-/

namespace Xmlrpc

/-! ## Outcomes -/

/-- The outcome of running a Go function: it returns, it panics (nil
dereference, failed type assertion), or the model ran out of fuel. -/
inductive Outcome (α : Type) where
  | ret (a : α)
  | panic (msg : String)
  | outOfFuel
  deriving Repr

/-- Sequencing of outcomes: a panic or an exhausted fuel ends the run. -/
def Outcome.bind {α β : Type} (o : Outcome α) (f : α → Outcome β) : Outcome β :=
  match o with
  | .ret a => f a
  | .panic m => .panic m
  | .outOfFuel => .outOfFuel

/-! ## Values -/

/-- One byte. -/
abbrev Byte := Fin 256

/-- Go values as seen through `interface{}` by the codec.  Values on which a
type assertion of `marshalType` itself panics (named string types, slices
other than `[]interface{}` and `[]byte`, maps other than
`map[string]interface{}`, nil pointers, structs with unexported fields) are
outside this type. -/
inductive GoValue where
  /-- The nil interface. -/
  | nil
  /-- A `[]byte`. -/
  | bytes (b : List Byte)
  /-- A `string`. -/
  | str (s : String)
  /-- A `bool`. -/
  | bool (b : Bool)
  /-- An `int`. -/
  | int (n : Int)
  /-- An `int64`. -/
  | int64 (n : Int)
  /-- A `[]interface{}`. -/
  | slice (xs : List GoValue)
  /-- A `map[string]interface{}`, its entries listed in iteration order. -/
  | map (m : List (String × GoValue))
  /-- A struct value: its fields in declaration order, name and value. -/
  | struct (fields : List (String × GoValue))
  /-- A non-nil pointer and the value it points to. -/
  | ptr (target : GoValue)
  /-- A value of any other kind (float64, int32, uint, chan, ...), with the
  name of its type. -/
  | other (typeName : String)
  deriving Repr

/-- Go `error` values that the package can produce or pass on. -/
inductive GoError where
  /-- The result of `errors.New(msg)`. -/
  | errorsNew (msg : String)
  /-- The result of `errors.New(fmt.Sprintf(pfx ++ "%v", arg))`, kept symbolic:
  the rendering of an arbitrary value by the verb v is not modelled. -/
  | errorsNewV (pfx : String) (arg : GoValue)
  /-- The sentinel `io.EOF`. -/
  | EOF
  /-- A `*strconv.NumError` of function `fn` on input `num`; `range` tells
  `ErrRange` from `ErrSyntax`. -/
  | numError (fn : String) (num : String) (range : Bool)
  /-- A `base64.CorruptInputError` (the offset is not modelled). -/
  | corruptInput
  /-- A `*xml.SyntaxError` (its message and line are not modelled). -/
  | xmlSyntax
  /-- Not a Go error: the document leaves the fragment of XML that the
  tokenizer model `NewDecoder` covers. -/
  | unmodelled
  /-- Any other error of the underlying reader. -/
  | readFault (msg : String)
  deriving Repr

/-! ## Library model: `fmt` and `strconv` -/

/-- The decimal digit character of `d` (for `d < 10`). -/
def digitChar (d : Nat) : Char := Char.ofNat (48 + d)

/-- Digits of `n`, most significant first, pushed in front of `acc`; `fuel`
bounds the number of digits. -/
def decimalAux : Nat → Nat → List Char → List Char
  | 0, _, acc => acc
  | fuel + 1, n, acc =>
    if n / 10 = 0 then digitChar (n % 10) :: acc
    else decimalAux fuel (n / 10) (digitChar (n % 10) :: acc)

/-- The base-10 numeral of a natural number. -/
def decimalNat (n : Nat) : List Char := decimalAux (n + 1) n []

/-- The text `fmt.Sprintf("%d", n)` of a Go integer. -/
def formatInt (n : Int) : String :=
  match n with
  | .ofNat k => ⟨decimalNat k⟩
  | .negSucc k => ⟨'-' :: decimalNat (k + 1)⟩

/-- The value of a decimal digit character, if it is one. -/
def digitVal (c : Char) : Option Nat :=
  if 48 ≤ c.toNat ∧ c.toNat ≤ 57 then some (c.toNat - 48) else none

/-- The number written by a list of decimal digits after the prefix value
`acc`; `none` when a character is not a digit. -/
def parseDigits : List Char → Nat → Option Nat
  | [], acc => some acc
  | c :: cs, acc =>
    match digitVal c with
    | some d => parseDigits cs (acc * 10 + d)
    | none => none

/-- The loop of `strconv.ParseUint(s, 10, bitSize)` over the characters of
the text, `n` the value read so far (a `uint64`): the value and the error,
`some false` for `ErrSyntax` and `some true` for `ErrRange`.  A character
that is not a decimal digit is a syntax error with the value 0.  The range
error, with the value `2^bitSize - 1`, is returned at the digit with which
the number passes `2^bitSize - 1` (or would pass `2^64 - 1`), before the rest
of the text is looked at. -/
def parseUintLoop (bitSize : Nat) : List Char → Nat → Nat × Option Bool
  | [], n => (n, none)
  | c :: cs, n =>
    match digitVal c with
    | none => (0, some false)
    | some d =>
      if n ≥ (2 ^ 64 - 1) / 10 + 1 then (2 ^ bitSize - 1, some true)
      else if (n * 10 % 2 ^ 64 + d) % 2 ^ 64 < n * 10 % 2 ^ 64 ∨
          (n * 10 % 2 ^ 64 + d) % 2 ^ 64 > 2 ^ bitSize - 1 then
        (2 ^ bitSize - 1, some true)
      else parseUintLoop bitSize cs ((n * 10 % 2 ^ 64 + d) % 2 ^ 64)

/-- The function `strconv.ParseUint(s, 10, bitSize)`, for a `bitSize` from 1
to 64: the value and the error, as in `parseUintLoop`. -/
def ParseUint (s : List Char) (bitSize : Nat) : Nat × Option Bool :=
  if s = [] then (0, some false) else parseUintLoop bitSize s 0

/-- The function `strconv.ParseInt(s, 10, bitSize)`, for a `bitSize` from 1
to 64: the value and the error.  On a syntax error the value is 0; on a range
error, of `ParseUint` or of the signed range, it is the nearest bound. -/
def ParseInt (s : String) (bitSize : Nat) : Int × Option GoError :=
  let cutoff : Nat := 2 ^ (bitSize - 1)
  let neg : Bool := s.data.head? = some '-'
  let body : List Char :=
    if s.data.head? = some '+' ∨ s.data.head? = some '-' then s.data.tail else s.data
  if s.data = [] then (0, some (.numError "ParseInt" s false))
  else
    match ParseUint body bitSize with
    | (_, some false) => (0, some (.numError "ParseInt" s false))
    | (un, _) =>
      if !neg ∧ un ≥ cutoff then
        (Int.ofNat (cutoff - 1), some (.numError "ParseInt" s true))
      else if neg ∧ un > cutoff then
        (-(Int.ofNat cutoff), some (.numError "ParseInt" s true))
      else if neg then (-(Int.ofNat un), none)
      else (Int.ofNat un, none)

/-- The function `strconv.ParseBool`. -/
def ParseBool (s : String) : Bool × Option GoError :=
  if s = "1" ∨ s = "t" ∨ s = "T" ∨ s = "TRUE" ∨ s = "true" ∨ s = "True" then
    (true, none)
  else if s = "0" ∨ s = "f" ∨ s = "F" ∨ s = "FALSE" ∨ s = "false" ∨ s = "False" then
    (false, none)
  else (false, some (.numError "ParseBool" s false))

/-! ## Library model: `encoding/base64` (StdEncoding) -/

/-- The alphabet of the standard encoding. -/
def base64Alphabet : List Char :=
  "ABCDEFGHIJKLMNOPQRSTUVWXYZabcdefghijklmnopqrstuvwxyz0123456789+/".data

/-- The character of a 6-bit group. -/
def encodeSextet (n : Nat) : Char := base64Alphabet.getD n 'A'

/-- The 6-bit group of a character of the alphabet. -/
def decodeSextet (c : Char) : Option Nat :=
  let i := base64Alphabet.indexOf c
  if i < 64 then some i else none

/-- Encoding of a byte list, three bytes to four characters, padded with
the character `=`. -/
def base64Encode : List Byte → List Char
  | [] => []
  | [a] =>
    [encodeSextet (a.val / 4), encodeSextet (a.val % 4 * 16), '=', '=']
  | [a, b] =>
    [encodeSextet (a.val / 4), encodeSextet (a.val % 4 * 16 + b.val / 16),
     encodeSextet (b.val % 16 * 4), '=']
  | a :: b :: c :: rest =>
    encodeSextet (a.val / 4) :: encodeSextet (a.val % 4 * 16 + b.val / 16) ::
    encodeSextet (b.val % 16 * 4 + c.val / 64) :: encodeSextet (c.val % 64) ::
    base64Encode rest

/-- The method `base64.StdEncoding.EncodeToString`. -/
def EncodeToString (b : List Byte) : String := ⟨base64Encode b⟩

/-- A byte from a natural number, reduced modulo 256. -/
def byteOf (n : Nat) : Byte := ⟨n % 256, Nat.mod_lt _ (by decide)⟩

/-- The bytes of a quantum of `k` collected 6-bit groups (`k - 1` bytes; the
unused low bits are dropped, the encoding is not strict). -/
def quantumBytes (sx : List Nat) : List Byte :=
  match sx with
  | [a, b] => [byteOf (a * 4 + b / 16)]
  | [a, b, c] => [byteOf (a * 4 + b / 16), byteOf (b % 16 * 16 + c / 4)]
  | [a, b, c, d] =>
    [byteOf (a * 4 + b / 16), byteOf (b % 16 * 16 + c / 4), byteOf (c % 4 * 64 + d)]
  | _ => []

/-- Drops the line breaks in front of the input. -/
def skipNewlines : List Char → List Char
  | c :: cs => if c = '\n' ∨ c = '\r' then skipNewlines cs else c :: cs
  | [] => []

/-- The decoding loop of `Encoding.Decode`: `sx` holds the 6-bit groups of
the current quantum (in reverse), `out` the bytes written so far.  Line
breaks are skipped; padding ends the input. -/
def base64DecodeLoop : List Char → List Nat → List Byte → List Byte × Option GoError
  | [], sx, out =>
    if sx = [] then (out, none) else (out, some .corruptInput)
  | c :: cs, sx, out =>
    match decodeSextet c with
    | some v =>
      if sx.length = 3 then base64DecodeLoop cs [] (out ++ quantumBytes (sx.reverse ++ [v]))
      else base64DecodeLoop cs (v :: sx) out
    | none =>
      if c = '\n' ∨ c = '\r' then base64DecodeLoop cs sx out
      else if c ≠ '=' then (out, some .corruptInput)
      else if sx.length < 2 then (out, some .corruptInput)
      else if sx.length = 2 then
        match skipNewlines cs with
        | [] => (out, some .corruptInput)
        | c2 :: cs2 =>
          if c2 ≠ '=' then (out, some .corruptInput)
          else if skipNewlines cs2 = [] then (out ++ quantumBytes sx.reverse, none)
          else (out ++ quantumBytes sx.reverse, some .corruptInput)
      else if skipNewlines cs = [] then (out ++ quantumBytes sx.reverse, none)
      else (out ++ quantumBytes sx.reverse, some .corruptInput)

/-- The method `base64.StdEncoding.DecodeString`: the bytes decoded before
the error, if any, and the error. -/
def DecodeString (s : String) : List Byte × Option GoError :=
  base64DecodeLoop s.data [] []

/-! ## Library model: `xml.EscapeText` -/

/-- The function `isInCharacterRange` of `encoding/xml`. -/
def isInCharacterRange (c : Char) : Bool :=
  let r := c.toNat
  r = 0x09 || r = 0x0A || r = 0x0D || (0x20 ≤ r && r ≤ 0xD7FF) ||
  (0xE000 ≤ r && r ≤ 0xFFFD) || (0x10000 ≤ r && r ≤ 0x10FFFF)

/-- The replacement written by `xml.EscapeText` for one character. -/
def escapeChar (c : Char) : List Char :=
  if c = Char.ofNat 34 then "&#34;".data
  else if c = Char.ofNat 39 then "&#39;".data
  else if c = '&' then "&amp;".data
  else if c = '<' then "&lt;".data
  else if c = '>' then "&gt;".data
  else if c = '\t' then "&#x9;".data
  else if c = '\n' then "&#xA;".data
  else if c = '\r' then "&#xD;".data
  else if !isInCharacterRange c then [Char.ofNat 0xFFFD]
  else [c]

/-- The escaped form of a list of characters. -/
def escapeChars : List Char → List Char
  | [] => []
  | c :: cs => escapeChar c ++ escapeChars cs

/-- The text written by `xml.EscapeText(w, s)`. -/
def EscapeText (s : String) : String := ⟨escapeChars s.data⟩

/-! ## The encoder (`marshaller.go`)

A `*bytes.Buffer` is the string written so far; `WriteString` never fails, so
each function returns the new buffer and the error. -/

/-- The function `asInt`. -/
def asInt (b : Bool) : Int := if b then 1 else 0

/-- The body of `marshalValue`, given the run of `marshalType` on the value. -/
def marshalValueBody (typ : String → String × Option GoError) (buf : String) :
    String × Option GoError :=
  let r := typ (buf ++ "<value>")
  match r.2 with
  | none => (r.1 ++ "</value>", none)
  | some e => (r.1, some e)

/-- The body of `marshalArray`, given the run of its loop: the error of the
loop is overwritten by the result of the last `WriteString`. -/
def marshalArrayBody (loop : String → String × Option GoError) (buf : String) :
    String × Option GoError :=
  let r := loop (buf ++ "<array><data>")
  (r.1 ++ "</data></array>", none)

/-- The body of `marshalMap` and of `marshalStruct`, given the run of the
member loop. -/
def marshalStructBody (loop : String → String × Option GoError) (buf : String) :
    String × Option GoError :=
  let r := loop (buf ++ "<struct>")
  match r.2 with
  | none => (r.1 ++ "</struct>", none)
  | some e => (r.1, some e)

mutual
/-- The function `marshalType`. -/
def marshalType (buf : String) : GoValue → String × Option GoError
  | .bytes b => (buf ++ "<base64>" ++ EncodeToString b ++ "</base64>", none)
  | .nil => (buf, none)
  | .str s => (buf ++ "<string>" ++ EscapeText s ++ "</string>", none)
  | .bool b => (buf ++ "<boolean>" ++ formatInt (asInt b) ++ "</boolean>", none)
  | .int n => (buf ++ "<i4>" ++ formatInt n ++ "</i4>", none)
  | .int64 n => (buf ++ "<i8>" ++ formatInt n ++ "</i8>", none)
  | .slice xs => marshalArrayBody (fun b => marshalArrayLoop b xs) buf
  | .map m => marshalStructBody (fun b => marshalMapLoop b m) buf
  | .struct fields => marshalStructBody (fun b => marshalStructLoop b fields) buf
  | .ptr target => marshalValueBody (fun b => marshalType b target) buf
  | .other typeName => (buf, some (.errorsNew ("unsupported type: " ++ typeName)))
/-- The loop of `marshalArray` over the elements: it breaks at the first
error. -/
def marshalArrayLoop (buf : String) : List GoValue → String × Option GoError
  | [] => (buf, none)
  | e :: es =>
    match marshalValueBody (fun b => marshalType b e) buf with
    | (b, some err) => (b, some err)
    | (b, none) => marshalArrayLoop b es
/-- The loop of `marshalMap` over the entries: it returns at the first
error. -/
def marshalMapLoop (buf : String) : List (String × GoValue) → String × Option GoError
  | [] => (buf, none)
  | (k, v) :: rest =>
    match marshalValueBody (fun b => marshalType b v)
        (buf ++ "<member>" ++ "<name>" ++ EscapeText k ++ "</name>") with
    | (b, some err) => (b, some err)
    | (b, none) => marshalMapLoop (b ++ "</member>") rest
/-- The loop of `marshalStruct` over the fields: it returns at the first
error. -/
def marshalStructLoop (buf : String) : List (String × GoValue) → String × Option GoError
  | [] => (buf, none)
  | (k, v) :: rest =>
    match marshalValueBody (fun b => marshalType b v)
        (buf ++ "<member>" ++ "<name>" ++ EscapeText k ++ "</name>") with
    | (b, some err) => (b, some err)
    | (b, none) => marshalStructLoop (b ++ "</member>") rest
end

/-- The function `marshalValue`. -/
def marshalValue (buf : String) (v : GoValue) : String × Option GoError :=
  marshalValueBody (fun b => marshalType b v) buf

/-- The function `marshalArray`. -/
def marshalArray (buf : String) (arr : List GoValue) : String × Option GoError :=
  marshalArrayBody (fun b => marshalArrayLoop b arr) buf

/-- The function `marshalMap`. -/
def marshalMap (buf : String) (m : List (String × GoValue)) : String × Option GoError :=
  marshalStructBody (fun b => marshalMapLoop b m) buf

/-- The function `marshalStruct`. -/
def marshalStruct (buf : String) (fields : List (String × GoValue)) : String × Option GoError :=
  marshalStructBody (fun b => marshalStructLoop b fields) buf

/-- The argument loop of `marshaller.marshal`. -/
def marshalArgs (buf : String) : List GoValue → String × Option GoError
  | [] => (buf, none)
  | arg :: args =>
    match marshalValue (buf ++ "<param>") arg with
    | (b, some err) => (b, some err)
    | (b, none) => marshalArgs (b ++ "</param>") args

/-- The method `marshaller.marshal`: the returned bytes (`none` is the nil
slice, returned when the loop fails) and the error. -/
def marshal (method : String) (args : List GoValue) : Option String × Option GoError :=
  let xmlWr := "<?xml version=\"1.0\" encoding=\"UTF-8\"?>"
  let xmlWr := xmlWr ++ "<methodCall><methodName>"
  let xmlWr := xmlWr ++ method
  let xmlWr := xmlWr ++ "</methodName>"
  let xmlWr := xmlWr ++ "<params>"
  match marshalArgs xmlWr args with
  | (_, some err) => (none, some err)
  | (b, none) => (some (b ++ "</params></methodCall>"), none)

/-! ## Library model: the token stream of `xml.Decoder` -/

/-- An `xml.Name`. -/
structure Name where
  Space : String
  Local : String
  deriving DecidableEq, Repr

/-- An `xml.Token` (the attributes of a start element are not modelled). -/
inductive Token where
  | StartElement (name : Name)
  | EndElement (name : Name)
  | CharData (data : String)
  | Comment (data : String)
  | ProcInst (target : String) (inst : String)
  | Directive (data : String)
  deriving DecidableEq, Repr

/-- An `xml.Decoder` seen as the stream of the tokens it has yet to return;
when they are used up `Token()` returns `fault`, or `io.EOF` when there is
none, on every further call. -/
structure Decoder where
  toks : List Token
  fault : Option GoError
  deriving Repr

/-- The error that `Decoder.Token` returns once the tokens are used up. -/
def Decoder.endError (fault : Option GoError) : GoError :=
  match fault with
  | some e => e
  | none => .EOF

/-- The loop of `Decoder.unmarshal` for a struct whose only field takes the
character data (`valueElement`), after the start element: character data
directly inside the element is collected, child elements are skipped
(`Decoder.Skip`, here the counter `depth`), the matching end element ends the
loop.  The result is the collected text and the remaining tokens, or `none`
when the tokens are used up first. -/
def decodeElementLoop : Nat → String → List Token → Option (String × List Token)
  | _, _, [] => none
  | depth, data, .StartElement _ :: ts => decodeElementLoop (depth + 1) data ts
  | 0, data, .EndElement _ :: ts => some (data, ts)
  | depth + 1, data, .EndElement _ :: ts => decodeElementLoop depth data ts
  | 0, data, .CharData s :: ts => decodeElementLoop 0 (data ++ s) ts
  | depth, data, _ :: ts => decodeElementLoop depth data ts

/-- The tokens after the first start element (`DecodeElement` with a nil
start looks for one), or `none` when there is none. -/
def dropToStart : List Token → Option (List Token)
  | [] => none
  | .StartElement _ :: ts => some ts
  | _ :: ts => dropToStart ts

/-- The method `Decoder.DecodeElement(&vn, se)` for a `valueElement`: the
value of `vn.Data` (unchanged, here empty, on an error), the error and the
decoder afterwards.  `hasStart` tells whether `se` is non-nil. -/
def DecodeElement (d : Decoder) (hasStart : Bool) : (String × Option GoError) × Decoder :=
  let body : Option (List Token) := if hasStart then some d.toks else dropToStart d.toks
  match body with
  | none => (("", some (Decoder.endError d.fault)), { d with toks := [] })
  | some ts =>
    match decodeElementLoop 0 "" ts with
    | none => (("", some (Decoder.endError d.fault)), { d with toks := [] })
    | some (data, rest) => ((data, none), { d with toks := rest })

/-! ## Library model: the tokenizer of `xml.NewDecoder`

The model covers documents made of processing instructions, start and end
tags without attributes whose names are ASCII and have no colon, and
character data with character and predefined entity references.  At any
other construct (attributes, empty-element tags, comments, CDATA sections,
directives, other names) the stream of the model ends with
`GoError.unmodelled`.  As in Go (strict mode), tags must nest, and the end
of the input inside an open element is a syntax error. -/

/-- The test `isNameByte` of `encoding/xml`. -/
def isNameByte (c : Char) : Bool :=
  ('A' ≤ c && c ≤ 'Z') || ('a' ≤ c && c ≤ 'z') || ('0' ≤ c && c ≤ '9') ||
  c = '_' || c = ':' || c = '.' || c = '-'

/-- The longest run of name characters in front of the input, and the rest
(`Decoder.readName`). -/
def readName : List Char → List Char × List Char
  | [] => ([], [])
  | c :: cs =>
    if c.toNat < 128 ∧ !isNameByte c then ([], c :: cs)
    else ((readName cs).1.cons c, (readName cs).2)

/-- Whether a name read by `readName` lies in the modelled fragment and is a
valid XML name: ASCII, no colon, first character a letter or underscore. -/
def nameOk (n : List Char) : Bool :=
  match n with
  | [] => false
  | c :: _ =>
    n.all (fun x => decide (x.toNat < 128) && x != ':') &&
    (('A' ≤ c && c ≤ 'Z') || ('a' ≤ c && c ≤ 'z') || c = '_')

/-- The input after the white space in front of it (`Decoder.space`). -/
def skipSpace : List Char → List Char
  | c :: cs => if c = ' ' ∨ c = '\r' ∨ c = '\n' ∨ c = '\t' then skipSpace cs else c :: cs
  | [] => []

/-- The value of a hexadecimal digit. -/
def hexVal (c : Char) : Option Nat :=
  if 48 ≤ c.toNat ∧ c.toNat ≤ 57 then some (c.toNat - 48)
  else if 97 ≤ c.toNat ∧ c.toNat ≤ 102 then some (c.toNat - 87)
  else if 65 ≤ c.toNat ∧ c.toNat ≤ 70 then some (c.toNat - 55)
  else none

/-- The number written by a list of hexadecimal digits. -/
def parseHex : List Char → Nat → Option Nat
  | [], acc => some acc
  | c :: cs, acc =>
    match hexVal c with
    | some d => parseHex cs (acc * 16 + d)
    | none => none

/-- The character `string(rune(n))` of a code point (U+FFFD for a
surrogate), when `n` is at most `unicode.MaxRune`. -/
def runeOf (n : Nat) : Option Char :=
  if n > 0x10FFFF then none
  else if 0xD800 ≤ n ∧ n ≤ 0xDFFF then some (Char.ofNat 0xFFFD)
  else some (Char.ofNat n)

/-- The character that the reference `&body;` stands for, if any. -/
def resolveEntity (body : List Char) : Option Char :=
  match body with
  | '#' :: 'x' :: hex =>
    if hex = [] then none else (parseHex hex 0).bind runeOf
  | '#' :: dec =>
    if dec = [] then none else (parseDigits dec 0).bind runeOf
  | _ =>
    if body = "lt".data then some '<'
    else if body = "gt".data then some '>'
    else if body = "amp".data then some '&'
    else if body = "apos".data then some (Char.ofNat 39)
    else if body = "quot".data then some (Char.ofNat 34)
    else none

/-- The method `Decoder.text(-1, false)` up to the final check of the
characters: `ent` holds the body of the reference being read, if any, `b0`
and `b1` the two previous characters, `acc` the text so far.  The result is
the text and the rest of the input (which is empty or starts with `<`), or
`none` on a syntax error. -/
def readText : Option (List Char) → Char → Char → List Char → List Char →
    Option (List Char × List Char)
  | none, _, _, acc, [] => some (acc, [])
  | some _, _, _, _, [] => none
  | some body, b0, b1, acc, c :: cs =>
    if c = ';' then
      match resolveEntity body with
      | some ch => readText none (Char.ofNat 0) (Char.ofNat 0) (acc ++ [ch]) cs
      | none => none
    else readText (some (body ++ [c])) b0 b1 acc cs
  | none, b0, b1, acc, c :: cs =>
    if b0 = ']' ∧ b1 = ']' ∧ c = '>' then none
    else if c = '<' then some (acc, c :: cs)
    else if c = '&' then readText (some []) b0 b1 acc cs
    else if c = '\r' then readText none b1 c (acc ++ ['\n']) cs
    else if b1 = '\r' ∧ c = '\n' then readText none b1 c acc cs
    else readText none b1 c (acc ++ [c]) cs

/-- The input after the first `?>`, with the text before it. -/
def readProcInst : List Char → List Char → Option (List Char × List Char)
  | _, [] => none
  | acc, '?' :: '>' :: cs => some (acc, cs)
  | acc, c :: cs => readProcInst (acc ++ [c]) cs

/-- A decoder with one more token in front. -/
def Decoder.push (t : Token) (d : Decoder) : Decoder := { d with toks := t :: d.toks }

/-- The tokens that the decoder returns for the input `cs`, the names of the
open elements being `stk` (innermost first); `fuel` bounds the number of
tokens. -/
def tokenize : Nat → List (List Char) → List Char → Decoder
  | _, stk, [] => if stk = [] then ⟨[], none⟩ else ⟨[], some .xmlSyntax⟩
  | 0, _, _ :: _ => ⟨[], some .unmodelled⟩
  | fuel + 1, stk, c :: cs =>
    if c = '<' then
      if cs = [] then ⟨[], some .xmlSyntax⟩
      else if cs.head? = some '/' then
        let n := (readName cs.tail).1
        let rest := skipSpace (readName cs.tail).2
        if n = [] then ⟨[], some .xmlSyntax⟩
        else if !nameOk n then ⟨[], some .unmodelled⟩
        else if rest.head? = some '>' ∧ stk.head? = some n then
          (tokenize fuel stk.tail rest.tail).push (.EndElement ⟨"", ⟨n⟩⟩)
        else ⟨[], some .xmlSyntax⟩
      else if cs.head? = some '?' then
        let n := (readName cs.tail).1
        if n = [] then ⟨[], some .xmlSyntax⟩
        else if !nameOk n then ⟨[], some .unmodelled⟩
        else
          match readProcInst [] (skipSpace (readName cs.tail).2) with
          | none => ⟨[], some .xmlSyntax⟩
          | some (inst, rest) =>
            if n = "xml".data ∧ inst ≠ "version=\"1.0\" encoding=\"UTF-8\"".data then
              ⟨[], some .unmodelled⟩
            else (tokenize fuel stk rest).push (.ProcInst ⟨n⟩ ⟨inst⟩)
      else if cs.head? = some '!' then ⟨[], some .unmodelled⟩
      else
        let n := (readName cs).1
        let rest := skipSpace (readName cs).2
        if n = [] then ⟨[], some .xmlSyntax⟩
        else if !nameOk n then ⟨[], some .unmodelled⟩
        else if rest = [] then ⟨[], some .xmlSyntax⟩
        else if rest.head? = some '>' then
          (tokenize fuel (n :: stk) rest.tail).push (.StartElement ⟨"", ⟨n⟩⟩)
        else ⟨[], some .unmodelled⟩
    else
      match readText none (Char.ofNat 0) (Char.ofNat 0) [] (c :: cs) with
      | none => ⟨[], some .xmlSyntax⟩
      | some (data, rest) =>
        if data.all isInCharacterRange then (tokenize fuel stk rest).push (.CharData ⟨data⟩)
        else ⟨[], some .xmlSyntax⟩

/-- The decoder `xml.NewDecoder(bytes.NewReader(b))`. -/
def NewDecoder (b : String) : Decoder := tokenize b.length [] b.data

/-! ## The decoder (`unmarshaller.go`) -/

/-- The state of a decoding run: the field `last` of the `unmarshaller` (the
pushed-back token) and the `xml.Decoder`. -/
structure DecState where
  last : Option Token
  d : Decoder
  deriving Repr

/-- The `unmarshaller` struct. -/
structure unmarshaller where
  last : Option Token
  deriving Repr

/-- The `fault` struct. -/
structure fault where
  code : Int
  text : String
  deriving Repr

/-- The constant `any`. -/
def any : String := ""

/-- The loop of `startElement`: `t` is the token under inspection (`none`
before the first read), `ts` the tokens still in the decoder. -/
def startElementLoop (name : String) (flt : Option GoError) :
    Option Token → List Token → (Option Name × Option GoError) × DecState
  | some (.StartElement e), ts =>
    if name = any ∨ e.Local = name then ((some e, none), ⟨none, ⟨ts, flt⟩⟩)
    else ((none, none), ⟨some (.StartElement e), ⟨ts, flt⟩⟩)
  | some (.EndElement e), ts => ((none, none), ⟨some (.EndElement e), ⟨ts, flt⟩⟩)
  | _, [] =>
    match Decoder.endError flt with
    | .EOF => ((none, none), ⟨none, ⟨[], flt⟩⟩)
    | err => ((none, some err), ⟨none, ⟨[], flt⟩⟩)
  | _, t :: ts => startElementLoop name flt (some t) ts

/-- The method `unmarshaller.startElement`: the start element found (its
name), the error, and the state afterwards. -/
def startElement (st : DecState) (name : String) : (Option Name × Option GoError) × DecState :=
  startElementLoop name st.d.fault st.last st.d.toks

/-- The loop of `endElement`, the mirror image of `startElementLoop`. -/
def endElementLoop (name : String) (flt : Option GoError) :
    Option Token → List Token → (Option Name × Option GoError) × DecState
  | some (.EndElement e), ts =>
    if name = any ∨ e.Local = name then ((some e, none), ⟨none, ⟨ts, flt⟩⟩)
    else ((none, none), ⟨some (.EndElement e), ⟨ts, flt⟩⟩)
  | some (.StartElement e), ts => ((none, none), ⟨some (.StartElement e), ⟨ts, flt⟩⟩)
  | _, [] =>
    match Decoder.endError flt with
    | .EOF => ((none, none), ⟨none, ⟨[], flt⟩⟩)
    | err => ((none, some err), ⟨none, ⟨[], flt⟩⟩)
  | _, t :: ts => endElementLoop name flt (some t) ts

/-- The method `unmarshaller.endElement`. -/
def endElement (st : DecState) (name : String) : (Option Name × Option GoError) × DecState :=
  endElementLoop name st.d.fault st.last st.d.toks

/-- The method `unmarshaller.mustEndElement`. -/
def mustEndElement (st : DecState) (name : String) : (Option Name × Option GoError) × DecState :=
  match endElement st name with
  | ((ee, some err), st1) => ((ee, some err), st1)
  | ((none, none), st1) => ((none, some (.errorsNew ("missing end element: " ++ name))), st1)
  | ((some ee, none), st1) => ((some ee, none), st1)

/-- The function `decodeValue`. -/
def decodeValue (raw : String) (t : String) : GoValue × Option GoError :=
  if t = "string" then (.str raw, none)
  else if t = "base64" then ((.bytes (DecodeString raw).1), (DecodeString raw).2)
  else if t = "i4" ∨ t = "int" then
    match ParseInt raw 32 with
    | (i64, none) => (.int i64, none)
    | (_, some err) => (.nil, some err)
  else if t = "i8" then (.int64 (ParseInt raw 64).1, (ParseInt raw 64).2)
  else if t = "boolean" then (.bool (ParseBool raw).1, (ParseBool raw).2)
  else (.nil, none)

/-- The assignment `m[n] = v` on a map. -/
def mapSet : List (String × GoValue) → String → GoValue → List (String × GoValue)
  | [], n, v => [(n, v)]
  | (k, w) :: rest, n, v => if k = n then (k, v) :: rest else (k, w) :: mapSet rest n v

/-- The lookup `m[n]` on a map: the value and whether the key is present. -/
def mapGet : List (String × GoValue) → String → GoValue × Bool
  | [], _ => (.nil, false)
  | (k, w) :: rest, n => if k = n then (w, true) else mapGet rest n

/-- The end of `unmarshalValue` after the switch on the type name: the end
tag of the value is required when no error is pending. -/
def unmarshalValueEnd (v : GoValue) (err : Option GoError) (st : DecState) :
    (GoValue × Option GoError) × DecState :=
  match err with
  | none => ((v, (mustEndElement st "value").1.2), (mustEndElement st "value").2)
  | some e => ((v, some e), st)

/-- The scalar case of the switch of `unmarshalValue`. -/
def unmarshalScalar (name : String) (st : DecState) : (GoValue × Option GoError) × DecState :=
  match DecodeElement st.d true with
  | ((_, some err), d1) => ((.nil, some err), ⟨st.last, d1⟩)
  | ((data, none), d1) =>
    unmarshalValueEnd (decodeValue data name).1 (decodeValue data name).2 ⟨none, d1⟩

mutual
/-- The method `unmarshaller.unmarshalValue`; `fuel` bounds the depth of the
calls and the number of loop iterations. -/
def unmarshalValue : Nat → DecState → Outcome ((GoValue × Option GoError) × DecState)
  | 0, _ => .outOfFuel
  | fuel + 1, st =>
    match startElement st "value" with
    | ((_, some err), st1) => .ret ((.nil, some err), st1)
    | ((none, none), st1) => .ret ((.nil, none), st1)
    | ((some _, none), st1) =>
      match startElement st1 any with
      | ((_, some err), st2) => .ret ((.nil, some err), st2)
      | ((none, none), _) => .panic "nil pointer dereference"
      | ((some se, none), st2) =>
        let name := se.Local
        if name = "string" ∨ name = "base64" ∨ name = "int" ∨ name = "i4" ∨ name = "i8" ∨
            name = "boolean" then
          .ret (unmarshalScalar name st2)
        else if name = "array" then
          (unmarshalArray fuel st2).bind fun r =>
            .ret (unmarshalValueEnd (.slice r.1.1) (mustEndElement r.2 "array").1.2
              (mustEndElement r.2 "array").2)
        else if name = "struct" then
          (unmarshalStructLoop fuel [] st2).bind fun r =>
            .ret (unmarshalValueEnd (.map r.1.1) (mustEndElement r.2 "struct").1.2
              (mustEndElement r.2 "struct").2)
        else
          .ret (unmarshalValueEnd .nil (some (.errorsNew ("unsupported type: " ++ name))) st2)
/-- The method `unmarshaller.unmarshalArray`. -/
def unmarshalArray : Nat → DecState → Outcome ((List GoValue × Option GoError) × DecState)
  | 0, _ => .outOfFuel
  | fuel + 1, st =>
    match startElement st "data" with
    | ((_, some err), st1) => .ret (([], some err), st1)
    | ((none, none), st1) => .ret (([], none), st1)
    | ((some _, none), st1) =>
      (unmarshalArrayLoop fuel [] st1).bind fun r =>
        .ret ((r.1, (mustEndElement r.2 "data").1.2), (mustEndElement r.2 "data").2)
/-- The loop of `unmarshalArray`: it ends when `unmarshalValue` returns the
nil interface; the error of `unmarshalValue` is not looked at. -/
def unmarshalArrayLoop : Nat → List GoValue → DecState → Outcome (List GoValue × DecState)
  | 0, _, _ => .outOfFuel
  | fuel + 1, arr, st =>
    (unmarshalValue fuel st).bind fun r =>
      match r.1.1 with
      | .nil => .ret (arr, r.2)
      | v => unmarshalArrayLoop fuel (arr ++ [v]) r.2
/-- The method `unmarshaller.unmarshalStruct`, which is one loop; `m` is the
map built so far. -/
def unmarshalStructLoop : Nat → List (String × GoValue) → DecState →
    Outcome ((List (String × GoValue) × Option GoError) × DecState)
  | 0, _, _ => .outOfFuel
  | fuel + 1, m, st =>
    match startElement st "member" with
    | ((_, some err), st1) => .ret ((m, some err), st1)
    | ((none, none), st1) => .ret ((m, none), st1)
    | ((some _, none), st1) =>
      match startElement st1 "name" with
      | ((_, some err), st2) => .ret ((m, some err), st2)
      | ((se, none), st2) =>
        match DecodeElement st2.d se.isSome with
        | ((_, some err), d3) => .ret ((m, some err), ⟨st2.last, d3⟩)
        | ((n, none), d3) =>
          (unmarshalValue fuel ⟨none, d3⟩).bind fun r =>
            match r.1.2 with
            | some err => .ret ((m, some err), r.2)
            | none => unmarshalStructLoop fuel (mapSet m n r.1.1) (mustEndElement r.2 "member").2
end

/-- The method `unmarshaller.unmarshalStruct`. -/
def unmarshalStruct (fuel : Nat) (st : DecState) :
    Outcome ((List (String × GoValue) × Option GoError) × DecState) :=
  unmarshalStructLoop fuel [] st

/-- The method `unmarshaller.unmarshalParams`, which is one loop; `params`
is the list built so far. -/
def unmarshalParamsLoop : Nat → List GoValue → DecState →
    Outcome ((List GoValue × Option GoError) × DecState)
  | 0, _, _ => .outOfFuel
  | fuel + 1, params, st =>
    match startElement st "param" with
    | ((_, some err), st1) => .ret ((params, some err), st1)
    | ((none, none), st1) => .ret ((params, none), st1)
    | ((some _, none), st1) =>
      (unmarshalValue fuel st1).bind fun r =>
        match r.1.2 with
        | some err => .ret ((params, some err), r.2)
        | none =>
          match mustEndElement r.2 "param" with
          | ((_, some err), st3) => .ret ((params ++ [r.1.1], some err), st3)
          | ((_, none), st3) => unmarshalParamsLoop fuel (params ++ [r.1.1]) st3

/-- The method `unmarshaller.unmarshalParams`. -/
def unmarshalParams (fuel : Nat) (st : DecState) :
    Outcome ((List GoValue × Option GoError) × DecState) :=
  unmarshalParamsLoop fuel [] st

/-- The type assertion `v.(map[string]interface{})` with the comma-ok form. -/
def asMap : GoValue → List (String × GoValue) × Bool
  | .map m => (m, true)
  | _ => ([], false)

/-- The method `unmarshaller.unmarshalFault`. -/
def unmarshalFault (fuel : Nat) (st : DecState) : Outcome ((fault × Option GoError) × DecState) :=
  (unmarshalValue fuel st).bind fun r =>
    let v := r.1.1
    let err := r.1.2
    let fm := (asMap v).1
    let err := if (asMap v).2 then err
      else some (.errorsNewV "unable parse fault message correctly: " v)
    let fcode := (mapGet fm "faultCode").1
    let err := if (mapGet fm "faultCode").2 then err
      else some (.errorsNewV "no code in fault message: " (.map fm))
    let fmsg := (mapGet fm "faultString").1
    let err := if (mapGet fm "faultString").2 then err
      else some (.errorsNewV "no code in fault message: " (.map fm))
    match fcode with
    | .int code =>
      match fmsg with
      | .str msg => .ret ((⟨code, msg⟩, err), r.2)
      | _ => .panic "interface conversion: interface {} is not string"
    | _ => .panic "interface conversion: interface {} is not int"

/-- The body of `unmarshaller.unmarshal` after the decoder has been created. -/
def unmarshalFrom (fuel : Nat) (st : DecState) :
    Outcome ((List GoValue × Option GoError) × DecState) :=
  match startElement st "methodResponse" with
  | ((_, some err), st1) => .ret (([], some err), st1)
  | ((none, none), st1) => .ret (([], none), st1)
  | ((some _, none), st1) =>
    match startElement st1 any with
    | ((_, some err), st2) => .ret (([], some err), st2)
    | ((none, none), _) => .panic "nil pointer dereference"
    | ((some se, none), st2) =>
      let name := se.Local
      if name = "params" then
        (unmarshalParams fuel st2).bind fun r =>
          match r.1.2 with
          | some err => .ret ((r.1.1, some err), r.2)
          | none =>
            match mustEndElement r.2 "params" with
            | ((_, some err), st4) => .ret ((r.1.1, some err), st4)
            | ((_, none), st4) =>
              .ret ((r.1.1, (mustEndElement st4 "methodResponse").1.2),
                (mustEndElement st4 "methodResponse").2)
      else if name = "fault" then
        (unmarshalFault fuel st2).bind fun r =>
          match r.1.2 with
          | some err => .ret (([], some err), r.2)
          | none =>
            match mustEndElement r.2 "fault" with
            | ((_, some err), st4) => .ret (([], some err), st4)
            | ((_, none), st4) =>
              .ret (([], some (.errorsNew ("error response, code: " ++ formatInt r.1.1.code ++
                ", text: " ++ r.1.1.text))), st4)
      else
        .ret (([], some (.errorsNew ("invalid xml, unknown element " ++ name))), st2)

/-- The number of tokens a run can still consume: those of the decoder and
the pushed-back one. -/
def DecState.size (st : DecState) : Nat :=
  st.d.toks.length + (if st.last.isSome then 1 else 0)

/-- The method `unmarshaller.unmarshal` on the token stream `d` of the
document: the returned values and error, and the `unmarshaller` afterwards.
The fuel is enough for every stream (`unmarshalFrom_terminates`). -/
def unmarshalTokens (u : unmarshaller) (d : Decoder) :
    Outcome ((List GoValue × Option GoError) × unmarshaller) :=
  (unmarshalFrom (2 * (DecState.size ⟨u.last, d⟩) + 4) ⟨u.last, d⟩).bind fun r =>
    .ret (r.1, ⟨r.2.last⟩)

/-- The method `unmarshaller.unmarshal`: the returned values and error, and
the `unmarshaller` afterwards. -/
def unmarshal (u : unmarshaller) (b : String) :
    Outcome ((List GoValue × Option GoError) × unmarshaller) :=
  unmarshalTokens u (NewDecoder b)

/-! ## Notation used in the statements -/

/-- The run did not exhaust its fuel, and if it returned, the state it left
has at most `bound` tokens to consume. -/
def Outcome.within {α : Type} (bound : Nat) (o : Outcome (α × DecState)) : Prop :=
  match o with
  | .ret r => r.2.size ≤ bound
  | .panic _ => True
  | .outOfFuel => False

/-- The same for `unmarshalValue`, which consumes at least two tokens when it
returns a value other than the nil interface. -/
def Outcome.valueWithin (bound : Nat)
    (o : Outcome ((GoValue × Option GoError) × DecState)) : Prop :=
  match o with
  | .ret r => r.2.size ≤ bound ∧ (r.1.1 ≠ .nil → r.2.size + 2 ≤ bound)
  | .panic _ => True
  | .outOfFuel => False

/-- The character itself when it is in the XML character range, U+FFFD
otherwise: what `xml.EscapeText` followed by the tokenizer makes of it. -/
def sanitize (c : Char) : Char := if isInCharacterRange c then c else Char.ofNat 0xFFFD

/-- Whether the character stands for itself in character data. -/
def plainChar (c : Char) : Bool :=
  c != '<' && c != '&' && c != '>' && c != '\r' && isInCharacterRange c

/-- Whether `n` is a tag name of the modelled fragment made of ASCII name
characters. -/
def goodTag (n : String) : Bool := nameOk n.data && n.data.all isNameByte

/-- A decoder with the tokens `ts` in front. -/
def Decoder.pushAll (ts : List Token) (d : Decoder) : Decoder := { d with toks := ts ++ d.toks }

/-- The concatenation, in argument order, of `<param>`, the text that
`marshalValue` writes for the argument, and `</param>`. -/
def paramsText : List GoValue → String
  | [] => ""
  | a :: rest => "<param>" ++ (marshalValue "" a).1 ++ "</param>" ++ paramsText rest

/-- The character data token of a text, none for the empty text. -/
def textTokens (s : String) : List Token := if s.data = [] then [] else [.CharData s]

/-- The start tag `<n>`. -/
def startTag (n : String) : Token := .StartElement ⟨"", n⟩

/-- The end tag `</n>`. -/
def endTag (n : String) : Token := .EndElement ⟨"", n⟩

mutual
/-- The tokens of the element that `marshalType` writes for a value made of
byte slices, strings, booleans, ints, slices and maps (the empty list for
any other value). -/
def typeTokens : GoValue → List Token
  | .bytes b => startTag "base64" :: textTokens (EncodeToString b) ++ [endTag "base64"]
  | .str s => startTag "string" :: textTokens s ++ [endTag "string"]
  | .bool b => [startTag "boolean", .CharData (formatInt (asInt b)), endTag "boolean"]
  | .int n => [startTag "i4", .CharData (formatInt n), endTag "i4"]
  | .int64 n => [startTag "i8", .CharData (formatInt n), endTag "i8"]
  | .slice xs => startTag "array" :: startTag "data" :: elemTokens xs ++
      [endTag "data", endTag "array"]
  | .map m => startTag "struct" :: memberTokens m ++ [endTag "struct"]
  | _ => []
/-- The tokens of the `<value>` elements of a list of values. -/
def elemTokens : List GoValue → List Token
  | [] => []
  | x :: xs => startTag "value" :: typeTokens x ++ endTag "value" :: elemTokens xs
/-- The tokens of the `<member>` elements of a list of entries. -/
def memberTokens : List (String × GoValue) → List Token
  | [] => []
  | (k, v) :: rest =>
    startTag "member" :: startTag "name" :: textTokens k ++ endTag "name" ::
      startTag "value" :: typeTokens v ++ endTag "value" :: endTag "member" :: memberTokens rest
end

/-- The tokens of the text that `marshalValue` writes for a value. -/
def valueTokens (v : GoValue) : List Token :=
  startTag "value" :: typeTokens v ++ [endTag "value"]

mutual
/-- The values of the claims about round trips: byte slices, strings whose
characters are in the XML character range, booleans, ints in the signed
32-bit range, int64s, slices of such values, and maps from such strings,
each key once, to such values. -/
def validValue : GoValue → Bool
  | .bytes _ => true
  | .str s => s.data.all isInCharacterRange
  | .bool _ => true
  | .int n => decide (-(2 ^ 31 : Int) ≤ n ∧ n < (2 ^ 31 : Int))
  | .int64 n => decide (-(2 ^ 63 : Int) ≤ n ∧ n < (2 ^ 63 : Int))
  | .slice xs => validValues xs
  | .map m => decide ((m.map Prod.fst).Nodup) && validMembers m
  | _ => false
/-- All elements are valid values. -/
def validValues : List GoValue → Bool
  | [] => true
  | x :: xs => validValue x && validValues xs
/-- All keys are valid strings and all members are valid values. -/
def validMembers : List (String × GoValue) → Bool
  | [] => true
  | (k, v) :: rest => k.data.all isInCharacterRange && validValue v && validMembers rest
end

/-- The tokens of the `<param>` elements of a list of values. -/
def paramsTokens : List GoValue → List Token
  | [] => []
  | a :: rest => startTag "param" :: valueTokens a ++ endTag "param" :: paramsTokens rest

/-- The response document whose params are the `<param>` elements that
`marshal` writes for the arguments `args`. -/
def responseDocOf (args : List GoValue) : String :=
  "<methodResponse><params>" ++ paramsText args ++ "</params></methodResponse>"

/-- The response document that carries the value `v` as its only param. -/
def responseDoc (v : GoValue) : String :=
  "<methodResponse><params><param>" ++ (marshalValue "" v).1 ++
    "</param></params></methodResponse>"

/-- The tokens of a fault response with the code `c`, written in the element
`tag`, and the text `s`. -/
def faultTokens (tag : String) (c : Int) (s : String) : List Token :=
  [startTag "methodResponse", startTag "fault", startTag "value", startTag "struct",
   startTag "member", startTag "name", .CharData "faultCode", endTag "name",
   startTag "value", startTag tag, .CharData (formatInt c), endTag tag, endTag "value",
   endTag "member",
   startTag "member", startTag "name", .CharData "faultString", endTag "name",
   startTag "value", startTag "string", .CharData s, endTag "string", endTag "value",
   endTag "member",
   endTag "struct", endTag "value", endTag "fault", endTag "methodResponse"]

/-- The nested array of the specification: "hello", ["x", true], "bye". -/
def nestedExample : GoValue :=
  .slice [.str "hello", .slice [.str "x", .bool true], .str "bye"]

/-- The tokens of `<value><array><data></data></array></value>`. -/
def emptyArrayTokens : List Token :=
  [startTag "value", startTag "array", startTag "data", endTag "data", endTag "array",
   endTag "value"]

/-- Whether a token is a start tag or an end tag. -/
def Token.isTag : Token → Bool
  | .StartElement _ => true
  | .EndElement _ => true
  | _ => false

/-- No token of the list is a tag: the list holds character data, comments,
processing instructions and directives only. -/
def noTags (ts : List Token) : Bool := ts.all fun t => !t.isTag

/-- The literals that `strconv.ParseBool` reads as true. -/
def trueLiterals : List String := ["1", "t", "T", "TRUE", "true", "True"]

/-- The literals that `strconv.ParseBool` reads as false. -/
def falseLiterals : List String := ["0", "f", "F", "FALSE", "false", "False"]

/-- The tokens of the response whose only param is the element `<tag>` with
the text `s`. -/
def scalarResponse (tag : String) (s : String) : List Token :=
  [startTag "methodResponse", startTag "params", startTag "param", startTag "value",
    startTag tag] ++ textTokens s ++
  [endTag tag, endTag "value", endTag "param", endTag "params", endTag "methodResponse"]

/-- In the words of the specification: the number that a non-empty list of
decimal digits writes in base 10, most significant digit first; none for the
empty list and for a list that holds another character. -/
def digitsValue (cs : List Char) : Option Nat :=
  if cs ≠ [] ∧ cs.all Char.isDigit = true then
    some (Nat.ofDigits 10 (cs.reverse.map fun c => c.toNat - 48))
  else none

/-- In the words of the specification: the integer of which the text is a
base-10 numeral: an optional sign `+` or `-` followed by one or more decimal
digits; none for every other text. -/
def numeralValue (s : String) : Option Int :=
  if s.data.head? = some '-' then (digitsValue s.data.tail).map fun n => -(n : Int)
  else if s.data.head? = some '+' then (digitsValue s.data.tail).map fun n => (n : Int)
  else (digitsValue s.data).map fun n => (n : Int)

/-- The number that a list of decimal digits writes in base 10, most
significant digit first (0 for the empty list). -/
def digitsNat (cs : List Char) : Nat :=
  Nat.ofDigits 10 (cs.reverse.map fun c => c.toNat - 48)

/-- The text without its sign, if it has one. -/
def unsignedPart (s : String) : List Char :=
  if s.data.head? = some '+' ∨ s.data.head? = some '-' then s.data.tail else s.data

/-- Whether the decimal digits in front of the text, after the sign if there
is one, already write a number above `2^bitSize - 1`: the texts at whose
digits `ParseUint` stops with a range error before it reads the rest. -/
def leadingOverflow (bitSize : Nat) (s : String) : Bool :=
  decide (2 ^ bitSize - 1 < digitsNat ((unsignedPart s).takeWhile Char.isDigit))

/-- In the words of the specification: the value of the last member named
`k` in a list of members in document order, none when no member has that
name. -/
def lastValue : List (String × GoValue) → String → Option GoValue
  | [], _ => none
  | (n, v) :: rest, k =>
    match lastValue rest k with
    | some w => some w
    | none => if n = k then some v else none

/-- The tokens of the response whose only param is the struct with the
members `ms`. -/
def structResponse (ms : List (String × GoValue)) : List Token :=
  [startTag "methodResponse", startTag "params", startTag "param", startTag "value",
    startTag "struct"] ++ memberTokens ms ++
  [endTag "struct", endTag "value", endTag "param", endTag "params", endTag "methodResponse"]

/-- The type names of the scalar case of `unmarshalValue`. -/
def scalarTags : List String := ["string", "base64", "int", "i4", "i8", "boolean"]

/-- The tokens of the response whose only param is an array with one
element, the element `<tag>` with the text `s`. -/
def arrayResponse (tag : String) (s : String) : List Token :=
  [startTag "methodResponse", startTag "params", startTag "param", startTag "value",
    startTag "array", startTag "data", startTag "value", startTag tag] ++ textTokens s ++
  [endTag tag, endTag "value", endTag "data", endTag "array", endTag "value", endTag "param",
    endTag "params", endTag "methodResponse"]

/-- The tokens of the response whose only param is a struct with one member
named `k`, its value the element `<tag>` with the text `s`. -/
def memberResponse (k : String) (tag : String) (s : String) : List Token :=
  [startTag "methodResponse", startTag "params", startTag "param", startTag "value",
    startTag "struct", startTag "member", startTag "name"] ++ textTokens k ++
  [endTag "name", startTag "value", startTag tag] ++ textTokens s ++
  [endTag tag, endTag "value", endTag "member", endTag "struct", endTag "value", endTag "param",
    endTag "params", endTag "methodResponse"]

mutual
/-- In the words of the specification: the value is one of the seven
variants (string, bytes, boolean, 32-bit int, 64-bit int, array, struct), and
so is every array element and every member value inside it; the nil
interface is none of them. -/
def isVariant : GoValue → Bool
  | .str _ => true
  | .bytes _ => true
  | .bool _ => true
  | .int _ => true
  | .int64 _ => true
  | .slice xs => allVariants xs
  | .map m => allMemberVariants m
  | _ => false
/-- Every value of the list is one of the seven variants. -/
def allVariants : List GoValue → Bool
  | [] => true
  | x :: xs => isVariant x && allVariants xs
/-- Every member value is one of the seven variants. -/
def allMemberVariants : List (String × GoValue) → Bool
  | [] => true
  | (_, v) :: rest => isVariant v && allMemberVariants rest
end

/-- The returned value and error of a run of `unmarshalValue`, without the
state. -/
def resultOf (o : Outcome ((GoValue × Option GoError) × DecState)) :
    Outcome (GoValue × Option GoError) :=
  o.bind fun r => .ret r.1

/-- The text of a token: `<n>` for a start tag, `</n>` for an end tag, the
escaped text (`xml.EscapeText`) for character data. -/
def tokenText : Token → List Char
  | .StartElement n => '<' :: (n.Local.data ++ ['>'])
  | .EndElement n => '<' :: '/' :: (n.Local.data ++ ['>'])
  | .CharData s => (EscapeText s).data
  | _ => []

/-- The text of a list of tokens, one after the other. -/
def tokensText : List Token → List Char
  | [] => []
  | t :: ts => tokenText t ++ tokensText ts

/-- The names of the elements left open after the tokens `ts`, when those
open before are `stk` (innermost first); `none` when the tokens are not the
ones of their text: a tag with a name outside the modelled fragment, an end
tag that does not close the innermost open element, empty character data or
character data out of the XML character range or in front of a token that is
not a tag, or any other kind of token. -/
def openAfter : List (List Char) → List Token → Option (List (List Char))
  | stk, [] => some stk
  | stk, .StartElement n :: ts =>
    if n.Space = "" ∧ goodTag n.Local = true then openAfter (n.Local.data :: stk) ts else none
  | stk, .EndElement n :: ts =>
    if n.Space = "" ∧ goodTag n.Local = true ∧ stk.head? = some n.Local.data then
      openAfter stk.tail ts
    else none
  | stk, .CharData s :: ts =>
    if s.data ≠ [] ∧ s.data.all isInCharacterRange = true ∧
        ts.head?.map Token.isTag ≠ some false then
      openAfter stk ts
    else none
  | _, _ :: _ => none

/-- The tokens of the response document `responseDocOf args`. -/
def responseTokens (args : List GoValue) : List Token :=
  startTag "methodResponse" :: startTag "params" ::
    (paramsTokens args ++ [endTag "params", endTag "methodResponse"])

/-- Whether `xml.EscapeText` writes the character as it is. -/
def keptChar (c : Char) : Bool := decide (escapeChar c = [c])

/-! ## Theorems -/

set_option maxRecDepth 100000
set_option maxHeartbeats 4000000

/-! ### Decimal numerals -/

theorem digitVal_digitChar (d : Nat) (h : d < 10) : digitVal (digitChar d) = some d := by
  interval_cases d <;> rfl

theorem parseDigits_decimalAux (fuel : Nat) :
    ∀ (n : Nat) (acc : List Char), n < fuel →
      parseDigits (decimalAux fuel n acc) 0 = parseDigits acc n := by
  induction fuel with
  | zero => intro n acc h; omega
  | succ fuel ih =>
    intro n acc h
    unfold decimalAux
    have hd : digitVal (digitChar (n % 10)) = some (n % 10) :=
      digitVal_digitChar _ (Nat.mod_lt _ (by decide))
    split
    · next h0 =>
      have h1 : n % 10 = n := by omega
      rw [h1] at hd
      simp only [parseDigits, hd, h1, Nat.zero_mul, Nat.zero_add]
    · next h0 =>
      rw [ih (n / 10) _ (by omega)]
      simp only [parseDigits, hd]
      congr 1
      omega

theorem parseDigits_decimalNat (n : Nat) : parseDigits (decimalNat n) 0 = some n := by
  unfold decimalNat
  rw [parseDigits_decimalAux _ _ _ (Nat.lt_succ_self n)]
  rfl

theorem decimalAux_head (fuel : Nat) :
    ∀ (n d : Nat) (acc : List Char), d < 10 →
      ∃ d1 tl, d1 < 10 ∧ decimalAux fuel n (digitChar d :: acc) = digitChar d1 :: tl := by
  induction fuel with
  | zero => intro n d acc h; exact ⟨d, acc, h, rfl⟩
  | succ fuel ih =>
    intro n d acc h
    unfold decimalAux
    split
    · exact ⟨n % 10, _, Nat.mod_lt _ (by decide), rfl⟩
    · exact ih _ _ _ (Nat.mod_lt _ (by decide))

theorem decimalNat_head (n : Nat) :
    ∃ d1 tl, d1 < 10 ∧ decimalNat n = digitChar d1 :: tl := by
  unfold decimalNat decimalAux
  split
  · exact ⟨n % 10, _, Nat.mod_lt _ (by decide), rfl⟩
  · exact decimalAux_head _ _ _ _ (Nat.mod_lt _ (by decide))

theorem digitChar_ne_sign (d : Nat) (h : d < 10) :
    digitChar d ≠ '+' ∧ digitChar d ≠ '-' := by
  interval_cases d <;> decide

/-! ### `ParseInt` reads base-10 numerals -/

theorem digitVal_isDigit (c : Char) :
    digitVal c = if c.isDigit = true then some (c.toNat - 48) else none := by
  simp only [digitVal, Char.isDigit, Char.toNat, Bool.and_eq_true, decide_eq_true_eq]
  have e1 : (c.val ≥ 48) ↔ 48 ≤ c.val.toNat := by
    rw [ge_iff_le, UInt32.le_def]; rfl
  have e2 : (c.val ≤ 57) ↔ c.val.toNat ≤ 57 := by
    rw [UInt32.le_def]; rfl
  simp only [e1, e2]

theorem parseDigits_ofDigits : ∀ (cs : List Char) (acc : Nat),
    parseDigits cs acc =
      if cs.all Char.isDigit = true then
        some (acc * 10 ^ cs.length + Nat.ofDigits 10 (cs.reverse.map fun c => c.toNat - 48))
      else none
  | [], acc => by simp [parseDigits]
  | c :: cs, acc => by
    rw [parseDigits, digitVal_isDigit]
    by_cases hc : c.isDigit = true
    · simp only [hc, if_true, List.all_cons, Bool.true_and]
      rw [parseDigits_ofDigits cs]
      by_cases hcs : cs.all Char.isDigit = true
      · simp only [hcs, if_true, List.reverse_cons, List.map_append, List.map_cons, List.map_nil,
          Nat.ofDigits_append, Nat.ofDigits_singleton, List.length_map, List.length_reverse,
          List.length_cons]
        congr 1
        ring
      · simp only [hcs]
        simp
    · simp [hc]

theorem parseDigits_digitsValue (cs : List Char) (h : cs ≠ []) :
    parseDigits cs 0 = digitsValue cs := by
  rw [parseDigits_ofDigits, digitsValue]
  simp [h]

theorem digitsValue_nil : digitsValue [] = none := by
  simp [digitsValue]

theorem digitsNat_nil : digitsNat [] = 0 := by
  simp [digitsNat]

theorem digitsNat_cons (c : Char) (cs : List Char) :
    digitsNat (c :: cs) = (c.toNat - 48) * 10 ^ cs.length + digitsNat cs := by
  simp only [digitsNat, List.reverse_cons, List.map_append, List.map_cons, List.map_nil,
    Nat.ofDigits_append, Nat.ofDigits_singleton, List.length_map, List.length_reverse]
  ring

/-- The result of the loop of `ParseUint`: a range error when the digits in
front pass the bound, else the number when all characters are digits, else a
syntax error. -/
theorem parseUintLoop_eq (bitSize : Nat) (hb : bitSize ≤ 64) :
    ∀ (cs : List Char) (n : Nat), n ≤ 2 ^ bitSize - 1 →
      parseUintLoop bitSize cs n =
        if 2 ^ bitSize - 1 < n * 10 ^ (cs.takeWhile Char.isDigit).length +
            digitsNat (cs.takeWhile Char.isDigit) then (2 ^ bitSize - 1, some true)
        else if cs.all Char.isDigit = true then (n * 10 ^ cs.length + digitsNat cs, none)
        else (0, some false)
  | [], n, hn => by
    simp [parseUintLoop, digitsNat_nil, Nat.not_lt.mpr hn]
  | c :: cs, n, hn => by
    have hM : 2 ^ bitSize - 1 ≤ 2 ^ 64 - 1 :=
      Nat.sub_le_sub_right (Nat.pow_le_pow_right (by decide) hb) 1
    have h10 : 1 ≤ 10 ^ (cs.takeWhile Char.isDigit).length := Nat.one_le_pow _ _ (by decide)
    rw [parseUintLoop, digitVal_isDigit]
    by_cases hc : c.isDigit = true
    · simp only [hc, if_true, List.takeWhile_cons, List.length_cons, digitsNat_cons,
        List.all_cons, Bool.true_and]
      generalize hd : c.toNat - 48 = d
      have hd9 : d ≤ 9 := by
        have h1 := hc
        simp only [Char.isDigit, Bool.and_eq_true, decide_eq_true_eq] at h1
        have e2 : c.val.toNat ≤ 57 := by
          have := h1.2
          rw [UInt32.le_def] at this
          exact this
        have : c.toNat = c.val.toNat := rfl
        omega
      generalize hP : (cs.takeWhile Char.isDigit).length = k at h10 ⊢
      generalize hV : digitsNat (cs.takeWhile Char.isDigit) = w
      have hv : n * 10 ^ (k + 1) + (d * 10 ^ k + w) = (n * 10 + d) * 10 ^ k + w := by ring
      have hge : n * 10 + d ≤ (n * 10 + d) * 10 ^ k + w :=
        Nat.le_trans (Nat.le_mul_of_pos_right _ h10) (Nat.le_add_right _ _)
      rw [hv]
      by_cases h1 : n ≥ (2 ^ 64 - 1) / 10 + 1
      · have h2 : 2 ^ bitSize - 1 < (n * 10 + d) * 10 ^ k + w := by
          have : (2 : Nat) ^ 64 - 1 < n * 10 := by
            have e : ((2 : Nat) ^ 64 - 1) / 10 + 1 = 1844674407370955162 := by norm_num
            have e2 : (2 : Nat) ^ 64 - 1 = 18446744073709551615 := by norm_num
            rw [e] at h1
            rw [e2]
            omega
          omega
        simp only [h1, h2, if_true]
      · have e : ((2 : Nat) ^ 64 - 1) / 10 + 1 = 1844674407370955162 := by norm_num
        have e2 : (2 : Nat) ^ 64 = 18446744073709551616 := by norm_num
        have h1n : n < 1844674407370955162 := by rw [e] at h1; omega
        have hm : n * 10 % 2 ^ 64 = n * 10 := Nat.mod_eq_of_lt (by rw [e2]; omega)
        simp only [if_neg h1, hm]
        by_cases h3 : n * 10 + d < 2 ^ 64
        · have hm2 : (n * 10 + d) % 2 ^ 64 = n * 10 + d := Nat.mod_eq_of_lt h3
          rw [hm2]
          by_cases h4 : n * 10 + d > 2 ^ bitSize - 1
          · have h2 : 2 ^ bitSize - 1 < (n * 10 + d) * 10 ^ k + w := by omega
            simp only [h4, or_true, if_true, h2]
          · have h5 : ¬ (n * 10 + d < n * 10 ∨ n * 10 + d > 2 ^ bitSize - 1) := by omega
            rw [if_neg h5, parseUintLoop_eq bitSize hb cs (n * 10 + d) (by omega), hP, hV]
            have hv2 : n * 10 ^ (cs.length + 1) + (d * 10 ^ cs.length + digitsNat cs) =
                (n * 10 + d) * 10 ^ cs.length + digitsNat cs := by ring
            rw [hv2]
        · have hm2 : (n * 10 + d) % 2 ^ 64 < n * 10 := by
            have : (n * 10 + d) % 2 ^ 64 = n * 10 + d - 2 ^ 64 := by
              rw [Nat.mod_eq_sub_mod (by omega)]
              exact Nat.mod_eq_of_lt (by rw [e2] at h3 ⊢; omega)
            rw [this, e2]
            rw [e2] at h3
            omega
          have h2 : 2 ^ bitSize - 1 < (n * 10 + d) * 10 ^ k + w := by
            rw [e2] at h3
            have : (2 : Nat) ^ 64 - 1 = 18446744073709551615 := by norm_num
            omega
          simp only [hm2, true_or, if_true, h2]
    · simp [hc, digitsNat_nil, Nat.not_lt.mpr hn]

theorem takeWhile_of_all (cs : List Char) (h : cs.all Char.isDigit = true) :
    cs.takeWhile Char.isDigit = cs := by
  induction cs with
  | nil => rfl
  | cons c cs ih =>
    simp only [List.all_cons, Bool.and_eq_true] at h
    simp [List.takeWhile_cons, h.1, ih h.2]

theorem digitsValue_eq (cs : List Char) :
    digitsValue cs = if cs ≠ [] ∧ cs.all Char.isDigit = true then some (digitsNat cs) else none :=
  rfl

theorem ParseUint_eq (bitSize : Nat) (hb : bitSize ≤ 64) (body : List Char) :
    ParseUint body bitSize =
      if 2 ^ bitSize - 1 < digitsNat (body.takeWhile Char.isDigit) then
        (2 ^ bitSize - 1, some true)
      else
        match digitsValue body with
        | some un => (un, none)
        | none => (0, some false) := by
  unfold ParseUint
  by_cases h : body = []
  · subst h
    simp [digitsNat_nil, digitsValue_eq]
  · rw [if_neg h, parseUintLoop_eq bitSize hb body 0 (Nat.zero_le _)]
    simp only [Nat.zero_mul, Nat.zero_add, digitsValue_eq]
    split
    · rfl
    · by_cases ha : body.all Char.isDigit = true
      · simp [h, ha]
      · simp [h, ha]

theorem ParseInt_range (s : String) (bitSize : Nat) (neg : Bool) (un : Nat) :
    (if !neg ∧ un ≥ 2 ^ (bitSize - 1) then
        (Int.ofNat (2 ^ (bitSize - 1) - 1), some (GoError.numError "ParseInt" s true))
      else if neg ∧ un > 2 ^ (bitSize - 1) then
        (-(Int.ofNat (2 ^ (bitSize - 1))), some (GoError.numError "ParseInt" s true))
      else if neg then (-(Int.ofNat un), none)
      else (Int.ofNat un, none)) =
      (if (if neg then -(un : Int) else (un : Int)) < -(2 ^ (bitSize - 1) : Int) then
        (-(2 ^ (bitSize - 1) : Int), some (GoError.numError "ParseInt" s true))
      else if (2 ^ (bitSize - 1) : Int) ≤ (if neg then -(un : Int) else (un : Int)) then
        ((2 ^ (bitSize - 1) : Int) - 1, some (GoError.numError "ParseInt" s true))
      else ((if neg then -(un : Int) else (un : Int)), none)) := by
  have hC : 0 < 2 ^ (bitSize - 1) := Nat.pow_pos (by decide)
  have hcast : ((2 ^ (bitSize - 1) : Nat) : Int) = (2 ^ (bitSize - 1) : Int) := by push_cast; rfl
  generalize 2 ^ (bitSize - 1) = C at hC hcast
  generalize (2 ^ (bitSize - 1) : Int) = CI at hcast
  subst hcast
  cases neg with
  | true =>
    simp only [Bool.not_true, Bool.false_eq_true, false_and, if_false, true_and, if_true,
      Int.ofNat_eq_coe]
    by_cases h : un > C
    · have h1 : -(un : Int) < -(C : Int) := by omega
      simp only [h, h1, if_true]
    · have h1 : ¬ (-(un : Int) < -(C : Int)) := by omega
      have h2 : ¬ ((C : Int) ≤ -(un : Int)) := by omega
      simp only [h, h1, h2, if_false]
  | false =>
    simp only [Bool.not_false, true_and, Bool.false_eq_true, false_and, if_false,
      Int.ofNat_eq_coe]
    by_cases h : un ≥ C
    · have h1 : ¬ ((un : Int) < -(C : Int)) := by omega
      have h2 : (C : Int) ≤ (un : Int) := by omega
      have h3 : ((C - 1 : Nat) : Int) = (C : Int) - 1 := by omega
      simp only [h, h1, h2, h3, if_true, if_false]
    · have h1 : ¬ ((un : Int) < -(C : Int)) := by omega
      have h2 : ¬ ((C : Int) ≤ (un : Int)) := by omega
      simp only [h, h1, h2, if_false]

theorem ParseInt_key (s : String) (bitSize : Nat) (h2 : 2 ≤ bitSize) (h64 : bitSize ≤ 64)
    (neg : Bool) (body : List Char) :
    (match ParseUint body bitSize with
      | (_, some false) => (0, some (GoError.numError "ParseInt" s false))
      | (un, _) =>
        if !neg ∧ un ≥ 2 ^ (bitSize - 1) then
          (Int.ofNat (2 ^ (bitSize - 1) - 1), some (GoError.numError "ParseInt" s true))
        else if neg ∧ un > 2 ^ (bitSize - 1) then
          (-(Int.ofNat (2 ^ (bitSize - 1))), some (GoError.numError "ParseInt" s true))
        else if neg then (-(Int.ofNat un), none)
        else (Int.ofNat un, none)) =
      match (digitsValue body).map fun n => if neg then -(n : Int) else (n : Int) with
      | some n =>
        if n < -(2 ^ (bitSize - 1) : Int) then
          (-(2 ^ (bitSize - 1) : Int), some (.numError "ParseInt" s true))
        else if (2 ^ (bitSize - 1) : Int) ≤ n then
          ((2 ^ (bitSize - 1) : Int) - 1, some (.numError "ParseInt" s true))
        else (n, none)
      | none =>
        if decide (2 ^ bitSize - 1 < digitsNat (body.takeWhile Char.isDigit)) = true then
          ((if neg then -(2 ^ (bitSize - 1) : Int) else (2 ^ (bitSize - 1) : Int) - 1),
            some (.numError "ParseInt" s true))
        else (0, some (.numError "ParseInt" s false)) := by
  have hpow : 2 ^ bitSize = 2 * 2 ^ (bitSize - 1) := by
    obtain ⟨k, rfl⟩ : ∃ k, bitSize = k + 1 := ⟨bitSize - 1, by omega⟩
    simp [Nat.pow_succ, Nat.mul_comm]
  have hC : 2 ≤ 2 ^ (bitSize - 1) := by
    obtain ⟨k, rfl⟩ : ∃ k, bitSize = k + 2 := ⟨bitSize - 2, by omega⟩
    have : 1 ≤ 2 ^ k := Nat.one_le_pow _ _ (by decide)
    show 2 ≤ 2 ^ (k + 1)
    rw [Nat.pow_succ]
    omega
  have hcast : ((2 ^ (bitSize - 1) : Nat) : Int) = (2 ^ (bitSize - 1) : Int) := by push_cast; rfl
  rw [ParseUint_eq bitSize h64 body]
  by_cases hov : 2 ^ bitSize - 1 < digitsNat (body.takeWhile Char.isDigit)
  · have hr := ParseInt_range s bitSize neg (2 ^ bitSize - 1)
    simp only [if_pos hov, decide_eq_true_eq]
    rw [hr]
    have b1 : (2 ^ (bitSize - 1) : Int) ≤ ((2 ^ bitSize - 1 : Nat) : Int) := by
      rw [← hcast]; omega
    have b2 : (0 : Int) < (2 ^ (bitSize - 1) : Int) := by
      rw [← hcast]; omega
    have b3 : (2 ^ (bitSize - 1) : Int) < ((2 ^ bitSize - 1 : Nat) : Int) := by
      rw [← hcast]; omega
    by_cases hd : body ≠ [] ∧ body.all Char.isDigit = true
    · rw [takeWhile_of_all body hd.2] at hov
      have hdv : digitsValue body = some (digitsNat body) := by
        rw [digitsValue_eq, if_pos hd]
      have b4 : ((2 ^ bitSize - 1 : Nat) : Int) < ((digitsNat body : Nat) : Int) := by
        exact_mod_cast hov
      rw [hdv]
      cases neg with
      | true =>
        have a1 : -(((2 ^ bitSize - 1 : Nat) : Int)) < -(2 ^ (bitSize - 1) : Int) := by omega
        have a2 : -((digitsNat body : Nat) : Int) < -(2 ^ (bitSize - 1) : Int) := by omega
        simp only [if_true, a1]
        show _ = if -((digitsNat body : Nat) : Int) < -(2 ^ (bitSize - 1) : Int) then _ else _
        rw [if_pos a2]
      | false =>
        have a1 : ¬ (((2 ^ bitSize - 1 : Nat) : Int)) < -(2 ^ (bitSize - 1) : Int) := by omega
        have a2 : ¬ ((digitsNat body : Nat) : Int) < -(2 ^ (bitSize - 1) : Int) := by omega
        have a4 : (2 ^ (bitSize - 1) : Int) ≤ ((digitsNat body : Nat) : Int) := by omega
        simp only [Bool.false_eq_true, if_false, a1, b1, if_true]
        show _ = if ((digitsNat body : Nat) : Int) < -(2 ^ (bitSize - 1) : Int) then _
          else if (2 ^ (bitSize - 1) : Int) ≤ ((digitsNat body : Nat) : Int) then _ else _
        rw [if_neg a2, if_pos a4]
    · have hdv : digitsValue body = none := by
        rw [digitsValue_eq, if_neg hd]
      rw [hdv]
      cases neg with
      | true =>
        have a1 : -(((2 ^ bitSize - 1 : Nat) : Int)) < -(2 ^ (bitSize - 1) : Int) := by omega
        simp only [if_true, a1]
        rfl
      | false =>
        have a1 : ¬ (((2 ^ bitSize - 1 : Nat) : Int)) < -(2 ^ (bitSize - 1) : Int) := by omega
        simp only [Bool.false_eq_true, if_false, a1, b1, if_true]
        rfl
  · simp only [if_neg hov, decide_eq_true_eq]
    cases hdv : digitsValue body with
    | none => rfl
    | some un => exact ParseInt_range s bitSize neg un

/-- The function `ParseInt` in terms of the numeral that the text is, for a
`bitSize` from 2 to 64. -/
theorem ParseInt_numeral (s : String) (bitSize : Nat) (h2 : 2 ≤ bitSize) (h64 : bitSize ≤ 64) :
    ParseInt s bitSize =
      match numeralValue s with
      | some n =>
        if n < -(2 ^ (bitSize - 1) : Int) then
          (-(2 ^ (bitSize - 1) : Int), some (.numError "ParseInt" s true))
        else if (2 ^ (bitSize - 1) : Int) ≤ n then
          ((2 ^ (bitSize - 1) : Int) - 1, some (.numError "ParseInt" s true))
        else (n, none)
      | none =>
        if leadingOverflow bitSize s = true then
          ((if s.data.head? = some '-' then -(2 ^ (bitSize - 1) : Int)
            else (2 ^ (bitSize - 1) : Int) - 1), some (.numError "ParseInt" s true))
        else (0, some (.numError "ParseInt" s false)) := by
  unfold ParseInt numeralValue leadingOverflow unsignedPart
  simp only
  by_cases he : s.data = []
  · simp [he, digitsValue_eq, digitsNat_nil]
  · rw [if_neg he]
    by_cases hm : s.data.head? = some '-'
    · have hp : s.data.head? ≠ some '+' := by rw [hm]; decide
      have := ParseInt_key s bitSize h2 h64 true s.data.tail
      simp only [hm, hp, or_true, if_true, decide_True] at this ⊢
      simpa using this
    · by_cases hp : s.data.head? = some '+'
      · have := ParseInt_key s bitSize h2 h64 false s.data.tail
        simp only [hm, hp, true_or, if_true, if_false, decide_False] at this ⊢
        simpa using this
      · have := ParseInt_key s bitSize h2 h64 false s.data
        simp only [hm, hp, or_self, if_false, decide_False] at this ⊢
        simpa using this

theorem numeralValue_formatInt (n : Int) : numeralValue (formatInt n) = some n := by
  cases n with
  | ofNat k =>
    obtain ⟨d, tl, hd, htl⟩ := decimalNat_head k
    obtain ⟨h1, h2⟩ := digitChar_ne_sign d hd
    have hne : decimalNat k ≠ [] := by rw [htl]; exact List.cons_ne_nil _ _
    have hv : digitsValue (decimalNat k) = some k := by
      rw [← parseDigits_digitsValue _ hne, parseDigits_decimalNat]
    have hh : (decimalNat k).head? = some (digitChar d) := by rw [htl]; rfl
    have e1 : ¬ (some (digitChar d) = some '-') := by
      intro hc; exact h2 (Option.some.inj hc)
    have e2 : ¬ (some (digitChar d) = some '+') := by
      intro hc; exact h1 (Option.some.inj hc)
    simp only [numeralValue, formatInt, hh, if_neg e1, if_neg e2, hv]
    rfl
  | negSucc k =>
    obtain ⟨d, tl, _, htl⟩ := decimalNat_head (k + 1)
    have hne : decimalNat (k + 1) ≠ [] := by rw [htl]; exact List.cons_ne_nil _ _
    have hv : digitsValue (decimalNat (k + 1)) = some (k + 1) := by
      rw [← parseDigits_digitsValue _ hne, parseDigits_decimalNat]
    simp only [numeralValue, formatInt, List.head?_cons, if_true, List.tail_cons, hv]
    rfl

theorem ParseInt_formatInt (bitSize : Nat) (n : Int)
    (hlo : -(2 ^ (bitSize - 1) : Int) ≤ n) (hhi : n < (2 ^ (bitSize - 1) : Int))
    (h2 : 2 ≤ bitSize) (h64 : bitSize ≤ 64) :
    ParseInt (formatInt n) bitSize = (n, none) := by
  rw [ParseInt_numeral _ _ h2 h64, numeralValue_formatInt]
  simp only [if_neg (Int.not_lt.mpr hlo), if_neg (Int.not_le.mpr hhi)]

/-! ### Base64 -/

theorem decodeSextet_encodeSextet (i : Nat) (h : i < 64) :
    decodeSextet (encodeSextet i) = some i := by
  interval_cases i <;> rfl

theorem decodeSextet_pad : decodeSextet '=' = none := by rfl

theorem quantum_three (a b c : Byte) :
    quantumBytes [a.val / 4, a.val % 4 * 16 + b.val / 16, b.val % 16 * 4 + c.val / 64,
      c.val % 64] = [a, b, c] := by
  have ha := a.isLt
  have hb := b.isLt
  have hc := c.isLt
  simp only [quantumBytes, byteOf, List.cons.injEq, and_true]
  refine ⟨?_, ?_, ?_⟩ <;> apply Fin.ext <;> simp only <;> omega

theorem quantum_two (a b : Byte) :
    quantumBytes [a.val / 4, a.val % 4 * 16 + b.val / 16, b.val % 16 * 4] = [a, b] := by
  have ha := a.isLt
  have hb := b.isLt
  simp only [quantumBytes, byteOf, List.cons.injEq, and_true]
  refine ⟨?_, ?_⟩ <;> apply Fin.ext <;> simp only <;> omega

theorem quantum_one (a : Byte) :
    quantumBytes [a.val / 4, a.val % 4 * 16] = [a] := by
  have ha := a.isLt
  simp only [quantumBytes, byteOf, List.cons.injEq, and_true]
  apply Fin.ext; simp only; omega

theorem base64DecodeLoop_encode (b : List Byte) :
    ∀ out, base64DecodeLoop (base64Encode b) [] out = (out ++ b, none) := by
  induction b using base64Encode.induct with
  | case1 => intro out; simp [base64Encode, base64DecodeLoop]
  | case2 a =>
    intro out
    have ha := a.isLt
    have h0 := decodeSextet_encodeSextet (a.val / 4) (by omega)
    have h1 := decodeSextet_encodeSextet (a.val % 4 * 16) (by omega)
    simp [base64Encode, base64DecodeLoop, h0, h1, decodeSextet_pad, skipNewlines, quantum_one]
  | case3 a b =>
    intro out
    have ha := a.isLt
    have hb := b.isLt
    have h0 := decodeSextet_encodeSextet (a.val / 4) (by omega)
    have h1 := decodeSextet_encodeSextet (a.val % 4 * 16 + b.val / 16) (by omega)
    have h2 := decodeSextet_encodeSextet (b.val % 16 * 4) (by omega)
    simp [base64Encode, base64DecodeLoop, h0, h1, h2, decodeSextet_pad, skipNewlines,
      quantum_two]
  | case4 a b c rest ih =>
    intro out
    have ha := a.isLt
    have hb := b.isLt
    have hc := c.isLt
    have h0 := decodeSextet_encodeSextet (a.val / 4) (by omega)
    have h1 := decodeSextet_encodeSextet (a.val % 4 * 16 + b.val / 16) (by omega)
    have h2 := decodeSextet_encodeSextet (b.val % 16 * 4 + c.val / 64) (by omega)
    have h3 := decodeSextet_encodeSextet (c.val % 64) (by omega)
    simp [base64Encode, base64DecodeLoop, h0, h1, h2, h3, quantum_three, ih]

theorem DecodeString_EncodeToString (b : List Byte) :
    DecodeString (EncodeToString b) = (b, none) := by
  simp [DecodeString, EncodeToString, base64DecodeLoop_encode]

/-! ### The encoder appends to its buffer -/

theorem marshalValueBody_buf (typ : String → String × Option GoError) (buf : String)
    (h : ∀ b, typ b = (b ++ (typ "").1, (typ "").2)) :
    marshalValueBody typ buf =
      (buf ++ (marshalValueBody typ "").1, (marshalValueBody typ "").2) := by
  unfold marshalValueBody
  simp only
  rw [h (buf ++ "<value>"), h ("" ++ "<value>")]
  cases (typ "").2 <;> simp [String.append_assoc]

theorem marshalArrayBody_buf (loop : String → String × Option GoError) (buf : String)
    (h : ∀ b, loop b = (b ++ (loop "").1, (loop "").2)) :
    marshalArrayBody loop buf =
      (buf ++ (marshalArrayBody loop "").1, (marshalArrayBody loop "").2) := by
  unfold marshalArrayBody
  simp only
  rw [h (buf ++ "<array><data>"), h ("" ++ "<array><data>")]
  simp [String.append_assoc]

theorem marshalStructBody_buf (loop : String → String × Option GoError) (buf : String)
    (h : ∀ b, loop b = (b ++ (loop "").1, (loop "").2)) :
    marshalStructBody loop buf =
      (buf ++ (marshalStructBody loop "").1, (marshalStructBody loop "").2) := by
  unfold marshalStructBody
  simp only
  rw [h (buf ++ "<struct>"), h ("" ++ "<struct>")]
  cases (loop "").2 <;> simp [String.append_assoc]

mutual
theorem marshalType_buf : ∀ (v : GoValue) (buf : String),
    marshalType buf v = (buf ++ (marshalType "" v).1, (marshalType "" v).2)
  | .nil, buf => by simp [marshalType]
  | .bytes b, buf => by simp [marshalType, String.append_assoc]
  | .str s, buf => by simp [marshalType, String.append_assoc]
  | .bool b, buf => by simp [marshalType, String.append_assoc]
  | .int n, buf => by simp [marshalType, String.append_assoc]
  | .int64 n, buf => by simp [marshalType, String.append_assoc]
  | .slice xs, buf => by
    simp only [marshalType]
    exact marshalArrayBody_buf _ _ (fun b => marshalArrayLoop_buf xs b)
  | .map m, buf => by
    simp only [marshalType]
    exact marshalStructBody_buf _ _ (fun b => marshalMapLoop_buf m b)
  | .struct m, buf => by
    simp only [marshalType]
    exact marshalStructBody_buf _ _ (fun b => marshalStructLoop_buf m b)
  | .ptr t, buf => by
    simp only [marshalType]
    exact marshalValueBody_buf _ _ (fun b => marshalType_buf t b)
  | .other n, buf => by simp [marshalType]
theorem marshalArrayLoop_buf : ∀ (xs : List GoValue) (buf : String),
    marshalArrayLoop buf xs = (buf ++ (marshalArrayLoop "" xs).1, (marshalArrayLoop "" xs).2)
  | [], buf => by simp [marshalArrayLoop]
  | e :: es, buf => by
    have h1 := marshalValueBody_buf _ buf (fun b => marshalType_buf e b)
    simp only [marshalArrayLoop]
    rw [h1]
    cases h : (marshalValueBody (fun b => marshalType b e) "") with
    | mk o err =>
      cases err with
      | some x => simp
      | none =>
        simp only
        rw [marshalArrayLoop_buf es (buf ++ o), marshalArrayLoop_buf es o]
        simp [String.append_assoc]
theorem marshalMapLoop_buf : ∀ (m : List (String × GoValue)) (buf : String),
    marshalMapLoop buf m = (buf ++ (marshalMapLoop "" m).1, (marshalMapLoop "" m).2)
  | [], buf => by simp [marshalMapLoop]
  | (k, v) :: rest, buf => by
    have h1 := marshalValueBody_buf _ (buf ++ "<member>" ++ "<name>" ++ EscapeText k ++ "</name>")
      (fun b => marshalType_buf v b)
    have h2 := marshalValueBody_buf _ ("" ++ "<member>" ++ "<name>" ++ EscapeText k ++ "</name>")
      (fun b => marshalType_buf v b)
    simp only [marshalMapLoop]
    rw [h1, h2]
    cases h : (marshalValueBody (fun b => marshalType b v) "") with
    | mk o err =>
      cases err with
      | some x => simp [String.append_assoc]
      | none =>
        simp only
        rw [marshalMapLoop_buf rest (_ ++ "</member>"),
          marshalMapLoop_buf rest (("" ++ "<member>" ++ "<name>" ++ EscapeText k ++ "</name>" ++ o) ++ "</member>")]
        simp [String.append_assoc]
theorem marshalStructLoop_buf : ∀ (m : List (String × GoValue)) (buf : String),
    marshalStructLoop buf m = (buf ++ (marshalStructLoop "" m).1, (marshalStructLoop "" m).2)
  | [], buf => by simp [marshalStructLoop]
  | (k, v) :: rest, buf => by
    have h1 := marshalValueBody_buf _ (buf ++ "<member>" ++ "<name>" ++ EscapeText k ++ "</name>")
      (fun b => marshalType_buf v b)
    have h2 := marshalValueBody_buf _ ("" ++ "<member>" ++ "<name>" ++ EscapeText k ++ "</name>")
      (fun b => marshalType_buf v b)
    simp only [marshalStructLoop]
    rw [h1, h2]
    cases h : (marshalValueBody (fun b => marshalType b v) "") with
    | mk o err =>
      cases err with
      | some x => simp [String.append_assoc]
      | none =>
        simp only
        rw [marshalStructLoop_buf rest (_ ++ "</member>"),
          marshalStructLoop_buf rest (("" ++ "<member>" ++ "<name>" ++ EscapeText k ++ "</name>" ++ o) ++ "</member>")]
        simp [String.append_assoc]
end

theorem marshalValue_buf (v : GoValue) (buf : String) :
    marshalValue buf v = (buf ++ (marshalValue "" v).1, (marshalValue "" v).2) :=
  marshalValueBody_buf _ _ (fun b => marshalType_buf v b)

theorem marshalArgs_ok (args : List GoValue) :
    ∀ buf, (∀ a ∈ args, (marshalValue "" a).2 = none) →
      marshalArgs buf args = (buf ++ paramsText args, none) := by
  induction args with
  | nil => intro buf _; simp [marshalArgs, paramsText]
  | cons a rest ih =>
    intro buf h
    have ha : (marshalValue "" a).2 = none := h a (List.mem_cons_self _ _)
    have hr : ∀ x ∈ rest, (marshalValue "" x).2 = none :=
      fun x hx => h x (List.mem_cons_of_mem _ hx)
    simp only [marshalArgs, paramsText]
    rw [marshalValue_buf a (buf ++ "<param>"), ha]
    simp only
    rw [ih _ hr]
    simp [String.append_assoc]

/-! ### The tokenizer on the text written by the encoder -/

theorem readName_append (n : List Char) (t : List Char) (hn : n.all isNameByte = true) :
    readName (n ++ '>' :: t) = (n, '>' :: t) := by
  induction n with
  | nil => simp [readName, isNameByte]
  | cons c n ih =>
    simp only [List.all_cons, Bool.and_eq_true] at hn
    simp [readName, hn.1, ih hn.2]

theorem nameOk_head (n : List Char) (h : nameOk n = true) :
    ∃ c tl, n = c :: tl ∧ c ≠ '/' ∧ c ≠ '?' ∧ c ≠ '!' := by
  cases n with
  | nil => simp [nameOk] at h
  | cons c tl =>
    refine ⟨c, tl, rfl, ?_, ?_, ?_⟩ <;>
    · rintro rfl
      simp [nameOk] at h

theorem tokenize_start (name : String) (h : goodTag name = true) (fuel : Nat)
    (stk : List (List Char)) (t : List Char) :
    tokenize (fuel + 1) stk ('<' :: (name.data ++ '>' :: t)) =
      (tokenize fuel (name.data :: stk) t).push (startTag name) := by
  simp only [goodTag, Bool.and_eq_true] at h
  obtain ⟨c, tl, hn, h1, h2, h3⟩ := nameOk_head _ h.1
  have hr := readName_append name.data t h.2
  have hne : name.data ≠ [] := by rw [hn]; exact List.cons_ne_nil _ _
  have hhead : (name.data ++ '>' :: t).head? = some c := by rw [hn]; rfl
  have hne2 : name.data ++ '>' :: t ≠ [] := by rw [hn]; exact List.cons_ne_nil _ _
  rw [tokenize]
  simp [hne2, hhead, h1, h2, h3, hr, hne, h.1, skipSpace, startTag]

theorem tokenize_end (name : String) (h : goodTag name = true) (fuel : Nat)
    (stk : List (List Char)) (t : List Char) :
    tokenize (fuel + 1) (name.data :: stk) ('<' :: '/' :: (name.data ++ '>' :: t)) =
      (tokenize fuel stk t).push (endTag name) := by
  simp only [goodTag, Bool.and_eq_true] at h
  obtain ⟨c, tl, hn, h1, h2, h3⟩ := nameOk_head _ h.1
  have hr := readName_append name.data t h.2
  have hne : name.data ≠ [] := by rw [hn]; exact List.cons_ne_nil _ _
  rw [tokenize]
  simp [hr, hne, h.1, skipSpace, endTag]

theorem readText_nil (b0 b1 : Char) (acc t : List Char) :
    readText none b0 b1 acc ('<' :: t) = some (acc, '<' :: t) := by
  simp [readText]

theorem readText_plain_step (c b0 b1 : Char) (acc rest : List Char) (hc : plainChar c = true)
    (hb : b1 ≠ '\r') :
    readText none b0 b1 acc (c :: rest) = readText none b1 c (acc ++ [c]) rest := by
  simp only [plainChar, Bool.and_eq_true, bne_iff_ne, ne_eq] at hc
  obtain ⟨⟨⟨⟨h1, h2⟩, h3⟩, h4⟩, h5⟩ := hc
  simp [readText, h1, h2, h3, h4, hb]

theorem readText_plain (s : List Char) :
    ∀ (b0 b1 : Char) (acc t : List Char), (s.all plainChar = true) → b1 ≠ '\r' →
      readText none b0 b1 acc (s ++ '<' :: t) = some (acc ++ s, '<' :: t) := by
  induction s with
  | nil => intro b0 b1 acc t _ _; simp [readText_nil]
  | cons c s ih =>
    intro b0 b1 acc t hs hb
    simp only [List.all_cons, Bool.and_eq_true] at hs
    have hcr : c ≠ '\r' := by
      have := hs.1
      simp only [plainChar, Bool.and_eq_true, bne_iff_ne, ne_eq] at this
      exact this.1.2
    rw [List.cons_append, readText_plain_step c b0 b1 acc _ hs.1 hb, ih _ _ _ _ hs.2 hcr]
    simp

theorem readText_escapeChar (c b0 b1 : Char) (acc rest : List Char) (hb : b1 ≠ '\r') :
    ∃ b0' b1', b1' ≠ '\r' ∧
      readText none b0 b1 acc (escapeChar c ++ rest) =
        readText none b0' b1' (acc ++ [sanitize c]) rest := by
  unfold escapeChar
  split
  · next h =>
    subst h
    exact ⟨Char.ofNat 0, Char.ofNat 0, by decide, by
      simp [readText, resolveEntity, sanitize, isInCharacterRange, parseDigits, digitVal, runeOf]⟩
  split
  · next h =>
    subst h
    exact ⟨Char.ofNat 0, Char.ofNat 0, by decide, by
      simp [readText, resolveEntity, sanitize, isInCharacterRange, parseDigits, digitVal, runeOf]⟩
  split
  · next h =>
    subst h
    exact ⟨Char.ofNat 0, Char.ofNat 0, by decide, by
      simp [readText, resolveEntity, sanitize, isInCharacterRange]⟩
  split
  · next h =>
    subst h
    exact ⟨Char.ofNat 0, Char.ofNat 0, by decide, by
      simp [readText, resolveEntity, sanitize, isInCharacterRange]⟩
  split
  · next h =>
    subst h
    exact ⟨Char.ofNat 0, Char.ofNat 0, by decide, by
      simp [readText, resolveEntity, sanitize, isInCharacterRange]⟩
  split
  · next h =>
    subst h
    exact ⟨Char.ofNat 0, Char.ofNat 0, by decide, by
      simp [readText, resolveEntity, sanitize, isInCharacterRange, parseHex, hexVal, runeOf]⟩
  split
  · next h =>
    subst h
    exact ⟨Char.ofNat 0, Char.ofNat 0, by decide, by
      simp [readText, resolveEntity, sanitize, isInCharacterRange, parseHex, hexVal, runeOf]⟩
  split
  · next h =>
    subst h
    exact ⟨Char.ofNat 0, Char.ofNat 0, by decide, by
      simp [readText, resolveEntity, sanitize, isInCharacterRange, parseHex, hexVal, runeOf]⟩
  split
  · next h1 h2 h3 h4 h5 h6 h7 h8 h9 =>
    refine ⟨b1, Char.ofNat 0xFFFD, by decide, ?_⟩
    have hs : sanitize c = Char.ofNat 0xFFFD := by
      simp only [sanitize]
      simp only [Bool.not_eq_true'] at h9
      simp [h9]
    rw [hs]
    exact readText_plain_step _ _ _ _ _ (by decide) hb
  · next h1 h2 h3 h4 h5 h6 h7 h8 h9 =>
    have hv : isInCharacterRange c = true := by simpa using h9
    refine ⟨b1, c, h8, ?_⟩
    have hs : sanitize c = c := by simp [sanitize, hv]
    rw [hs]
    exact readText_plain_step _ _ _ _ _ (by simp [plainChar, h3, h4, h5, h8, hv]) hb

theorem readText_escapeChars (s : List Char) :
    ∀ (b0 b1 : Char) (acc t : List Char), b1 ≠ '\r' →
      readText none b0 b1 acc (escapeChars s ++ '<' :: t) =
        some (acc ++ s.map sanitize, '<' :: t) := by
  induction s with
  | nil => intro b0 b1 acc t _; simp [escapeChars, readText_nil]
  | cons c s ih =>
    intro b0 b1 acc t hb
    obtain ⟨b0', b1', hb', h⟩ := readText_escapeChar c b0 b1 acc (escapeChars s ++ '<' :: t) hb
    simp only [escapeChars, List.append_assoc]
    rw [h, ih _ _ _ _ hb']
    simp

theorem escapeChar_head (c : Char) : ∃ x tl, escapeChar c = x :: tl ∧ x ≠ '<' := by
  unfold escapeChar
  repeat' split
  all_goals first
    | exact ⟨_, _, rfl, by decide⟩
    | (next h => exact ⟨_, _, rfl, by assumption⟩)

theorem sanitize_valid (c : Char) : isInCharacterRange (sanitize c) = true := by
  unfold sanitize
  split
  · assumption
  · decide

theorem sanitize_of_valid (s : List Char) (h : s.all isInCharacterRange = true) :
    s.map sanitize = s := by
  induction s with
  | nil => rfl
  | cons c s ih =>
    simp only [List.all_cons, Bool.and_eq_true] at h
    simp [sanitize, h.1, ih h.2]

/-- Tokenizing non-empty character data followed by a tag. -/
theorem tokenize_text (x : Char) (tl data t : List Char) (fuel : Nat) (stk : List (List Char))
    (hx : x ≠ '<')
    (hr : readText none (Char.ofNat 0) (Char.ofNat 0) [] (x :: tl) = some (data, t))
    (hd : data.all isInCharacterRange = true) :
    tokenize (fuel + 1) stk (x :: tl) = (tokenize fuel stk t).push (.CharData ⟨data⟩) := by
  rw [tokenize]
  simp [hx, hr, hd]

theorem tokenize_escaped (s : String) (hs : s.data ≠ []) (t : List Char) (fuel : Nat)
    (stk : List (List Char)) :
    tokenize (fuel + 1) stk ((EscapeText s).data ++ '<' :: t) =
      (tokenize fuel stk ('<' :: t)).push (.CharData ⟨s.data.map sanitize⟩) := by
  have hr := readText_escapeChars s.data (Char.ofNat 0) (Char.ofNat 0) [] t (by decide)
  simp only [List.nil_append] at hr
  cases hsd : s.data with
  | nil => exact absurd hsd hs
  | cons c cs =>
    obtain ⟨x, tl, he, hx⟩ := escapeChar_head c
    rw [hsd] at hr
    simp only [EscapeText, hsd, escapeChars, he, List.cons_append] at hr ⊢
    refine tokenize_text x _ _ _ fuel stk hx hr ?_
    simp [sanitize_valid]

theorem tokenize_plain (s : List Char) (hs : s ≠ []) (hp : s.all plainChar = true)
    (t : List Char) (fuel : Nat) (stk : List (List Char)) :
    tokenize (fuel + 1) stk (s ++ '<' :: t) =
      (tokenize fuel stk ('<' :: t)).push (.CharData ⟨s⟩) := by
  have hr := readText_plain s (Char.ofNat 0) (Char.ofNat 0) [] t hp (by decide)
  simp only [List.nil_append] at hr
  cases s with
  | nil => exact absurd rfl hs
  | cons c cs =>
    simp only [List.all_cons, Bool.and_eq_true] at hp
    have hc : c ≠ '<' := by
      have := hp.1
      simp only [plainChar, Bool.and_eq_true, bne_iff_ne, ne_eq] at this
      exact this.1.1.1.1
    refine tokenize_text c _ _ _ fuel stk hc hr ?_
    simp only [List.all_cons, Bool.and_eq_true]
    refine ⟨?_, ?_⟩
    · have := hp.1
      simp only [plainChar, Bool.and_eq_true] at this
      exact this.2
    · rw [List.all_eq_true]
      intro y hy
      have := (List.all_eq_true.mp hp.2) y hy
      simp only [plainChar, Bool.and_eq_true] at this
      exact this.2

/-! ### The decoder on the tokens of a value -/

theorem startElement_start (n name : String) (ts : List Token) (flt : Option GoError)
    (h : name = any ∨ n = name) :
    startElement ⟨none, ⟨startTag n :: ts, flt⟩⟩ name =
      ((some ⟨"", n⟩, none), ⟨none, ⟨ts, flt⟩⟩) := by
  simp [startElement, startElementLoop, startTag, h]

theorem startElement_end (n name : String) (ts : List Token) (flt : Option GoError) :
    startElement ⟨none, ⟨endTag n :: ts, flt⟩⟩ name =
      ((none, none), ⟨some (endTag n), ⟨ts, flt⟩⟩) := by
  simp [startElement, startElementLoop, endTag]

theorem mustEndElement_end (n : String) (ts : List Token) (flt : Option GoError) :
    mustEndElement ⟨none, ⟨endTag n :: ts, flt⟩⟩ n =
      ((some ⟨"", n⟩, none), ⟨none, ⟨ts, flt⟩⟩) := by
  simp [mustEndElement, endElement, endElementLoop, endTag]

theorem mustEndElement_last (n : String) (ts : List Token) (flt : Option GoError) :
    mustEndElement ⟨some (endTag n), ⟨ts, flt⟩⟩ n =
      ((some ⟨"", n⟩, none), ⟨none, ⟨ts, flt⟩⟩) := by
  simp [mustEndElement, endElement, endElementLoop, endTag]

theorem DecodeElement_text (s : String) (n : String) (ts : List Token) (flt : Option GoError) :
    DecodeElement ⟨textTokens s ++ endTag n :: ts, flt⟩ true = ((s, none), ⟨ts, flt⟩) := by
  unfold textTokens
  split
  · next h =>
    have : s = "" := by
      cases s; simp only at h; subst h; rfl
    subst this
    simp [DecodeElement, decodeElementLoop, endTag]
  · simp [DecodeElement, decodeElementLoop, endTag]

theorem unmarshalScalar_tokens (name : String) (s : String) (v : GoValue)
    (rest : List Token) (flt : Option GoError)
    (hd : decodeValue s name = (v, none)) :
    unmarshalScalar name ⟨none, ⟨textTokens s ++ endTag name :: endTag "value" :: rest, flt⟩⟩ =
      ((v, none), ⟨none, ⟨rest, flt⟩⟩) := by
  simp [unmarshalScalar, DecodeElement_text, hd, unmarshalValueEnd, mustEndElement_end]

theorem textTokens_formatInt (n : Int) : textTokens (formatInt n) = [.CharData (formatInt n)] := by
  unfold textTokens
  cases n with
  | ofNat k =>
    obtain ⟨d, tl, _, h⟩ := decimalNat_head k
    simp [formatInt, h]
  | negSucc k => simp [formatInt]



theorem typeTokens_length_pos_value (v : GoValue) : 2 ≤ (valueTokens v).length := by
  simp [valueTokens]

theorem mapSet_append (m : List (String × GoValue)) (k : String) (v : GoValue)
    (h : k ∉ m.map Prod.fst) : mapSet m k v = m ++ [(k, v)] := by
  induction m with
  | nil => rfl
  | cons e m ih =>
    obtain ⟨k1, v1⟩ := e
    simp only [List.map_cons, List.mem_cons, not_or] at h
    simp [mapSet, Ne.symm h.1, ih h.2]

mutual
theorem unmarshalValue_tokens : ∀ (v : GoValue), validValue v = true →
    ∀ (fuel : Nat), (valueTokens v).length ≤ fuel → ∀ (rest : List Token) (flt : Option GoError),
    unmarshalValue fuel ⟨none, ⟨valueTokens v ++ rest, flt⟩⟩ =
      .ret ((v, none), ⟨none, ⟨rest, flt⟩⟩)
  | .bytes b, _, fuel, hf, rest, flt => by
    obtain ⟨f, rfl⟩ : ∃ f, fuel = f + 1 := ⟨fuel - 1, by simp [valueTokens] at hf; omega⟩
    have hd : decodeValue (EncodeToString b) "base64" = (.bytes b, none) := by
      simp [decodeValue, DecodeString_EncodeToString]
    have := unmarshalScalar_tokens "base64" _ _ rest flt hd
    simp [valueTokens, typeTokens, unmarshalValue, startElement_start, any, this]
  | .str s, _, fuel, hf, rest, flt => by
    obtain ⟨f, rfl⟩ : ∃ f, fuel = f + 1 := ⟨fuel - 1, by simp [valueTokens] at hf; omega⟩
    have hd : decodeValue s "string" = (.str s, none) := by
      simp [decodeValue]
    have := unmarshalScalar_tokens "string" _ _ rest flt hd
    simp [valueTokens, typeTokens, unmarshalValue, startElement_start, any, this]
  | .bool b, _, fuel, hf, rest, flt => by
    obtain ⟨f, rfl⟩ : ∃ f, fuel = f + 1 := ⟨fuel - 1, by simp [valueTokens] at hf; omega⟩
    have hd : decodeValue (formatInt (asInt b)) "boolean" = (.bool b, none) := by
      cases b <;> rfl
    have := unmarshalScalar_tokens "boolean" _ _ rest flt hd
    rw [textTokens_formatInt] at this
    simp only [List.singleton_append] at this
    simp [valueTokens, typeTokens, unmarshalValue, startElement_start, any, this]
  | .int n, hv, fuel, hf, rest, flt => by
    obtain ⟨f, rfl⟩ : ∃ f, fuel = f + 1 := ⟨fuel - 1, by simp [valueTokens] at hf; omega⟩
    simp only [validValue, decide_eq_true_eq] at hv
    have hd : decodeValue (formatInt n) "i4" = (.int n, none) := by
      have := ParseInt_formatInt 32 n (by simpa using hv.1) (by simpa using hv.2)
        (by decide) (by decide)
      simp [decodeValue, this]
    have := unmarshalScalar_tokens "i4" _ _ rest flt hd
    rw [textTokens_formatInt] at this
    simp only [List.singleton_append] at this
    simp [valueTokens, typeTokens, unmarshalValue, startElement_start, any, this]
  | .int64 n, hv, fuel, hf, rest, flt => by
    obtain ⟨f, rfl⟩ : ∃ f, fuel = f + 1 := ⟨fuel - 1, by simp [valueTokens] at hf; omega⟩
    simp only [validValue, decide_eq_true_eq] at hv
    have hd : decodeValue (formatInt n) "i8" = (.int64 n, none) := by
      have := ParseInt_formatInt 64 n (by simpa using hv.1) (by simpa using hv.2)
        (by decide) (by decide)
      simp [decodeValue, this]
    have := unmarshalScalar_tokens "i8" _ _ rest flt hd
    rw [textTokens_formatInt] at this
    simp only [List.singleton_append] at this
    simp [valueTokens, typeTokens, unmarshalValue, startElement_start, any, this]
  | .slice xs, hv, fuel, hf, rest, flt => by
    simp only [validValue] at hv
    simp only [valueTokens, typeTokens, List.length_cons, List.length_append,
      List.length_nil] at hf
    obtain ⟨f, rfl⟩ : ∃ f, fuel = f + 2 := ⟨fuel - 2, by omega⟩
    have hl := unmarshalArrayLoop_tokens xs hv f (by omega) []
      (endTag "array" :: endTag "value" :: rest) flt
    simp [valueTokens, typeTokens, unmarshalValue, unmarshalArray, startElement_start, any, hl,
      Outcome.bind, mustEndElement_last, mustEndElement_end, unmarshalValueEnd]
  | .map m, hv, fuel, hf, rest, flt => by
    simp only [validValue, Bool.and_eq_true, decide_eq_true_eq] at hv
    simp only [valueTokens, typeTokens, List.length_cons, List.length_append,
      List.length_nil] at hf
    obtain ⟨f, rfl⟩ : ∃ f, fuel = f + 1 := ⟨fuel - 1, by omega⟩
    have hl := unmarshalStructLoop_tokens m hv.2 f (by omega) [] (by simpa using hv.1)
      (endTag "value" :: rest) flt
    simp [valueTokens, typeTokens, unmarshalValue, startElement_start, any, hl,
      Outcome.bind, mustEndElement_last, mustEndElement_end, unmarshalValueEnd]
  | .nil, hv, _, _, _, _ => by simp [validValue] at hv
  | .struct _, hv, _, _, _, _ => by simp [validValue] at hv
  | .ptr _, hv, _, _, _, _ => by simp [validValue] at hv
  | .other _, hv, _, _, _, _ => by simp [validValue] at hv
theorem unmarshalArrayLoop_tokens : ∀ (xs : List GoValue), validValues xs = true →
    ∀ (fuel : Nat), (elemTokens xs).length + 2 ≤ fuel →
    ∀ (arr : List GoValue) (rest : List Token) (flt : Option GoError),
    unmarshalArrayLoop fuel arr ⟨none, ⟨elemTokens xs ++ endTag "data" :: rest, flt⟩⟩ =
      .ret (arr ++ xs, ⟨some (endTag "data"), ⟨rest, flt⟩⟩)
  | [], _, fuel, hf, arr, rest, flt => by
    obtain ⟨f, rfl⟩ : ∃ f, fuel = f + 2 := ⟨fuel - 2, by omega⟩
    simp [elemTokens, unmarshalArrayLoop, unmarshalValue, startElement_end, Outcome.bind]
  | x :: xs, hv, fuel, hf, arr, rest, flt => by
    simp only [validValues, Bool.and_eq_true] at hv
    simp only [elemTokens, List.length_cons, List.length_append] at hf
    obtain ⟨f, rfl⟩ : ∃ f, fuel = f + 1 := ⟨fuel - 1, by omega⟩
    have h1 := unmarshalValue_tokens x hv.1 f (by simp [valueTokens]; omega)
      (elemTokens xs ++ endTag "data" :: rest) flt
    have h2 := unmarshalArrayLoop_tokens xs hv.2 f (by omega) (arr ++ [x]) rest flt
    have hx : x ≠ .nil := by rintro rfl; simp [validValue] at hv
    simp only [valueTokens, List.cons_append, List.append_assoc, List.nil_append] at h1
    simp only [elemTokens, unmarshalArrayLoop, List.cons_append, List.append_assoc, h1,
      Outcome.bind]
    cases x with
    | nil => exact absurd rfl hx
    | _ => simp [h2]
theorem unmarshalStructLoop_tokens : ∀ (m : List (String × GoValue)), validMembers m = true →
    ∀ (fuel : Nat), (memberTokens m).length + 1 ≤ fuel →
    ∀ (m0 : List (String × GoValue)), ((m0 ++ m).map Prod.fst).Nodup →
    ∀ (rest : List Token) (flt : Option GoError),
    unmarshalStructLoop fuel m0 ⟨none, ⟨memberTokens m ++ endTag "struct" :: rest, flt⟩⟩ =
      .ret ((m0 ++ m, none), ⟨some (endTag "struct"), ⟨rest, flt⟩⟩)
  | [], _, fuel, hf, m0, _, rest, flt => by
    obtain ⟨f, rfl⟩ : ∃ f, fuel = f + 1 := ⟨fuel - 1, by omega⟩
    simp [memberTokens, unmarshalStructLoop, startElement_end]
  | (k, v) :: m, hv, fuel, hf, m0, hnd, rest, flt => by
    simp only [validMembers, Bool.and_eq_true] at hv
    simp only [memberTokens, List.length_cons, List.length_append] at hf
    obtain ⟨f, rfl⟩ : ∃ f, fuel = f + 1 := ⟨fuel - 1, by omega⟩
    have h1 := unmarshalValue_tokens v hv.1.2 f (by simp [valueTokens]; omega)
      (endTag "member" :: (memberTokens m ++ endTag "struct" :: rest)) flt
    have hk : k ∉ m0.map Prod.fst := by
      simp only [List.map_append, List.map_cons] at hnd
      have := (List.nodup_append.mp hnd).2.2
      intro hmem
      exact this hmem (List.mem_cons_self _ _)
    have hnd2 : (((m0 ++ [(k, v)]) ++ m).map Prod.fst).Nodup := by
      simpa using hnd
    have h2 := unmarshalStructLoop_tokens m hv.2 f (by omega) (m0 ++ [(k, v)]) hnd2 rest flt
    have hde := DecodeElement_text k "name"
      (startTag "value" :: (typeTokens v ++ endTag "value" :: endTag "member" ::
        (memberTokens m ++ endTag "struct" :: rest))) flt
    simp only [valueTokens, List.cons_append, List.append_assoc, List.nil_append] at h1
    simp [memberTokens, unmarshalStructLoop, startElement_start, any, hde, h1, Outcome.bind,
      mustEndElement_end, mapSet_append _ _ _ hk, h2]
end

/-! ### The tokens of the text that the encoder writes -/

theorem tokenize_open (lit name : String) (hl : lit.data = '<' :: (name.data ++ ['>']))
    (h : goodTag name = true) (fuel : Nat) (stk : List (List Char)) (t : List Char) :
    tokenize (fuel + 1) stk (lit.data ++ t) =
      (tokenize fuel (name.data :: stk) t).pushAll [startTag name] := by
  rw [hl]
  simpa using tokenize_start name h fuel stk t

theorem tokenize_close (lit name : String) (hl : lit.data = '<' :: '/' :: (name.data ++ ['>']))
    (h : goodTag name = true) (fuel : Nat) (stk : List (List Char)) (t : List Char) :
    tokenize (fuel + 1) (name.data :: stk) (lit.data ++ t) =
      (tokenize fuel stk t).pushAll [endTag name] := by
  rw [hl]
  simpa using tokenize_end name h fuel stk t

theorem pushAll_pushAll (a b : List Token) (d : Decoder) :
    (d.pushAll b).pushAll a = d.pushAll (a ++ b) := by
  simp [Decoder.pushAll]

theorem pushAll_nil (d : Decoder) : d.pushAll [] = d := by
  simp [Decoder.pushAll]

theorem tokenize_textTokens_escaped (s : String) (hs : s.data.all isInCharacterRange = true)
    (t : List Char) (fuel : Nat) (stk : List (List Char)) :
    tokenize ((textTokens s).length + fuel) stk ((EscapeText s).data ++ '<' :: t) =
      (tokenize fuel stk ('<' :: t)).pushAll (textTokens s) := by
  unfold textTokens
  split
  · next h => simp [EscapeText, h, escapeChars, pushAll_nil]
  · next h =>
    have := tokenize_escaped s h t fuel stk
    rw [sanitize_of_valid _ hs] at this
    simpa [Nat.add_comm, Decoder.push, Decoder.pushAll] using this

theorem tokenize_textTokens_plain (s : String) (hp : s.data.all plainChar = true)
    (t : List Char) (fuel : Nat) (stk : List (List Char)) :
    tokenize ((textTokens s).length + fuel) stk (s.data ++ '<' :: t) =
      (tokenize fuel stk ('<' :: t)).pushAll (textTokens s) := by
  unfold textTokens
  split
  · next h => simp [h, pushAll_nil]
  · next h =>
    have := tokenize_plain s.data h hp t fuel stk
    simpa [Nat.add_comm, Decoder.push, Decoder.pushAll] using this

theorem digitChar_plain (d : Nat) (h : d < 10) : plainChar (digitChar d) = true := by
  interval_cases d <;> decide

theorem decimalAux_plain (fuel : Nat) : ∀ (n : Nat) (acc : List Char),
    acc.all plainChar = true → (decimalAux fuel n acc).all plainChar = true := by
  induction fuel with
  | zero => intro n acc h; simpa [decimalAux] using h
  | succ fuel ih =>
    intro n acc h
    have hd := digitChar_plain (n % 10) (Nat.mod_lt _ (by decide))
    unfold decimalAux
    split
    · simp only [List.all_cons, hd, h, Bool.and_self]
    · exact ih _ _ (by simp only [List.all_cons, hd, h, Bool.and_self])

theorem formatInt_plain (n : Int) : (formatInt n).data.all plainChar = true := by
  cases n with
  | ofNat k => exact decimalAux_plain _ _ _ rfl
  | negSucc k =>
    simp only [formatInt, List.all_cons, Bool.and_eq_true]
    exact ⟨by decide, decimalAux_plain _ _ _ rfl⟩

theorem encodeSextet_plain (i : Nat) : plainChar (encodeSextet i) = true := by
  by_cases h : i < 64
  · interval_cases i <;> decide
  · have hlen : base64Alphabet.length = 64 := rfl
    have : encodeSextet i = 'A' := by
      unfold encodeSextet
      exact List.getD_eq_default _ _ (by omega)
    rw [this]; decide

theorem base64Encode_plain (b : List Byte) : (base64Encode b).all plainChar = true := by
  induction b using base64Encode.induct with
  | case1 => rfl
  | case2 a => simp [base64Encode, encodeSextet_plain]; decide
  | case3 a b => simp [base64Encode, encodeSextet_plain]; decide
  | case4 a b c rest ih => simp [base64Encode, encodeSextet_plain, ih]



theorem marshalValueBody_ok (v : GoValue) (buf : String) (h : (marshalType "" v).2 = none) :
    marshalValueBody (fun b => marshalType b v) buf =
      (buf ++ "<value>" ++ (marshalType "" v).1 ++ "</value>", none) := by
  unfold marshalValueBody
  simp only
  rw [marshalType_buf v (buf ++ "<value>"), h]

theorem tokenize_element (name openLit closeLit : String)
    (hopen : openLit.data = '<' :: (name.data ++ ['>']))
    (hclose : closeLit.data = '<' :: '/' :: (name.data ++ ['>']))
    (hgood : goodTag name = true) (body : List Char) (toks : List Token)
    (hbody : ∀ n fuel stk t, n = toks.length + fuel →
      tokenize n stk (body ++ '<' :: t) = (tokenize fuel stk ('<' :: t)).pushAll toks)
    (n fuel : Nat) (stk : List (List Char)) (t : List Char)
    (hn : n = toks.length + 2 + fuel) :
    tokenize n stk (openLit.data ++ (body ++ (closeLit.data ++ t))) =
      (tokenize fuel stk t).pushAll (startTag name :: toks ++ [endTag name]) := by
  have e : n = (toks.length + (fuel + 1)) + 1 := by omega
  have hc : closeLit.data ++ t = '<' :: ('/' :: (name.data ++ '>' :: t)) := by
    rw [hclose]; simp
  rw [e, tokenize_open openLit name hopen hgood, hc, hbody _ (fuel + 1) _ _ rfl, ← hc,
    tokenize_close closeLit name hclose hgood, pushAll_pushAll, pushAll_pushAll]
  simp

theorem tokenize_text_escaped (s : String) (hs : s.data.all isInCharacterRange = true)
    (n fuel : Nat) (stk : List (List Char)) (t : List Char)
    (hn : n = (textTokens s).length + fuel) :
    tokenize n stk ((EscapeText s).data ++ '<' :: t) =
      (tokenize fuel stk ('<' :: t)).pushAll (textTokens s) := by
  subst hn
  exact tokenize_textTokens_escaped s hs t fuel stk

theorem tokenize_text_plain (s : String) (hp : s.data.all plainChar = true)
    (n fuel : Nat) (stk : List (List Char)) (t : List Char)
    (hn : n = (textTokens s).length + fuel) :
    tokenize n stk (s.data ++ '<' :: t) =
      (tokenize fuel stk ('<' :: t)).pushAll (textTokens s) := by
  subst hn
  exact tokenize_textTokens_plain s hp t fuel stk

theorem litLen :
    "<base64>".length = 8 ∧
    "</base64>".length = 9 ∧
    "<string>".length = 8 ∧
    "</string>".length = 9 ∧
    "<boolean>".length = 9 ∧
    "</boolean>".length = 10 ∧
    "<i4>".length = 4 ∧
    "</i4>".length = 5 ∧
    "<i8>".length = 4 ∧
    "</i8>".length = 5 ∧
    "<array><data>".length = 13 ∧
    "</data></array>".length = 15 ∧
    "<struct>".length = 8 ∧
    "</struct>".length = 9 ∧
    "<value>".length = 7 ∧
    "</value>".length = 8 ∧
    "<member>".length = 8 ∧
    "</member>".length = 9 ∧
    "<name>".length = 6 ∧
    "</name>".length = 7 := by
  decide

theorem textTokens_length_le_one (s : String) : (textTokens s).length ≤ 1 := by
  unfold textTokens; split <;> simp

mutual
theorem tokenize_type : ∀ (v : GoValue), validValue v = true →
    (marshalType "" v).2 = none ∧ (typeTokens v).length ≤ (marshalType "" v).1.length ∧
    ∀ (n fuel : Nat) (stk : List (List Char)) (t : List Char),
      n = (typeTokens v).length + fuel →
      tokenize n stk ((marshalType "" v).1.data ++ '<' :: t) =
        (tokenize fuel stk ('<' :: t)).pushAll (typeTokens v)
  | .bytes b, _ => by
    refine ⟨rfl, (by simp [marshalType, typeTokens, String.length_append, litLen]; have := textTokens_length_le_one (EncodeToString b); omega), fun n fuel stk t hn => ?_⟩
    have := tokenize_element "base64" "<base64>" "</base64>" rfl rfl rfl
      (EncodeToString b).data (textTokens (EncodeToString b))
      (tokenize_text_plain _ (base64Encode_plain b))
      n fuel stk ('<' :: t) (by simp [typeTokens] at hn; omega)
    simpa [marshalType, typeTokens, String.data_append] using this
  | .str s, hv => by
    refine ⟨rfl, (by simp [marshalType, typeTokens, String.length_append, litLen]; have := textTokens_length_le_one s; omega), fun n fuel stk t hn => ?_⟩
    simp only [validValue] at hv
    have := tokenize_element "string" "<string>" "</string>" rfl rfl rfl
      (EscapeText s).data (textTokens s) (tokenize_text_escaped s hv)
      n fuel stk ('<' :: t) (by simp [typeTokens] at hn; omega)
    simpa [marshalType, typeTokens, String.data_append] using this
  | .bool b, _ => by
    refine ⟨rfl, (by simp [marshalType, typeTokens, String.length_append, litLen]), fun n fuel stk t hn => ?_⟩
    have := tokenize_element "boolean" "<boolean>" "</boolean>" rfl rfl rfl
      (formatInt (asInt b)).data (textTokens (formatInt (asInt b)))
      (tokenize_text_plain _ (formatInt_plain _))
      n fuel stk ('<' :: t) (by simp [typeTokens, textTokens_formatInt] at hn ⊢; omega)
    rw [textTokens_formatInt] at this
    simpa [marshalType, typeTokens, String.data_append] using this
  | .int i, _ => by
    refine ⟨rfl, (by simp [marshalType, typeTokens, String.length_append, litLen]), fun n fuel stk t hn => ?_⟩
    have := tokenize_element "i4" "<i4>" "</i4>" rfl rfl rfl
      (formatInt i).data (textTokens (formatInt i))
      (tokenize_text_plain _ (formatInt_plain _))
      n fuel stk ('<' :: t) (by simp [typeTokens, textTokens_formatInt] at hn ⊢; omega)
    rw [textTokens_formatInt] at this
    simpa [marshalType, typeTokens, String.data_append] using this
  | .int64 i, _ => by
    refine ⟨rfl, (by simp [marshalType, typeTokens, String.length_append, litLen]), fun n fuel stk t hn => ?_⟩
    have := tokenize_element "i8" "<i8>" "</i8>" rfl rfl rfl
      (formatInt i).data (textTokens (formatInt i))
      (tokenize_text_plain _ (formatInt_plain _))
      n fuel stk ('<' :: t) (by simp [typeTokens, textTokens_formatInt] at hn ⊢; omega)
    rw [textTokens_formatInt] at this
    simpa [marshalType, typeTokens, String.data_append] using this
  | .slice xs, hv => by
    simp only [validValue] at hv
    obtain ⟨he, hl, ht⟩ := tokenize_elems xs hv
    refine ⟨rfl, ?_, fun n fuel stk t hn => ?_⟩
    · simp only [marshalType, marshalArrayBody, typeTokens]
      rw [marshalArrayLoop_buf xs ("" ++ "<array><data>")]
      simp [String.length_append, litLen]; omega
    have h1 := tokenize_element "data" "<data>" "</data>" rfl rfl rfl
      (marshalArrayLoop "" xs).1.data (elemTokens xs) ht
    have h2 := tokenize_element "array" "<array>" "</array>" rfl rfl rfl
      ("<data>".data ++ ((marshalArrayLoop "" xs).1.data ++ "</data>".data))
      (startTag "data" :: elemTokens xs ++ [endTag "data"])
      (fun n fuel stk t hn => by
        simpa using h1 n fuel stk ('<' :: t) (by simp at hn; omega))
      n fuel stk ('<' :: t) (by simp [typeTokens] at hn ⊢; omega)
    simp only [marshalType, marshalArrayBody, typeTokens]
    rw [marshalArrayLoop_buf xs ("" ++ "<array><data>")]
    simp only [String.data_append]
    simpa using h2
  | .map m, hv => by
    simp only [validValue, Bool.and_eq_true, decide_eq_true_eq] at hv
    obtain ⟨he, hl, ht⟩ := tokenize_members m hv.2
    have h1 := tokenize_element "struct" "<struct>" "</struct>" rfl rfl rfl
      (marshalMapLoop "" m).1.data (memberTokens m) ht
    have hb : marshalType "" (.map m) =
        ("" ++ "<struct>" ++ (marshalMapLoop "" m).1 ++ "</struct>", none) := by
      simp only [marshalType, marshalStructBody]
      rw [marshalMapLoop_buf m ("" ++ "<struct>"), he]
    refine ⟨by rw [hb], ?_, fun n fuel stk t hn => ?_⟩
    · rw [hb]; simp [typeTokens, String.length_append, litLen]; omega
    rw [hb]
    simp only [typeTokens, String.data_append]
    simpa using h1 n fuel stk ('<' :: t) (by simp [typeTokens] at hn; omega)
  | .nil, hv => by simp [validValue] at hv
  | .struct _, hv => by simp [validValue] at hv
  | .ptr _, hv => by simp [validValue] at hv
  | .other _, hv => by simp [validValue] at hv
theorem tokenize_elems : ∀ (xs : List GoValue), validValues xs = true →
    (marshalArrayLoop "" xs).2 = none ∧
    (elemTokens xs).length ≤ (marshalArrayLoop "" xs).1.length ∧
    ∀ (n fuel : Nat) (stk : List (List Char)) (t : List Char),
      n = (elemTokens xs).length + fuel →
      tokenize n stk ((marshalArrayLoop "" xs).1.data ++ '<' :: t) =
        (tokenize fuel stk ('<' :: t)).pushAll (elemTokens xs)
  | [], _ => by
    refine ⟨rfl, by simp [elemTokens], fun n fuel stk t hn => ?_⟩
    simp [elemTokens] at hn
    subst hn
    simp [marshalArrayLoop, elemTokens, pushAll_nil]
  | x :: xs, hv => by
    simp only [validValues, Bool.and_eq_true] at hv
    obtain ⟨hxe, hxl, hxt⟩ := tokenize_type x hv.1
    obtain ⟨hse, hsl, hst⟩ := tokenize_elems xs hv.2
    have hb : marshalArrayLoop "" (x :: xs) =
        ("" ++ "<value>" ++ (marshalType "" x).1 ++ "</value>" ++ (marshalArrayLoop "" xs).1,
          none) := by
      simp only [marshalArrayLoop]
      rw [marshalValueBody_ok x "" hxe]
      simp only
      rw [marshalArrayLoop_buf xs _, hse]
    refine ⟨by rw [hb], ?_, fun n fuel stk t hn => ?_⟩
    · rw [hb]; simp [elemTokens, String.length_append, litLen]; omega
    have h1 := tokenize_element "value" "<value>" "</value>" rfl rfl rfl
      (marshalType "" x).1.data (typeTokens x) hxt
      n ((elemTokens xs).length + fuel) stk ((marshalArrayLoop "" xs).1.data ++ '<' :: t)
      (by simp [elemTokens] at hn; omega)
    rw [hst _ fuel stk t rfl, pushAll_pushAll] at h1
    rw [hb]
    simp only [elemTokens, String.data_append]
    simpa using h1
theorem tokenize_members : ∀ (m : List (String × GoValue)), validMembers m = true →
    (marshalMapLoop "" m).2 = none ∧
    (memberTokens m).length ≤ (marshalMapLoop "" m).1.length ∧
    ∀ (n fuel : Nat) (stk : List (List Char)) (t : List Char),
      n = (memberTokens m).length + fuel →
      tokenize n stk ((marshalMapLoop "" m).1.data ++ '<' :: t) =
        (tokenize fuel stk ('<' :: t)).pushAll (memberTokens m)
  | [], _ => by
    refine ⟨rfl, by simp [memberTokens], fun n fuel stk t hn => ?_⟩
    simp [memberTokens] at hn
    subst hn
    simp [marshalMapLoop, memberTokens, pushAll_nil]
  | (k, v) :: m, hv => by
    simp only [validMembers, Bool.and_eq_true] at hv
    obtain ⟨hxe, hxl, hxt⟩ := tokenize_type v hv.1.2
    obtain ⟨hse, hsl, hst⟩ := tokenize_members m hv.2
    have hb : marshalMapLoop "" ((k, v) :: m) =
        ("" ++ "<member>" ++ "<name>" ++ EscapeText k ++ "</name>" ++ "<value>" ++
          (marshalType "" v).1 ++ "</value>" ++ "</member>" ++ (marshalMapLoop "" m).1,
          none) := by
      simp only [marshalMapLoop]
      rw [marshalValueBody_ok v _ hxe]
      simp only
      rw [marshalMapLoop_buf m _, hse]
    refine ⟨by rw [hb], ?_, fun n fuel stk t hn => ?_⟩
    · rw [hb]; simp [memberTokens, String.length_append, litLen]
      have := textTokens_length_le_one k; omega
    have hn1 := tokenize_element "name" "<name>" "</name>" rfl rfl rfl
      (EscapeText k).data (textTokens k) (tokenize_text_escaped k hv.1.1)
    have hval := tokenize_element "value" "<value>" "</value>" rfl rfl rfl
      (marshalType "" v).1.data (typeTokens v) hxt
    have hmem := tokenize_element "member" "<member>" "</member>" rfl rfl rfl
      ("<name>".data ++ ((EscapeText k).data ++ ("</name>".data ++
        ("<value>".data ++ ((marshalType "" v).1.data ++ "</value>".data)))))
      ((startTag "name" :: textTokens k ++ [endTag "name"]) ++
        (startTag "value" :: typeTokens v ++ [endTag "value"]))
      (fun n fuel stk t hn => by
        have a := hn1 n ((typeTokens v).length + 2 + fuel) stk
          ("<value>".data ++ ((marshalType "" v).1.data ++ ("</value>".data ++ '<' :: t)))
          (by simp at hn; omega)
        rw [hval _ fuel stk ('<' :: t) rfl, pushAll_pushAll] at a
        simpa using a)
      n ((memberTokens m).length + fuel) stk ((marshalMapLoop "" m).1.data ++ '<' :: t)
      (by simp [memberTokens] at hn ⊢; omega)
    rw [hst _ fuel stk t rfl, pushAll_pushAll] at hmem
    rw [hb]
    simp only [memberTokens, String.data_append]
    simpa using hmem
end

theorem tokenize_eof (fuel : Nat) : tokenize fuel [] [] = ⟨[], none⟩ := by
  cases fuel <;> simp [tokenize]

/-- The tokens of the response document of a valid value. -/
theorem NewDecoder_responseDoc (v : GoValue) (hv : validValue v = true) :
    NewDecoder (responseDoc v) =
      ⟨startTag "methodResponse" :: startTag "params" :: startTag "param" ::
        (valueTokens v ++ [endTag "param", endTag "params", endTag "methodResponse"]), none⟩ := by
  obtain ⟨he, hl, ht⟩ := tokenize_type v hv
  have hm : marshalValue "" v = ("" ++ "<value>" ++ (marshalType "" v).1 ++ "</value>", none) :=
    marshalValueBody_ok v "" he
  have hval := tokenize_element "value" "<value>" "</value>" rfl rfl rfl
    (marshalType "" v).1.data (typeTokens v) ht
  have hparam := tokenize_element "param" "<param>" "</param>" rfl rfl rfl
    ("<value>".data ++ ((marshalType "" v).1.data ++ "</value>".data))
    (startTag "value" :: typeTokens v ++ [endTag "value"])
    (fun n fuel stk t hn => by
      simpa using hval n fuel stk ('<' :: t) (by simp only [List.length_cons, List.length_append, List.length_nil] at *; omega))
  have hparams := tokenize_element "params" "<params>" "</params>" rfl rfl rfl
    ("<param>".data ++ (("<value>".data ++ ((marshalType "" v).1.data ++ "</value>".data)) ++
      "</param>".data))
    (startTag "param" :: (startTag "value" :: typeTokens v ++ [endTag "value"]) ++ [endTag "param"])
    (fun n fuel stk t hn => by
      simpa using hparam n fuel stk ('<' :: t) (by simp only [List.length_cons, List.length_append, List.length_nil] at *; omega))
  have hlen : (responseDoc v).length = (typeTokens v).length + 8 +
      ((marshalType "" v).1.length - (typeTokens v).length + 72) := by
    simp [responseDoc, hm, String.length_append]
    have h1 : "<methodResponse><params><param>".length = 31 := by decide
    have h2 : "<value>".length = 7 := by decide
    have h3 : "</value>".length = 8 := by decide
    have h4 : "</param></params></methodResponse>".length = 34 := by decide
    omega
  have hroot := tokenize_element "methodResponse" "<methodResponse>" "</methodResponse>"
    rfl rfl rfl
    ("<params>".data ++ (("<param>".data ++ (("<value>".data ++ ((marshalType "" v).1.data ++
      "</value>".data)) ++ "</param>".data)) ++ "</params>".data))
    (startTag "params" :: (startTag "param" :: (startTag "value" :: typeTokens v ++
      [endTag "value"]) ++ [endTag "param"]) ++ [endTag "params"])
    (fun n fuel stk t hn => by
      simpa using hparams n fuel stk ('<' :: t) (by simp only [List.length_cons, List.length_append, List.length_nil] at *; omega))
    (responseDoc v).length ((marshalType "" v).1.length - (typeTokens v).length + 72) [] []
    (by rw [hlen]; simp only [List.length_cons, List.length_append, List.length_nil])
  rw [tokenize_eof] at hroot
  have e1 : "<methodResponse><params><param>".data =
      "<methodResponse>".data ++ ("<params>".data ++ "<param>".data) := rfl
  have e2 : "</param></params></methodResponse>".data =
      "</param>".data ++ ("</params>".data ++ "</methodResponse>".data) := rfl
  unfold NewDecoder
  have hd : (responseDoc v).data = "<methodResponse>".data ++
      ("<params>".data ++ ("<param>".data ++ ("<value>".data ++ ((marshalType "" v).1.data ++
          "</value>".data) ++ "</param>".data) ++ "</params>".data) ++
        ("</methodResponse>".data ++ [])) := by
    simp only [responseDoc, hm, String.data_append, e1, e2]
    simp
  rw [hd, hroot]
  simp [Decoder.pushAll, valueTokens]

theorem tokenize_xmlDecl (fuel : Nat) (stk : List (List Char)) (t : List Char) :
    tokenize (fuel + 1) stk ("<?xml version=\"1.0\" encoding=\"UTF-8\"?>".data ++ t) =
      (tokenize fuel stk t).pushAll [.ProcInst "xml" "version=\"1.0\" encoding=\"UTF-8\""] := by
  rw [show "<?xml version=\"1.0\" encoding=\"UTF-8\"?>".data ++ t =
    '<' :: ("?xml version=\"1.0\" encoding=\"UTF-8\"?>".data ++ t) from rfl]
  rw [tokenize]
  simp [readName, isNameByte, nameOk, skipSpace, readProcInst, Decoder.push, Decoder.pushAll]

theorem marshalArgs_buf (args : List GoValue) : ∀ buf,
    marshalArgs buf args = (buf ++ (marshalArgs "" args).1, (marshalArgs "" args).2) := by
  induction args with
  | nil => intro buf; simp [marshalArgs]
  | cons a rest ih =>
    intro buf
    simp only [marshalArgs]
    rw [marshalValue_buf a (buf ++ "<param>"), marshalValue_buf a ("" ++ "<param>")]
    cases h : (marshalValue "" a) with
    | mk o err =>
      cases err with
      | some x => simp [String.append_assoc]
      | none =>
        simp only
        rw [ih (buf ++ "<param>" ++ o ++ "</param>"), ih ("" ++ "<param>" ++ o ++ "</param>")]
        simp [String.append_assoc]

theorem marshal_doc_shape (method : String) (args : List GoValue) (doc : String)
    (h : (marshal method args).1 = some doc) :
    ∃ rest : String, doc = "<?xml version=\"1.0\" encoding=\"UTF-8\"?>" ++ ("<methodCall>" ++ rest) := by
  unfold marshal at h
  simp only at h
  rw [marshalArgs_buf] at h
  cases he : (marshalArgs "" args).2 with
  | some e => rw [he] at h; simp at h
  | none =>
    rw [he] at h
    simp only [Option.some.injEq] at h
    refine ⟨"<methodName>" ++ method ++ "</methodName>" ++ "<params>" ++ (marshalArgs "" args).1 ++
      "</params></methodCall>", ?_⟩
    rw [← h]
    apply String.ext
    simp [String.data_append]

/-! ### Argument lists -/

theorem tokenize_params : ∀ (vs : List GoValue), validValues vs = true →
    (∀ a ∈ vs, (marshalValue "" a).2 = none) ∧
    (paramsTokens vs).length ≤ (paramsText vs).length ∧
    ∀ (n fuel : Nat) (stk : List (List Char)) (t : List Char),
      n = (paramsTokens vs).length + fuel →
      tokenize n stk ((paramsText vs).data ++ '<' :: t) =
        (tokenize fuel stk ('<' :: t)).pushAll (paramsTokens vs)
  | [], _ => by
    refine ⟨by simp, by simp [paramsTokens], fun n fuel stk t hn => ?_⟩
    simp [paramsTokens] at hn
    subst hn
    simp [paramsText, paramsTokens, pushAll_nil]
  | a :: vs, hv => by
    simp only [validValues, Bool.and_eq_true] at hv
    obtain ⟨he, hl, ht⟩ := tokenize_type a hv.1
    obtain ⟨hse, hsl, hst⟩ := tokenize_params vs hv.2
    have hm : marshalValue "" a = ("" ++ "<value>" ++ (marshalType "" a).1 ++ "</value>", none) :=
      marshalValueBody_ok a "" he
    have hval := tokenize_element "value" "<value>" "</value>" rfl rfl rfl
      (marshalType "" a).1.data (typeTokens a) ht
    refine ⟨?_, ?_, fun n fuel stk t hn => ?_⟩
    · intro x hx
      rcases List.mem_cons.mp hx with rfl | hx
      · rw [hm]
      · exact hse x hx
    · simp [paramsText, paramsTokens, valueTokens, hm, String.length_append]
      have h1 : "<param>".length = 7 := by decide
      have h2 : "<value>".length = 7 := by decide
      have h3 : "</value>".length = 8 := by decide
      have h4 : "</param>".length = 8 := by decide
      omega
    · have hparam := tokenize_element "param" "<param>" "</param>" rfl rfl rfl
        ("<value>".data ++ ((marshalType "" a).1.data ++ "</value>".data))
        (startTag "value" :: typeTokens a ++ [endTag "value"])
        (fun n fuel stk t hn => by
          simpa using hval n fuel stk ('<' :: t)
            (by simp only [List.length_cons, List.length_append, List.length_nil] at *; omega))
        n ((paramsTokens vs).length + fuel) stk ((paramsText vs).data ++ '<' :: t)
        (by simp only [paramsTokens, valueTokens, List.length_cons, List.length_append,
              List.length_nil] at *; omega)
      rw [hst _ fuel stk t rfl, pushAll_pushAll] at hparam
      simp only [paramsText, paramsTokens, valueTokens, hm, String.data_append]
      simpa using hparam

theorem unmarshalParamsLoop_tokens : ∀ (vs : List GoValue), validValues vs = true →
    ∀ (fuel : Nat), (paramsTokens vs).length + 1 ≤ fuel →
    ∀ (params : List GoValue) (rest : List Token) (flt : Option GoError),
    unmarshalParamsLoop fuel params ⟨none, ⟨paramsTokens vs ++ endTag "params" :: rest, flt⟩⟩ =
      .ret ((params ++ vs, none), ⟨some (endTag "params"), ⟨rest, flt⟩⟩)
  | [], _, fuel, hf, params, rest, flt => by
    obtain ⟨f, rfl⟩ : ∃ f, fuel = f + 1 := ⟨fuel - 1, by omega⟩
    simp [paramsTokens, unmarshalParamsLoop, startElement_end]
  | a :: vs, hv, fuel, hf, params, rest, flt => by
    simp only [validValues, Bool.and_eq_true] at hv
    simp only [paramsTokens, List.length_cons, List.length_append] at hf
    obtain ⟨f, rfl⟩ : ∃ f, fuel = f + 1 := ⟨fuel - 1, by omega⟩
    have h1 := unmarshalValue_tokens a hv.1 f (by omega)
      (endTag "param" :: (paramsTokens vs ++ endTag "params" :: rest)) flt
    have h2 := unmarshalParamsLoop_tokens vs hv.2 f (by omega) (params ++ [a]) rest flt
    rw [unmarshalParamsLoop]
    simp only [paramsTokens, List.cons_append, List.append_assoc,
      startElement_start _ _ _ _ (Or.inr rfl)]
    simp [h1, Outcome.bind, mustEndElement_end, h2]

theorem NewDecoder_responseDocOf (args : List GoValue) (hv : validValues args = true) :
    NewDecoder (responseDocOf args) =
      ⟨startTag "methodResponse" :: startTag "params" ::
        (paramsTokens args ++ [endTag "params", endTag "methodResponse"]), none⟩ := by
  obtain ⟨_, hl, ht⟩ := tokenize_params args hv
  have hparams := tokenize_element "params" "<params>" "</params>" rfl rfl rfl
    (paramsText args).data (paramsTokens args) ht
  have hlen : (responseDocOf args).length = (paramsTokens args).length + 4 +
      ((paramsText args).length - (paramsTokens args).length + 46) := by
    simp only [responseDocOf, String.length_append]
    have h1 : "<methodResponse><params>".length = 24 := by decide
    have h4 : "</params></methodResponse>".length = 26 := by decide
    omega
  have hroot := tokenize_element "methodResponse" "<methodResponse>" "</methodResponse>"
    rfl rfl rfl
    ("<params>".data ++ ((paramsText args).data ++ "</params>".data))
    (startTag "params" :: paramsTokens args ++ [endTag "params"])
    (fun n fuel stk t hn => by
      simpa using hparams n fuel stk ('<' :: t)
        (by simp only [List.length_cons, List.length_append, List.length_nil] at *; omega))
    (responseDocOf args).length ((paramsText args).length - (paramsTokens args).length + 46) [] []
    (by rw [hlen]; simp only [List.length_cons, List.length_append, List.length_nil])
  rw [tokenize_eof] at hroot
  have e1 : "<methodResponse><params>".data = "<methodResponse>".data ++ "<params>".data := rfl
  have e2 : "</params></methodResponse>".data = "</params>".data ++ "</methodResponse>".data := rfl
  unfold NewDecoder
  have hd : (responseDocOf args).data = "<methodResponse>".data ++
      ("<params>".data ++ ((paramsText args).data ++ "</params>".data) ++
        ("</methodResponse>".data ++ [])) := by
    simp only [responseDocOf, String.data_append, e1, e2]
    simp
  rw [hd, hroot]
  simp [Decoder.pushAll]

theorem unmarshal_responseDocOf (args : List GoValue) (hv : validValues args = true) :
    unmarshal ⟨none⟩ (responseDocOf args) = .ret ((args, none), ⟨none⟩) := by
  unfold unmarshal
  rw [NewDecoder_responseDocOf args hv]
  have hsize : 2 * (DecState.size ⟨none, ⟨startTag "methodResponse" :: startTag "params" ::
      (paramsTokens args ++ [endTag "params", endTag "methodResponse"]), none⟩⟩) + 4 =
      (paramsTokens args).length + ((paramsTokens args).length + 12) := by
    simp [DecState.size]; omega
  have h1 := unmarshalParamsLoop_tokens args hv
    ((paramsTokens args).length + ((paramsTokens args).length + 12)) (by omega) []
    [endTag "methodResponse"] none
  simp only [unmarshalTokens]
  rw [hsize]
  simp only [unmarshalFrom, startElement_start _ _ _ _ (Or.inr rfl),
    startElement_start _ any _ _ (Or.inl rfl)]
  simp only [List.cons_append, List.nil_append] at h1
  simp [unmarshalParams, h1, Outcome.bind, mustEndElement_end, mustEndElement_last]

/-- A fresh `unmarshaller` decodes no values from a document that `marshal`
returns: its root is `methodCall`. -/
theorem unmarshal_methodCall_no_values (method : String) (args : List GoValue)
    (doc : String) (h : (marshal method args).1 = some doc) :
    ∃ (err : Option GoError) (u1 : unmarshaller),
      unmarshal ⟨none⟩ doc = .ret (([], err), u1) := by
  obtain ⟨rest, rfl⟩ := marshal_doc_shape method args doc h
  have hlen : ("<?xml version=\"1.0\" encoding=\"UTF-8\"?>" ++ ("<methodCall>" ++ rest)).length =
      rest.length + 48 + 2 := by
    simp only [String.length_append]
    have h1 : "<?xml version=\"1.0\" encoding=\"UTF-8\"?>".length = 38 := by decide
    have h2 : "<methodCall>".length = 12 := by decide
    omega
  refine ⟨none, ⟨some (startTag "methodCall")⟩, ?_⟩
  unfold unmarshal NewDecoder
  rw [hlen]
  simp only [String.data_append]
  rw [tokenize_xmlDecl, tokenize_open "<methodCall>" "methodCall" rfl rfl, pushAll_pushAll]
  simp [unmarshalTokens, unmarshalFrom, startElement, startElementLoop, Decoder.pushAll,
    startTag, any, Outcome.bind]

/-! ### Termination of the decoder -/

theorem startElementLoop_size (name : String) (flt : Option GoError) (ts : List Token) :
    ∀ (t : Option Token),
      (startElementLoop name flt t ts).2.size ≤ ts.length + (if t.isSome then 1 else 0) ∧
      ((startElementLoop name flt t ts).1.1.isSome →
        (startElementLoop name flt t ts).2.size + 1 ≤ ts.length + (if t.isSome then 1 else 0)) := by
  induction ts with
  | nil =>
    intro t
    rcases t with _ | (e | e | d | d | ⟨a, b⟩ | d) <;>
      simp [startElementLoop, DecState.size] <;> (try split) <;>
      simp [DecState.size] <;> (try split) <;> simp [DecState.size]
  | cons t1 ts ih =>
    intro t
    have h := ih (some t1)
    simp only [Option.isSome_some, if_true] at h
    rcases t with _ | (e | e | d | d | ⟨a, b⟩ | d)
    · rw [show startElementLoop name flt none (t1 :: ts) =
        startElementLoop name flt (some t1) ts from by simp [startElementLoop]]
      simp only [List.length_cons, Option.isSome_none]
      constructor
      · have := h.1; simp; omega
      · intro hs; have := h.2 hs; simp; omega
    · simp only [startElementLoop]
      split <;> simp [DecState.size]
    · simp [startElementLoop, DecState.size]
    all_goals
      rw [show startElementLoop name flt (some _) (t1 :: ts) =
        startElementLoop name flt (some t1) ts from by simp [startElementLoop]]
      simp only [List.length_cons, Option.isSome_some, if_true]
      constructor
      · have := h.1; omega
      · intro hs; have := h.2 hs; omega

theorem startElement_size (st : DecState) (name : String) :
    (startElement st name).2.size ≤ st.size ∧
    ((startElement st name).1.1.isSome → (startElement st name).2.size + 1 ≤ st.size) := by
  simpa [startElement, DecState.size] using startElementLoop_size name st.d.fault st.d.toks st.last

theorem endElementLoop_size (name : String) (flt : Option GoError) (ts : List Token) :
    ∀ (t : Option Token),
      (endElementLoop name flt t ts).2.size ≤ ts.length + (if t.isSome then 1 else 0) := by
  induction ts with
  | nil =>
    intro t
    rcases t with _ | (e | e | d | d | ⟨a, b⟩ | d) <;>
      simp [endElementLoop, DecState.size] <;> (try split) <;>
      simp [DecState.size] <;> (try split) <;> simp [DecState.size]
  | cons t1 ts ih =>
    intro t
    have h := ih (some t1)
    simp only [Option.isSome_some, if_true] at h
    rcases t with _ | (e | e | d | d | ⟨a, b⟩ | d)
    · rw [show endElementLoop name flt none (t1 :: ts) =
        endElementLoop name flt (some t1) ts from by simp [endElementLoop]]
      simp only [List.length_cons, Option.isSome_none]
      simp; omega
    · simp [endElementLoop, DecState.size]
    · simp only [endElementLoop]
      split <;> simp [DecState.size]
    all_goals
      rw [show endElementLoop name flt (some _) (t1 :: ts) =
        endElementLoop name flt (some t1) ts from by simp [endElementLoop]]
      simp only [List.length_cons, Option.isSome_some, if_true]
      omega

theorem mustEndElement_size (st : DecState) (name : String) :
    (mustEndElement st name).2.size ≤ st.size := by
  have h : (endElement st name).2.size ≤ st.size := by
    simpa [endElement, DecState.size] using endElementLoop_size name st.d.fault st.d.toks st.last
  unfold mustEndElement
  split <;> simp_all

theorem decodeElementLoop_length (ts : List Token) :
    ∀ (depth : Nat) (data : String) (r : String × List Token),
      decodeElementLoop depth data ts = some r → r.2.length ≤ ts.length := by
  induction ts with
  | nil => intro depth data r h; simp [decodeElementLoop] at h
  | cons t ts ih =>
    intro depth data r h
    cases t <;> cases depth <;> simp only [decodeElementLoop] at h <;>
      first
        | (have h2 := ih _ _ _ h
           simp only [List.length_cons]
           omega)
        | (simp only [Option.some.injEq] at h; subst h; simp)

theorem dropToStart_length (ts : List Token) :
    ∀ r, dropToStart ts = some r → r.length ≤ ts.length := by
  induction ts with
  | nil => intro r h; simp [dropToStart] at h
  | cons t ts ih =>
    intro r h
    cases t <;> simp only [dropToStart] at h <;>
      first
        | (have h2 := ih _ h
           simp only [List.length_cons]
           omega)
        | (simp only [Option.some.injEq] at h; subst h; simp)

theorem DecodeElement_length (d : Decoder) (b : Bool) :
    (DecodeElement d b).2.toks.length ≤ d.toks.length := by
  unfold DecodeElement
  simp only
  split
  · simp
  · next ts hts =>
    have h1 : ts.length ≤ d.toks.length := by
      cases b
      · simp at hts; exact dropToStart_length _ _ hts
      · simp at hts; subst hts; exact Nat.le_refl _
    split
    · simp
    · next data rest hr =>
      have := decodeElementLoop_length _ _ _ _ hr
      simp at this ⊢; omega

theorem Outcome.within_bind {α β : Type} (o : Outcome (α × DecState))
    (f : α × DecState → Outcome (β × DecState)) (b b1 : Nat) (ho : o.within b)
    (hf : ∀ r, r.2.size ≤ b → (f r).within b1) : (o.bind f).within b1 := by
  cases o with
  | ret r => exact hf r ho
  | panic m => trivial
  | outOfFuel => exact ho.elim

theorem Outcome.within_bind_value {α : Type} (o : Outcome (α × DecState))
    (f : α × DecState → Outcome ((GoValue × Option GoError) × DecState)) (b b1 : Nat)
    (ho : o.within b) (hf : ∀ r, r.2.size ≤ b → (f r).valueWithin b1) :
    (o.bind f).valueWithin b1 := by
  cases o with
  | ret r => exact hf r ho
  | panic m => trivial
  | outOfFuel => exact ho.elim

theorem Outcome.valueWithin_bind {β : Type}
    (o : Outcome ((GoValue × Option GoError) × DecState))
    (f : (GoValue × Option GoError) × DecState → Outcome (β × DecState)) (b b1 : Nat)
    (ho : o.valueWithin b)
    (hf : ∀ r, r.2.size ≤ b → (r.1.1 ≠ .nil → r.2.size + 2 ≤ b) → (f r).within b1) :
    (o.bind f).within b1 := by
  cases o with
  | ret r => exact hf r ho.1 ho.2
  | panic m => trivial
  | outOfFuel => exact ho.elim

theorem unmarshalValueEnd_size (v : GoValue) (err : Option GoError) (st : DecState) :
    (unmarshalValueEnd v err st).2.size ≤ st.size := by
  unfold unmarshalValueEnd
  split
  · exact mustEndElement_size st "value"
  · exact Nat.le_refl _

theorem DecState.toks_le_size (st : DecState) : st.d.toks.length ≤ st.size := by
  simp [DecState.size]

theorem DecState.size_none (d : Decoder) : (DecState.mk none d).size = d.toks.length := by
  simp [DecState.size]

theorem DecState.size_le_of_toks (l : Option Token) (d : Decoder) (st : DecState)
    (h : d.toks.length ≤ st.d.toks.length) (hl : l = st.last) :
    (DecState.mk l d).size ≤ st.size := by
  subst hl
  simp only [DecState.size]
  omega

theorem unmarshalScalar_size (name : String) (st : DecState) :
    (unmarshalScalar name st).2.size ≤ st.size := by
  have h := DecodeElement_length st.d true
  have h4 := st.toks_le_size
  unfold unmarshalScalar
  split
  · next d1 hd =>
    rw [hd] at h
    exact DecState.size_le_of_toks _ _ _ h rfl
  · next data d1 hd =>
    rw [hd] at h
    have h2 := unmarshalValueEnd_size (decodeValue data name).1 (decodeValue data name).2 ⟨none, d1⟩
    rw [DecState.size_none] at h2
    simp only at h
    omega

theorem decoder_terminates (fuel : Nat) :
    (∀ st : DecState, 2 * st.size + 1 ≤ fuel → (unmarshalValue fuel st).valueWithin st.size) ∧
    (∀ st : DecState, 2 * st.size + 3 ≤ fuel → (unmarshalArray fuel st).within st.size) ∧
    (∀ (arr : List GoValue) (st : DecState), 2 * st.size + 2 ≤ fuel →
      (unmarshalArrayLoop fuel arr st).within st.size) ∧
    (∀ (m : List (String × GoValue)) (st : DecState), 2 * st.size + 1 ≤ fuel →
      (unmarshalStructLoop fuel m st).within st.size) := by
  induction fuel with
  | zero =>
    refine ⟨?_, ?_, ?_, ?_⟩ <;> intros <;> omega
  | succ fuel ih =>
    obtain ⟨ihV, ihA, ihL, ihS⟩ := ih
    refine ⟨?_, ?_, ?_, ?_⟩
    · intro st h
      rw [unmarshalValue]
      have s1 := startElement_size st "value"
      rcases hs1 : startElement st "value" with ⟨⟨se1, err1⟩, st1⟩
      rw [hs1] at s1
      simp only at s1
      cases err1 with
      | some e => simp only [Outcome.valueWithin]; exact ⟨s1.1, fun hn => absurd rfl hn⟩
      | none =>
        cases se1 with
        | none => simp only [Outcome.valueWithin]; exact ⟨s1.1, fun hn => absurd rfl hn⟩
        | some n1 =>
          have s1' := s1.2 rfl
          simp only
          have s2 := startElement_size st1 any
          rcases hs2 : startElement st1 any with ⟨⟨se2, err2⟩, st2⟩
          rw [hs2] at s2
          simp only at s2
          cases err2 with
          | some e =>
            simp only [Outcome.valueWithin]
            exact ⟨by omega, fun hn => absurd rfl hn⟩
          | none =>
            cases se2 with
            | none => trivial
            | some n2 =>
              have s2' := s2.2 rfl
              simp only
              split
              · have := unmarshalScalar_size n2.Local st2
                simp only [Outcome.valueWithin]
                exact ⟨by omega, fun _ => by omega⟩
              · split
                · refine Outcome.within_bind_value _ _ st2.size _ (ihA st2 (by omega)) ?_
                  intro r hr
                  have h1 := mustEndElement_size r.2 "array"
                  have h2 := unmarshalValueEnd_size (.slice r.1.1)
                    (mustEndElement r.2 "array").1.2 (mustEndElement r.2 "array").2
                  simp only [Outcome.valueWithin]
                  exact ⟨by omega, fun _ => by omega⟩
                · split
                  · refine Outcome.within_bind_value _ _ st2.size _ (ihS [] st2 (by omega)) ?_
                    intro r hr
                    have h1 := mustEndElement_size r.2 "struct"
                    have h2 := unmarshalValueEnd_size (.map r.1.1)
                      (mustEndElement r.2 "struct").1.2 (mustEndElement r.2 "struct").2
                    simp only [Outcome.valueWithin]
                    exact ⟨by omega, fun _ => by omega⟩
                  · have h2 := unmarshalValueEnd_size .nil
                      (some (.errorsNew ("unsupported type: " ++ n2.Local))) st2
                    simp only [Outcome.valueWithin]
                    exact ⟨by omega, fun _ => by omega⟩
    · intro st h
      rw [unmarshalArray]
      have s1 := startElement_size st "data"
      rcases hs1 : startElement st "data" with ⟨⟨se1, err1⟩, st1⟩
      rw [hs1] at s1
      simp only at s1
      cases err1 with
      | some e => simp only [Outcome.within]; exact s1.1
      | none =>
        cases se1 with
        | none => simp only [Outcome.within]; exact s1.1
        | some n1 =>
          have s1' := s1.2 rfl
          simp only
          refine Outcome.within_bind _ _ st1.size _ (ihL [] st1 (by omega)) ?_
          intro r hr
          have h1 := mustEndElement_size r.2 "data"
          simp only [Outcome.within]
          omega
    · intro arr st h
      rw [unmarshalArrayLoop]
      refine Outcome.valueWithin_bind _ _ st.size _ (ihV st (by omega)) ?_
      intro r hr hr2
      split
      · exact hr
      · next v hv =>
        have h3 := hr2 (by intro hnil; exact hv hnil)
        have := ihL (arr ++ [r.1.1]) r.2 (by omega)
        cases hres : unmarshalArrayLoop fuel (arr ++ [r.1.1]) r.2 with
        | ret x => rw [hres] at this; simp only [Outcome.within] at this ⊢; omega
        | panic m => trivial
        | outOfFuel => rw [hres] at this; exact this.elim
    · intro m st h
      rw [unmarshalStructLoop]
      have s1 := startElement_size st "member"
      rcases hs1 : startElement st "member" with ⟨⟨se1, err1⟩, st1⟩
      rw [hs1] at s1
      simp only at s1
      cases err1 with
      | some e => simp only [Outcome.within]; exact s1.1
      | none =>
        cases se1 with
        | none => simp only [Outcome.within]; exact s1.1
        | some n1 =>
          have s1' := s1.2 rfl
          simp only
          have s2 := startElement_size st1 "name"
          rcases hs2 : startElement st1 "name" with ⟨⟨se2, err2⟩, st2⟩
          rw [hs2] at s2
          simp only at s2
          cases err2 with
          | some e => simp only [Outcome.within]; omega
          | none =>
            simp only
            have s3 := DecodeElement_length st2.d se2.isSome
            rcases hs3 : DecodeElement st2.d se2.isSome with ⟨⟨n, err3⟩, d3⟩
            rw [hs3] at s3
            simp only at s3
            have hst2 := st2.toks_le_size
            cases err3 with
            | some e =>
              have := DecState.size_le_of_toks st2.last d3 st2 s3 rfl
              simp only [Outcome.within]
              omega
            | none =>
              simp only
              have hsz : (DecState.mk none d3).size ≤ st2.size := by
                rw [DecState.size_none]; omega
              refine Outcome.valueWithin_bind _ _ (DecState.mk none d3).size _
                (ihV ⟨none, d3⟩ (by omega)) ?_
              intro r hr _
              split
              · simp only [Outcome.within]; omega
              · have h5 := mustEndElement_size r.2 "member"
                have := ihS (mapSet m n r.1.1) (mustEndElement r.2 "member").2 (by omega)
                cases hres : unmarshalStructLoop fuel (mapSet m n r.1.1)
                    (mustEndElement r.2 "member").2 with
                | ret x => rw [hres] at this; simp only [Outcome.within] at this ⊢; omega
                | panic m => trivial
                | outOfFuel => rw [hres] at this; exact this.elim

theorem unmarshalParamsLoop_within (fuel : Nat) :
    ∀ (params : List GoValue) (st : DecState), 2 * st.size + 1 ≤ fuel →
      (unmarshalParamsLoop fuel params st).within st.size := by
  induction fuel with
  | zero => intros; omega
  | succ fuel ih =>
    intro params st h
    rw [unmarshalParamsLoop]
    have s1 := startElement_size st "param"
    rcases hs1 : startElement st "param" with ⟨⟨se1, err1⟩, st1⟩
    rw [hs1] at s1
    simp only at s1
    cases err1 with
    | some e => simp only [Outcome.within]; exact s1.1
    | none =>
      cases se1 with
      | none => simp only [Outcome.within]; exact s1.1
      | some n1 =>
        have s1' := s1.2 rfl
        simp only
        refine Outcome.valueWithin_bind _ _ st1.size _
          ((decoder_terminates fuel).1 st1 (by omega)) ?_
        intro r hr _
        split
        · simp only [Outcome.within]; omega
        · have h5 := mustEndElement_size r.2 "param"
          rcases hm : mustEndElement r.2 "param" with ⟨⟨ee, err⟩, st3⟩
          rw [hm] at h5
          simp only at h5
          cases err with
          | some e => simp only [Outcome.within]; omega
          | none =>
            simp only
            have := ih (params ++ [r.1.1]) st3 (by omega)
            cases hres : unmarshalParamsLoop fuel (params ++ [r.1.1]) st3 with
            | ret x => rw [hres] at this; simp only [Outcome.within] at this ⊢; omega
            | panic m => trivial
            | outOfFuel => rw [hres] at this; exact this.elim

theorem unmarshalFault_within (fuel : Nat) (st : DecState) (h : 2 * st.size + 1 ≤ fuel) :
    (unmarshalFault fuel st).within st.size := by
  unfold unmarshalFault
  refine Outcome.valueWithin_bind _ _ st.size _ ((decoder_terminates fuel).1 st h) ?_
  intro r hr _
  simp only
  split
  · split
    · exact hr
    · trivial
  · trivial

/-- The body of `unmarshal` terminates: with the fuel that `unmarshalTokens`
gives it, it returns or panics. -/
theorem unmarshalFrom_terminates (fuel : Nat) (st : DecState) (h : 2 * st.size + 4 ≤ fuel) :
    (unmarshalFrom fuel st).within st.size := by
  unfold unmarshalFrom
  have s1 := startElement_size st "methodResponse"
  rcases hs1 : startElement st "methodResponse" with ⟨⟨se1, err1⟩, st1⟩
  rw [hs1] at s1
  simp only at s1
  cases err1 with
  | some e => simp only [Outcome.within]; exact s1.1
  | none =>
    cases se1 with
    | none => simp only [Outcome.within]; exact s1.1
    | some n1 =>
      have s1' := s1.2 rfl
      simp only
      have s2 := startElement_size st1 any
      rcases hs2 : startElement st1 any with ⟨⟨se2, err2⟩, st2⟩
      rw [hs2] at s2
      simp only at s2
      cases err2 with
      | some e => simp only [Outcome.within]; omega
      | none =>
        cases se2 with
        | none => trivial
        | some n2 =>
          simp only
          split
          · refine Outcome.within_bind _ _ st2.size _
              (unmarshalParamsLoop_within fuel [] st2 (by omega)) ?_
            intro r hr
            split
            · simp only [Outcome.within]; omega
            · have h5 := mustEndElement_size r.2 "params"
              rcases hm : mustEndElement r.2 "params" with ⟨⟨ee, err⟩, st4⟩
              rw [hm] at h5
              simp only at h5
              cases err with
              | some e => simp only [Outcome.within]; omega
              | none =>
                have h6 := mustEndElement_size st4 "methodResponse"
                simp only [Outcome.within]; omega
          · split
            · refine Outcome.within_bind _ _ st2.size _
                (unmarshalFault_within fuel st2 (by omega)) ?_
              intro r hr
              split
              · simp only [Outcome.within]; omega
              · have h5 := mustEndElement_size r.2 "fault"
                rcases hm : mustEndElement r.2 "fault" with ⟨⟨ee, err⟩, st4⟩
                rw [hm] at h5
                simp only at h5
                cases err with
                | some e => simp only [Outcome.within]; omega
                | none => simp only [Outcome.within]; omega
            · simp only [Outcome.within]; omega

/-- The method `unmarshal` never runs out of fuel. -/
theorem unmarshalTokens_ne_outOfFuel (u : unmarshaller) (d : Decoder) :
    unmarshalTokens u d ≠ .outOfFuel := by
  have h := unmarshalFrom_terminates (2 * (DecState.size ⟨u.last, d⟩) + 4) ⟨u.last, d⟩
    (Nat.le_refl _)
  unfold unmarshalTokens
  cases hr : unmarshalFrom (2 * (DecState.size ⟨u.last, d⟩) + 4) ⟨u.last, d⟩ with
  | ret r => simp [Outcome.bind]
  | panic m => simp [Outcome.bind]
  | outOfFuel => rw [hr] at h; exact h.elim

/-! ### Fault responses -/

theorem DecodeElement_chardata (k n : String) (ts : List Token) (flt : Option GoError) :
    DecodeElement ⟨.CharData k :: endTag n :: ts, flt⟩ true = ((k, none), ⟨ts, flt⟩) := by
  simp [DecodeElement, decodeElementLoop, endTag]

theorem unmarshalValue_scalar (tag text : String) (v : GoValue)
    (htag : tag = "string" ∨ tag = "base64" ∨ tag = "int" ∨ tag = "i4" ∨ tag = "i8" ∨
      tag = "boolean")
    (hd : decodeValue text tag = (v, none)) (fuel : Nat) (rest : List Token)
    (flt : Option GoError) :
    unmarshalValue (fuel + 1)
        ⟨none, ⟨startTag "value" :: startTag tag :: .CharData text :: endTag tag ::
          endTag "value" :: rest, flt⟩⟩ =
      .ret ((v, none), ⟨none, ⟨rest, flt⟩⟩) := by
  rw [unmarshalValue]
  simp only [startElement_start _ _ _ _ (Or.inr rfl), startElement_start _ any _ _ (Or.inl rfl)]
  simp [htag, unmarshalScalar, DecodeElement_chardata, hd, unmarshalValueEnd,
    mustEndElement_end]

theorem unmarshalStructLoop_member (k : String) (v : GoValue) (vtoks rest : List Token)
    (m : List (String × GoValue)) (fuel : Nat) (flt : Option GoError)
    (hv : unmarshalValue fuel ⟨none, ⟨vtoks ++ endTag "member" :: rest, flt⟩⟩ =
      .ret ((v, none), ⟨none, ⟨endTag "member" :: rest, flt⟩⟩)) :
    unmarshalStructLoop (fuel + 1) m
        ⟨none, ⟨startTag "member" :: startTag "name" :: .CharData k :: endTag "name" ::
          (vtoks ++ endTag "member" :: rest), flt⟩⟩ =
      unmarshalStructLoop fuel (mapSet m k v) ⟨none, ⟨rest, flt⟩⟩ := by
  rw [unmarshalStructLoop]
  simp only [startElement_start _ _ _ _ (Or.inr rfl)]
  simp [DecodeElement_chardata, hv, Outcome.bind, mustEndElement_end]

theorem unmarshalStructLoop_end (m : List (String × GoValue)) (fuel : Nat) (rest : List Token)
    (flt : Option GoError) :
    unmarshalStructLoop (fuel + 1) m ⟨none, ⟨endTag "struct" :: rest, flt⟩⟩ =
      .ret ((m, none), ⟨some (endTag "struct"), ⟨rest, flt⟩⟩) := by
  rw [unmarshalStructLoop]
  simp [startElement_end]

/-! ### The tests of the repository -/

/-- The test `TestUnmarshalMessageWithNestedArraysParam` of the repository. -/
theorem test_UnmarshalMessageWithNestedArraysParam :
    unmarshal ⟨none⟩ ("<?xml version=\"1.0\" encoding=\"UTF-8\"?>\n<methodResponse>\n\t<params>\n      \t<param><value><array><data>\n" ++
    "\t\t\t<value><string>hello</string></value>\n\t\t\t<value><array><data>\n\t\t        <value><string>to be or not to be</string></value>\n" ++
    "\t\t        <value><base64>aGVsbG8=</base64></value>\n\t\t        <value><boolean>1</boolean></value>\n" ++
    "\t\t        <value><i4>123</i4></value>\n\t\t        <value><i8>321</i8></value>\n" ++
    "\t\t\t</data></array></value>\n\t\t\t<value><string>bye</string></value>\n\t\t</data></array></value></param>\n" ++
    "\t</params>\n</methodResponse>\n\t") =
      .ret (([.slice [.str "hello", .slice [.str "to be or not to be", .bytes [104, 101, 108, 108, 111], .bool true, .int 123, .int64 321], .str "bye"]], none), ⟨none⟩) := by
  rfl

/-- The test `TestUnmarshalMessageWithStructParam` of the repository. -/
theorem test_UnmarshalMessageWithStructParam :
    unmarshal ⟨none⟩ ("<?xml version=\"1.0\" encoding=\"UTF-8\"?>\n<methodResponse>\n\t<params>\n      \t<param><value><struct>\n" ++
    "\t\t\t<member>\n\t\t\t\t<name>msg</name>\n\t\t\t\t<value><string>hello</string></value>\n" ++
    "\t\t\t</member>\n\t\t</struct></value></param>\n\t</params>\n</methodResponse>\n" ++
    "\t") =
      .ret (([.map [("msg", .str "hello")]], none), ⟨none⟩) := by
  rfl

/-- The test `TestUnmarshalFaultMessage` of the repository. -/
theorem test_UnmarshalFaultMessage :
    unmarshal ⟨none⟩ ("<?xml version=\"1.0\" encoding=\"UTF-8\"?>\n<methodResponse>\n   <fault>\n      <value>\n" ++
    "         <struct>\n            <member>\n               <name>faultCode</name>\n" ++
    "               <value><int>3</int></value>\n               </member>\n            <member>\n" ++
    "               <name>faultString</name>\n               <value><string>something went wrong</string></value>\n" ++
    "               </member>\n            </struct>\n         </value>\n      </fault>\n" ++
    "</methodResponse>\n\t") =
      .ret (([], some (.errorsNew "error response, code: 3, text: something went wrong")), ⟨none⟩) := by
  rfl

/-- The test `TestMarshalWithNestedArray` of the repository. -/
theorem test_MarshalWithNestedArray :
    marshal "array" [.slice [.str "hello", .slice [.str "to be or not to be",
      .bytes [104, 101, 108, 108, 111], .bool true, .int 123, .int64 321], .str "bye"]] =
    (some ("<?xml version=\"1.0\" encoding=\"UTF-8\"?><methodCall><methodName>array</methodName>" ++
      "<params><param><value><array><data><value><string>hello</string></value>" ++
      "<value><array><data><value><string>to be or not to be</string></value>" ++
      "<value><base64>aGVsbG8=</base64></value><value><boolean>1</boolean></value>" ++
      "<value><i4>123</i4></value><value><i8>321</i8></value></data></array></value>" ++
      "<value><string>bye</string></value></data></array></value></param></params>" ++
      "</methodCall>"), none) := by
  rfl

/-- The test `TestMarshalWithNestedStruct` of the repository. -/
theorem test_MarshalWithNestedStruct :
    marshal "struct" [.struct [("Foo", .str "foo"), ("Nested", .struct [("Bar", .str "bar")])]] =
    (some ("<?xml version=\"1.0\" encoding=\"UTF-8\"?><methodCall><methodName>struct</methodName>" ++
      "<params><param><value><struct><member><name>Foo</name><value><string>foo</string>" ++
      "</value></member><member><name>Nested</name><value><struct><member><name>Bar</name>" ++
      "<value><string>bar</string></value></member></struct></value></member></struct>" ++
      "</value></param></params></methodCall>"), none) := by
  rfl

/-! ### More fuel does not change a result -/

theorem Outcome.bind_ne_outOfFuel {α β : Type} (o : Outcome α) (f : α → Outcome β)
    (h : o.bind f ≠ .outOfFuel) :
    o ≠ .outOfFuel ∧ ∀ r, o = .ret r → f r ≠ .outOfFuel := by
  cases o with
  | ret r =>
    refine ⟨(fun hc => by cases hc), ?_⟩
    intro r1 hr
    cases hr
    exact h
  | panic m =>
    refine ⟨(fun hc => by cases hc), ?_⟩
    intro r1 hr
    cases hr
  | outOfFuel => exact absurd rfl h

theorem Outcome.bind_congr {α β : Type} (o1 o : Outcome α) (f1 f : α → Outcome β)
    (ho : o1 = o) (hf : ∀ r, o = .ret r → f1 r = f r) : o1.bind f1 = o.bind f := by
  subst ho
  cases o1 with
  | ret r => exact hf r rfl
  | panic m => rfl
  | outOfFuel => rfl

theorem decoder_fuel_succ (fuel : Nat) :
    (∀ st : DecState, unmarshalValue fuel st ≠ .outOfFuel →
      unmarshalValue (fuel + 1) st = unmarshalValue fuel st) ∧
    (∀ st : DecState, unmarshalArray fuel st ≠ .outOfFuel →
      unmarshalArray (fuel + 1) st = unmarshalArray fuel st) ∧
    (∀ (arr : List GoValue) (st : DecState), unmarshalArrayLoop fuel arr st ≠ .outOfFuel →
      unmarshalArrayLoop (fuel + 1) arr st = unmarshalArrayLoop fuel arr st) ∧
    (∀ (m : List (String × GoValue)) (st : DecState),
      unmarshalStructLoop fuel m st ≠ .outOfFuel →
      unmarshalStructLoop (fuel + 1) m st = unmarshalStructLoop fuel m st) := by
  induction fuel with
  | zero =>
    refine ⟨?_, ?_, ?_, ?_⟩
    · intro st h; exact absurd (by rw [unmarshalValue]) h
    · intro st h; exact absurd (by rw [unmarshalArray]) h
    · intro arr st h; exact absurd (by rw [unmarshalArrayLoop]) h
    · intro m st h; exact absurd (by rw [unmarshalStructLoop]) h
  | succ fuel ih =>
    obtain ⟨ihV, ihA, ihL, ihS⟩ := ih
    refine ⟨?_, ?_, ?_, ?_⟩
    · intro st h
      rw [unmarshalValue] at h ⊢
      rw [unmarshalValue]
      rcases hs1 : startElement st "value" with ⟨⟨se1, err1⟩, st1⟩
      rw [hs1] at h
      rcases err1 with _ | e1
      · rcases se1 with _ | n1
        · rfl
        · simp only at h ⊢
          rcases hs2 : startElement st1 any with ⟨⟨se2, err2⟩, st2⟩
          rw [hs2] at h
          rcases err2 with _ | e2
          · rcases se2 with _ | n2
            · rfl
            · simp only at h ⊢
              by_cases c1 : n2.Local = "string" ∨ n2.Local = "base64" ∨ n2.Local = "int" ∨
                  n2.Local = "i4" ∨ n2.Local = "i8" ∨ n2.Local = "boolean"
              · simp only [if_pos c1]
              · simp only [if_neg c1] at h ⊢
                by_cases c2 : n2.Local = "array"
                · simp only [if_pos c2] at h ⊢
                  exact Outcome.bind_congr _ _ _ _
                    (ihA st2 (Outcome.bind_ne_outOfFuel _ _ h).1) (fun _ _ => rfl)
                · simp only [if_neg c2] at h ⊢
                  by_cases c3 : n2.Local = "struct"
                  · simp only [if_pos c3] at h ⊢
                    exact Outcome.bind_congr _ _ _ _
                      (ihS [] st2 (Outcome.bind_ne_outOfFuel _ _ h).1) (fun _ _ => rfl)
                  · simp only [if_neg c3]
          · cases se2 <;> rfl
      · cases se1 <;> rfl
    · intro st h
      rw [unmarshalArray] at h ⊢
      rw [unmarshalArray]
      rcases hs1 : startElement st "data" with ⟨⟨se1, err1⟩, st1⟩
      rw [hs1] at h
      rcases err1 with _ | e1
      · rcases se1 with _ | n1
        · rfl
        · simp only at h ⊢
          exact Outcome.bind_congr _ _ _ _
            (ihL [] st1 (Outcome.bind_ne_outOfFuel _ _ h).1) (fun _ _ => rfl)
      · cases se1 <;> rfl
    · intro arr st h
      rw [unmarshalArrayLoop] at h ⊢
      rw [unmarshalArrayLoop]
      have hb := Outcome.bind_ne_outOfFuel _ _ h
      refine Outcome.bind_congr _ _ _ _ (ihV st hb.1) ?_
      intro r hr
      have h2 := hb.2 r hr
      split
      · rfl
      · next v hv =>
        simp only at h2
        exact ihL _ _ h2
    · intro m st h
      rw [unmarshalStructLoop] at h ⊢
      rw [unmarshalStructLoop]
      rcases hs1 : startElement st "member" with ⟨⟨se1, err1⟩, st1⟩
      rw [hs1] at h
      rcases err1 with _ | e1
      · rcases se1 with _ | n1
        · rfl
        · simp only at h ⊢
          rcases hs2 : startElement st1 "name" with ⟨⟨se2, err2⟩, st2⟩
          rw [hs2] at h
          rcases err2 with _ | e2
          · simp only at h ⊢
            rcases hd : DecodeElement st2.d se2.isSome with ⟨⟨n, err3⟩, d3⟩
            rw [hd] at h
            rcases err3 with _ | e3
            · simp only at h ⊢
              have hb := Outcome.bind_ne_outOfFuel _ _ h
              refine Outcome.bind_congr _ _ _ _ (ihV _ hb.1) ?_
              intro r hr
              have h2 := hb.2 r hr
              simp only at h2 ⊢
              split
              · rfl
              · next herr =>
                rw [herr] at h2
                exact ihS _ _ h2
            · rfl
          · rfl
      · cases se1 <;> rfl


theorem unmarshalValue_fuel_le (st : DecState) (fuel : Nat)
    (h : unmarshalValue fuel st ≠ .outOfFuel) :
    ∀ k, unmarshalValue (fuel + k) st = unmarshalValue fuel st := by
  intro k
  induction k with
  | zero => rfl
  | succ k ih =>
    rw [← Nat.add_assoc, (decoder_fuel_succ (fuel + k)).1 st (by rw [ih]; exact h), ih]

theorem unmarshalStructLoop_fuel_le (m : List (String × GoValue)) (st : DecState) (fuel : Nat)
    (h : unmarshalStructLoop fuel m st ≠ .outOfFuel) :
    ∀ k, unmarshalStructLoop (fuel + k) m st = unmarshalStructLoop fuel m st := by
  intro k
  induction k with
  | zero => rfl
  | succ k ih =>
    rw [← Nat.add_assoc, (decoder_fuel_succ (fuel + k)).2.2.2 m st (by rw [ih]; exact h), ih]

theorem unmarshalParamsLoop_fuel_succ (fuel : Nat) :
    ∀ (params : List GoValue) (st : DecState), unmarshalParamsLoop fuel params st ≠ .outOfFuel →
      unmarshalParamsLoop (fuel + 1) params st = unmarshalParamsLoop fuel params st := by
  induction fuel with
  | zero => intro params st h; exact absurd (by rw [unmarshalParamsLoop]) h
  | succ fuel ih =>
    intro params st h
    rw [unmarshalParamsLoop] at h ⊢
    rw [unmarshalParamsLoop]
    rcases hs1 : startElement st "param" with ⟨⟨se1, err1⟩, st1⟩
    rw [hs1] at h
    rcases err1 with _ | e1
    · rcases se1 with _ | n1
      · rfl
      · simp only at h ⊢
        have hb := Outcome.bind_ne_outOfFuel _ _ h
        refine Outcome.bind_congr _ _ _ _ ((decoder_fuel_succ fuel).1 _ hb.1) ?_
        intro r hr
        have h2 := hb.2 r hr
        simp only at h2 ⊢
        split
        · rfl
        · next herr =>
          rw [herr] at h2
          simp only at h2
          split
          · rfl
          · next hm =>
            rw [hm] at h2
            exact ih _ _ h2
    · cases se1 <;> rfl

theorem unmarshalFrom_fuel_succ (fuel : Nat) (st : DecState)
    (h : unmarshalFrom fuel st ≠ .outOfFuel) :
    unmarshalFrom (fuel + 1) st = unmarshalFrom fuel st := by
  unfold unmarshalFrom at h ⊢
  rcases hs1 : startElement st "methodResponse" with ⟨⟨se1, err1⟩, st1⟩
  rw [hs1] at h
  rcases err1 with _ | e1
  · rcases se1 with _ | n1
    · rfl
    · simp only at h ⊢
      rcases hs2 : startElement st1 any with ⟨⟨se2, err2⟩, st2⟩
      rw [hs2] at h
      rcases err2 with _ | e2
      · rcases se2 with _ | n2
        · rfl
        · simp only at h ⊢
          by_cases c1 : n2.Local = "params"
          · simp only [if_pos c1] at h ⊢
            exact Outcome.bind_congr _ _ _ _
              (unmarshalParamsLoop_fuel_succ fuel [] st2 (Outcome.bind_ne_outOfFuel _ _ h).1)
              (fun _ _ => rfl)
          · simp only [if_neg c1] at h ⊢
            by_cases c2 : n2.Local = "fault"
            · simp only [if_pos c2] at h ⊢
              refine Outcome.bind_congr _ _ _ _ ?_ (fun _ _ => rfl)
              unfold unmarshalFault
              have hb := Outcome.bind_ne_outOfFuel _ _ h
              unfold unmarshalFault at hb
              exact Outcome.bind_congr _ _ _ _
                ((decoder_fuel_succ fuel).1 st2 (Outcome.bind_ne_outOfFuel _ _ hb.1).1)
                (fun _ _ => rfl)
            · simp only [if_neg c2]
      · cases se2 <;> rfl
  · cases se1 <;> rfl

theorem unmarshalFrom_fuel_le (st : DecState) (fuel : Nat)
    (h : unmarshalFrom fuel st ≠ .outOfFuel) :
    ∀ k, unmarshalFrom (fuel + k) st = unmarshalFrom fuel st := by
  intro k
  induction k with
  | zero => rfl
  | succ k ih =>
    rw [← Nat.add_assoc, unmarshalFrom_fuel_succ (fuel + k) st (by rw [ih]; exact h), ih]

theorem within_ne_outOfFuel {α : Type} (b : Nat) (o : Outcome (α × DecState))
    (h : o.within b) : o ≠ .outOfFuel := by
  intro hc
  rw [hc] at h
  exact h

/-- A result computed with any fuel is the result of the fuel that
`unmarshalTokens` uses. -/
theorem unmarshalFrom_any_fuel (st : DecState) (fuel : Nat)
    (o : Outcome ((List GoValue × Option GoError) × DecState))
    (h : unmarshalFrom fuel st = o) (ho : o ≠ .outOfFuel) :
    unmarshalFrom (2 * st.size + 4) st = o := by
  have ht := within_ne_outOfFuel _ _ (unmarshalFrom_terminates (2 * st.size + 4) st (Nat.le_refl _))
  rcases Nat.le_total fuel (2 * st.size + 4) with hle | hle
  · obtain ⟨k, hk⟩ := Nat.exists_eq_add_of_le hle
    rw [hk, unmarshalFrom_fuel_le st fuel (by rw [h]; exact ho) k, h]
  · obtain ⟨k, hk⟩ := Nat.exists_eq_add_of_le hle
    rw [← h, hk, unmarshalFrom_fuel_le st _ ht k]

theorem unmarshalTokens_any_fuel (u : unmarshaller) (d : Decoder) (fuel : Nat)
    (r : (List GoValue × Option GoError) × DecState)
    (h : unmarshalFrom fuel ⟨u.last, d⟩ = .ret r) :
    unmarshalTokens u d = .ret (r.1, ⟨r.2.last⟩) := by
  unfold unmarshalTokens
  rw [unmarshalFrom_any_fuel ⟨u.last, d⟩ fuel _ h (by intro hc; cases hc)]
  rfl

/-! ### The read primitives skip what is not a tag -/

theorem startElementLoop_step (name : String) (flt : Option GoError) (l : Option Token)
    (hl : ∀ t, l = some t → t.isTag = false) (t : Token) (rest : List Token) :
    startElementLoop name flt l (t :: rest) = startElementLoop name flt (some t) rest := by
  rcases l with _ | (e | e | d | d | ⟨a, b⟩ | d)
  all_goals first
    | rfl
    | exact absurd (hl _ rfl) (by simp [Token.isTag])

theorem startElementLoop_skip (name : String) (flt : Option GoError) :
    ∀ (pre : List Token), noTags pre = true → ∀ (l : Option Token),
    (∀ t, l = some t → t.isTag = false) → ∀ (t : Token) (rest : List Token),
    startElementLoop name flt l (pre ++ t :: rest) = startElementLoop name flt (some t) rest
  | [], _, l, hl, t, rest => startElementLoop_step name flt l hl t rest
  | p :: pre, hp, l, hl, t, rest => by
    simp only [noTags, List.all_cons, Bool.and_eq_true, Bool.not_eq_true'] at hp
    rw [List.cons_append, startElementLoop_step name flt l hl]
    exact startElementLoop_skip name flt pre (by simpa [noTags] using hp.2) (some p)
      (by intro t ht; cases ht; exact hp.1) t rest

theorem startElementLoop_eof (name : String) :
    ∀ (pre : List Token), noTags pre = true → ∀ (l : Option Token),
    (∀ t, l = some t → t.isTag = false) →
    startElementLoop name none l pre = ((none, none), ⟨none, ⟨[], none⟩⟩)
  | [], _, l, hl => by
    rcases l with _ | (e | e | d | d | ⟨a, b⟩ | d)
    all_goals first
      | rfl
      | exact absurd (hl _ rfl) (by simp [Token.isTag])
  | p :: pre, hp, l, hl => by
    simp only [noTags, List.all_cons, Bool.and_eq_true, Bool.not_eq_true'] at hp
    rw [startElementLoop_step name none l hl]
    exact startElementLoop_eof name pre (by simpa [noTags] using hp.2) (some p)
      (by intro t ht; cases ht; exact hp.1)

theorem endElementLoop_step (name : String) (flt : Option GoError) (l : Option Token)
    (hl : ∀ t, l = some t → t.isTag = false) (t : Token) (rest : List Token) :
    endElementLoop name flt l (t :: rest) = endElementLoop name flt (some t) rest := by
  rcases l with _ | (e | e | d | d | ⟨a, b⟩ | d)
  all_goals first
    | rfl
    | exact absurd (hl _ rfl) (by simp [Token.isTag])

theorem endElementLoop_skip (name : String) (flt : Option GoError) :
    ∀ (pre : List Token), noTags pre = true → ∀ (l : Option Token),
    (∀ t, l = some t → t.isTag = false) → ∀ (t : Token) (rest : List Token),
    endElementLoop name flt l (pre ++ t :: rest) = endElementLoop name flt (some t) rest
  | [], _, l, hl, t, rest => endElementLoop_step name flt l hl t rest
  | p :: pre, hp, l, hl, t, rest => by
    simp only [noTags, List.all_cons, Bool.and_eq_true, Bool.not_eq_true'] at hp
    rw [List.cons_append, endElementLoop_step name flt l hl]
    exact endElementLoop_skip name flt pre (by simpa [noTags] using hp.2) (some p)
      (by intro t ht; cases ht; exact hp.1) t rest

theorem endElementLoop_eof (name : String) :
    ∀ (pre : List Token), noTags pre = true → ∀ (l : Option Token),
    (∀ t, l = some t → t.isTag = false) →
    endElementLoop name none l pre = ((none, none), ⟨none, ⟨[], none⟩⟩)
  | [], _, l, hl => by
    rcases l with _ | (e | e | d | d | ⟨a, b⟩ | d)
    all_goals first
      | rfl
      | exact absurd (hl _ rfl) (by simp [Token.isTag])
  | p :: pre, hp, l, hl => by
    simp only [noTags, List.all_cons, Bool.and_eq_true, Bool.not_eq_true'] at hp
    rw [endElementLoop_step name none l hl]
    exact endElementLoop_eof name pre (by simpa [noTags] using hp.2) (some p)
      (by intro t ht; cases ht; exact hp.1)

theorem none_not_tag : ∀ t : Token, (none : Option Token) = some t → t.isTag = false := by
  intro t h
  cases h

theorem startElement_skip_start (pre rest : List Token) (e : Name) (name : String)
    (flt : Option GoError) (hpre : noTags pre = true) (h : name = any ∨ e.Local = name) :
    startElement ⟨none, ⟨pre ++ .StartElement e :: rest, flt⟩⟩ name =
      ((some e, none), ⟨none, ⟨rest, flt⟩⟩) := by
  simp only [startElement]
  rw [startElementLoop_skip name flt pre hpre none none_not_tag]
  simp [startElementLoop, h]

theorem startElement_skip_other (pre rest : List Token) (e : Name) (name : String)
    (flt : Option GoError) (hpre : noTags pre = true) (h1 : name ≠ any) (h2 : e.Local ≠ name) :
    startElement ⟨none, ⟨pre ++ .StartElement e :: rest, flt⟩⟩ name =
      ((none, none), ⟨some (.StartElement e), ⟨rest, flt⟩⟩) := by
  simp only [startElement]
  rw [startElementLoop_skip name flt pre hpre none none_not_tag]
  simp [startElementLoop, h1, h2]

theorem startElement_skip_end (pre rest : List Token) (e : Name) (name : String)
    (flt : Option GoError) (hpre : noTags pre = true) :
    startElement ⟨none, ⟨pre ++ .EndElement e :: rest, flt⟩⟩ name =
      ((none, none), ⟨some (.EndElement e), ⟨rest, flt⟩⟩) := by
  simp only [startElement]
  rw [startElementLoop_skip name flt pre hpre none none_not_tag]
  simp [startElementLoop]

theorem endElement_skip_start (pre rest : List Token) (e : Name) (name : String)
    (flt : Option GoError) (hpre : noTags pre = true) :
    endElement ⟨none, ⟨pre ++ .StartElement e :: rest, flt⟩⟩ name =
      ((none, none), ⟨some (.StartElement e), ⟨rest, flt⟩⟩) := by
  simp only [endElement]
  rw [endElementLoop_skip name flt pre hpre none none_not_tag]
  simp [endElementLoop]

theorem unmarshalFrom_unknown (pre mid rest : List Token) (root n : Name)
    (flt : Option GoError) (fuel : Nat) (hpre : noTags pre = true) (hmid : noTags mid = true)
    (hroot : root.Local = "methodResponse") (h1 : n.Local ≠ "params")
    (h2 : n.Local ≠ "fault") :
    unmarshalFrom fuel ⟨none, ⟨pre ++ .StartElement root :: (mid ++ .StartElement n :: rest), flt⟩⟩ =
      .ret (([], some (.errorsNew ("invalid xml, unknown element " ++ n.Local))),
        ⟨none, ⟨rest, flt⟩⟩) := by
  unfold unmarshalFrom
  rw [startElement_skip_start pre _ root "methodResponse" flt hpre (Or.inr hroot)]
  simp only
  rw [startElement_skip_start mid _ n any flt hmid (Or.inl rfl)]
  simp only [if_neg h1, if_neg h2]

/-! ### Scalars in a response -/

theorem ParseBool_true (s : String) (h : s ∈ trueLiterals) : ParseBool s = (true, none) := by
  simp only [trueLiterals, List.mem_cons, List.mem_singleton, List.mem_nil_iff, or_false] at h
  rcases h with h | h | h | h | h | h <;> subst h <;> rfl

theorem ParseBool_false (s : String) (h : s ∈ falseLiterals) : ParseBool s = (false, none) := by
  simp only [falseLiterals, List.mem_cons, List.mem_singleton, List.mem_nil_iff, or_false] at h
  rcases h with h | h | h | h | h | h <;> subst h <;> rfl

theorem ParseBool_other (s : String) (h1 : s ∉ trueLiterals) (h2 : s ∉ falseLiterals) :
    ParseBool s = (false, some (.numError "ParseBool" s false)) := by
  simp only [trueLiterals, falseLiterals, List.mem_cons, List.mem_singleton, List.mem_nil_iff,
    or_false, not_or] at h1 h2
  simp [ParseBool, h1, h2]

/-- A response whose only param is a scalar element: the value when
`decodeValue` returns no error, no value and the error of `decodeValue`
otherwise. -/
theorem unmarshalTokens_scalarResponse (tag s : String)
    (htag : tag = "string" ∨ tag = "base64" ∨ tag = "int" ∨ tag = "i4" ∨ tag = "i8" ∨
      tag = "boolean") :
    unmarshalTokens ⟨none⟩ ⟨scalarResponse tag s, none⟩ =
      match (decodeValue s tag).2 with
      | none => .ret (([(decodeValue s tag).1], none), ⟨none⟩)
      | some err => .ret (([], some err), ⟨none⟩) := by
  cases hd : (decodeValue s tag).2 with
  | none =>
    refine unmarshalTokens_any_fuel ⟨none⟩ _ 2 (([(decodeValue s tag).1], none), ⟨none, ⟨[], none⟩⟩) ?_
    simp only [scalarResponse, List.cons_append, List.nil_append, unmarshalFrom,
      startElement_start _ _ _ _ (Or.inr rfl), startElement_start _ any _ _ (Or.inl rfl),
      unmarshalParams]
    rw [unmarshalParamsLoop]
    simp only [startElement_start _ _ _ _ (Or.inr rfl)]
    rw [unmarshalValue]
    simp only [startElement_start _ _ _ _ (Or.inr rfl), startElement_start _ any _ _ (Or.inl rfl)]
    simp [htag, unmarshalScalar, DecodeElement_text, hd, unmarshalValueEnd, mustEndElement_end,
      Outcome.bind, unmarshalParamsLoop, startElement_end, mustEndElement_last]
  | some err =>
    refine unmarshalTokens_any_fuel ⟨none⟩ _ 2 (([], some err), ⟨none,
      ⟨[endTag "value", endTag "param", endTag "params", endTag "methodResponse"], none⟩⟩) ?_
    simp only [scalarResponse, List.cons_append, List.nil_append, unmarshalFrom,
      startElement_start _ _ _ _ (Or.inr rfl), startElement_start _ any _ _ (Or.inl rfl),
      unmarshalParams]
    rw [unmarshalParamsLoop]
    simp only [startElement_start _ _ _ _ (Or.inr rfl)]
    rw [unmarshalValue]
    simp only [startElement_start _ _ _ _ (Or.inr rfl), startElement_start _ any _ _ (Or.inl rfl)]
    simp [htag, unmarshalScalar, DecodeElement_text, hd, unmarshalValueEnd, Outcome.bind]

/-! ### Loops over complete members and params, whatever follows -/

theorem unmarshalStructLoop_members : ∀ (ms : List (String × GoValue)),
    (∀ e ∈ ms, validValue e.2 = true) → ∀ (fuel : Nat), (memberTokens ms).length ≤ fuel →
    ∀ (n : Nat), n = fuel + ms.length →
    ∀ (m0 : List (String × GoValue)) (rest : List Token) (flt : Option GoError),
    unmarshalStructLoop n m0 ⟨none, ⟨memberTokens ms ++ rest, flt⟩⟩ =
      unmarshalStructLoop fuel (ms.foldl (fun m e => mapSet m e.1 e.2) m0) ⟨none, ⟨rest, flt⟩⟩
  | [], _, fuel, _, n, hn, m0, rest, flt => by
    subst hn
    simp [memberTokens]
  | (k, v) :: ms, hv, fuel, hf, n, hn, m0, rest, flt => by
    subst hn
    simp only [memberTokens, List.length_cons, List.length_append] at hf
    have h1 := unmarshalValue_tokens v (hv (k, v) (List.mem_cons_self _ _)) (fuel + ms.length)
      (by simp [valueTokens]; omega) (endTag "member" :: (memberTokens ms ++ rest)) flt
    have h2 := unmarshalStructLoop_members ms
      (fun e he => hv e (List.mem_cons_of_mem _ he)) fuel (by omega) (fuel + ms.length) rfl
      (mapSet m0 k v) rest flt
    have hde := DecodeElement_text k "name"
      (startTag "value" :: (typeTokens v ++ endTag "value" :: endTag "member" ::
        (memberTokens ms ++ rest))) flt
    simp only [valueTokens, List.cons_append, List.append_assoc, List.nil_append] at h1
    have e : fuel + ((k, v) :: ms).length = (fuel + ms.length) + 1 := by
      simp only [List.length_cons]; omega
    rw [e, unmarshalStructLoop]
    simp only [memberTokens, List.cons_append, List.append_assoc,
      startElement_start _ _ _ _ (Or.inr rfl)]
    simp [hde, h1, Outcome.bind, mustEndElement_end, h2]

theorem unmarshalParamsLoop_params : ∀ (vs : List GoValue), validValues vs = true →
    ∀ (fuel : Nat), (paramsTokens vs).length ≤ fuel → ∀ (n : Nat), n = fuel + vs.length →
    ∀ (params : List GoValue) (rest : List Token) (flt : Option GoError),
    unmarshalParamsLoop n params ⟨none, ⟨paramsTokens vs ++ rest, flt⟩⟩ =
      unmarshalParamsLoop fuel (params ++ vs) ⟨none, ⟨rest, flt⟩⟩
  | [], _, fuel, _, n, hn, params, rest, flt => by
    subst hn
    simp [paramsTokens]
  | a :: vs, hv, fuel, hf, n, hn, params, rest, flt => by
    subst hn
    simp only [validValues, Bool.and_eq_true] at hv
    simp only [paramsTokens, List.length_cons, List.length_append] at hf
    have h1 := unmarshalValue_tokens a hv.1 (fuel + vs.length) (by omega)
      (endTag "param" :: (paramsTokens vs ++ rest)) flt
    have h2 := unmarshalParamsLoop_params vs hv.2 fuel (by omega) (fuel + vs.length) rfl
      (params ++ [a]) rest flt
    have e : fuel + (a :: vs).length = (fuel + vs.length) + 1 := by
      simp only [List.length_cons]; omega
    rw [e, unmarshalParamsLoop]
    simp only [paramsTokens, List.cons_append, List.append_assoc,
      startElement_start _ _ _ _ (Or.inr rfl)]
    simp [h1, Outcome.bind, mustEndElement_end, h2]

/-! ### Maps built by repeated assignment -/

theorem mapSet_keys (m : List (String × GoValue)) (k : String) (v : GoValue) :
    (mapSet m k v).map Prod.fst = if k ∈ m.map Prod.fst then m.map Prod.fst
      else m.map Prod.fst ++ [k] := by
  induction m with
  | nil => simp [mapSet]
  | cons e m ih =>
    obtain ⟨k1, v1⟩ := e
    by_cases h : k1 = k
    · simp [mapSet, h]
    · have h2 : ¬ k = k1 := fun hc => h hc.symm
      simp only [mapSet, if_neg h, List.map_cons, ih, List.mem_cons, h2, false_or]
      split <;> simp

theorem mapSet_nodup (m : List (String × GoValue)) (k : String) (v : GoValue)
    (h : (m.map Prod.fst).Nodup) : ((mapSet m k v).map Prod.fst).Nodup := by
  rw [mapSet_keys]
  split
  · exact h
  · next hk =>
    refine List.Nodup.append h (List.nodup_singleton k) ?_
    intro a ha hk2
    simp only [List.mem_singleton] at hk2
    subst hk2
    exact hk ha

theorem mapGet_mapSet (m : List (String × GoValue)) (k : String) (v : GoValue) (k2 : String) :
    mapGet (mapSet m k v) k2 = if k = k2 then (v, true) else mapGet m k2 := by
  induction m with
  | nil => simp [mapSet, mapGet]
  | cons e m ih =>
    obtain ⟨k1, v1⟩ := e
    by_cases h : k1 = k
    · subst h
      simp only [mapSet, if_true, mapGet]
      split <;> rfl
    · simp only [mapSet, if_neg h, mapGet, ih]
      by_cases h2 : k1 = k2
      · have h3 : ¬ k = k2 := fun hc => h (h2.trans hc.symm)
        simp [h2, h3]
      · simp [h2]

theorem foldl_mapSet_nodup : ∀ (ms m0 : List (String × GoValue)), (m0.map Prod.fst).Nodup →
    ((ms.foldl (fun m e => mapSet m e.1 e.2) m0).map Prod.fst).Nodup
  | [], m0, h => h
  | e :: ms, m0, h => by
    simp only [List.foldl_cons]
    exact foldl_mapSet_nodup ms _ (mapSet_nodup m0 e.1 e.2 h)

theorem mapGet_foldl_mapSet : ∀ (ms m0 : List (String × GoValue)) (k : String),
    mapGet (ms.foldl (fun m e => mapSet m e.1 e.2) m0) k =
      match lastValue ms k with
      | some v => (v, true)
      | none => mapGet m0 k
  | [], m0, k => rfl
  | (n, v) :: ms, m0, k => by
    simp only [List.foldl_cons, lastValue]
    rw [mapGet_foldl_mapSet ms (mapSet m0 n v) k, mapGet_mapSet]
    cases lastValue ms k with
    | some w => rfl
    | none =>
      by_cases h : n = k
      · simp [h]
      · simp [h]

/-! ### A struct in a response -/

theorem unmarshalValue_struct (ms : List (String × GoValue))
    (hv : ∀ e ∈ ms, validValue e.2 = true) (rest : List Token) (flt : Option GoError) :
    unmarshalValue ((memberTokens ms).length + 1 + ms.length + 1)
        ⟨none, ⟨startTag "value" :: startTag "struct" ::
          (memberTokens ms ++ endTag "struct" :: endTag "value" :: rest), flt⟩⟩ =
      .ret ((.map (ms.foldl (fun m e => mapSet m e.1 e.2) []), none), ⟨none, ⟨rest, flt⟩⟩) := by
  rw [unmarshalValue]
  simp only [startElement_start _ _ _ _ (Or.inr rfl), startElement_start _ any _ _ (Or.inl rfl)]
  rw [unmarshalStructLoop_members ms hv ((memberTokens ms).length + 1) (by omega) _ rfl,
    unmarshalStructLoop_end]
  simp [Outcome.bind, mustEndElement_last, unmarshalValueEnd, mustEndElement_end]

theorem unmarshalFrom_structResponse (ms : List (String × GoValue))
    (hv : ∀ e ∈ ms, validValue e.2 = true) :
    unmarshalFrom ((memberTokens ms).length + 1 + ms.length + 1 + 1)
        ⟨none, ⟨structResponse ms, none⟩⟩ =
      .ret (([.map (ms.foldl (fun m e => mapSet m e.1 e.2) [])], none), ⟨none, ⟨[], none⟩⟩) := by
  have h1 := unmarshalValue_struct ms hv
    [endTag "param", endTag "params", endTag "methodResponse"] none
  simp only [structResponse, List.cons_append, List.nil_append, List.append_assoc, unmarshalFrom,
    startElement_start _ _ _ _ (Or.inr rfl), startElement_start _ any _ _ (Or.inl rfl),
    unmarshalParams]
  rw [unmarshalParamsLoop]
  simp only [startElement_start _ _ _ _ (Or.inr rfl)]
  simp [h1, Outcome.bind, mustEndElement_end, unmarshalParamsLoop, startElement_end,
    mustEndElement_last]

/-! ### What a returning call has consumed -/

theorem unmarshalValue_ret_size (fuel : Nat) (st : DecState)
    (r : (GoValue × Option GoError) × DecState) (h : unmarshalValue fuel st = .ret r) :
    r.2.size ≤ st.size ∧ (r.1.1 ≠ .nil → r.2.size + 2 ≤ st.size) := by
  have h1 := unmarshalValue_fuel_le st fuel (by rw [h]; intro hc; cases hc) (2 * st.size + 1)
  have h2 := (decoder_terminates (fuel + (2 * st.size + 1))).1 st (by omega)
  rw [h1, h] at h2
  exact h2

theorem unmarshalFrom_fuel_ge (st : DecState) (fuel : Nat) (h : 2 * st.size + 4 ≤ fuel) :
    unmarshalFrom fuel st = unmarshalFrom (2 * st.size + 4) st := by
  obtain ⟨k, hk⟩ := Nat.exists_eq_add_of_le h
  rw [hk]
  exact unmarshalFrom_fuel_le st _
    (within_ne_outOfFuel _ _ (unmarshalFrom_terminates (2 * st.size + 4) st (Nat.le_refl _))) k

theorem paramLoop_progress (st : DecState) (fuel : Nat)
    (r : (GoValue × Option GoError) × DecState)
    (hs : (startElement st "param").1.1.isSome = true)
    (hv : unmarshalValue fuel (startElement st "param").2 = .ret r) :
    (mustEndElement r.2 "param").2.size < st.size := by
  have h1 := (startElement_size st "param").2 hs
  have h2 := (unmarshalValue_ret_size fuel _ r hv).1
  have h3 := mustEndElement_size r.2 "param"
  omega

theorem structLoop_progress (st : DecState) (fuel : Nat)
    (r : (GoValue × Option GoError) × DecState)
    (hs : (startElement st "member").1.1.isSome = true)
    (hv : unmarshalValue fuel
      ⟨none, (DecodeElement (startElement (startElement st "member").2 "name").2.d
        (startElement (startElement st "member").2 "name").1.1.isSome).2⟩ = .ret r) :
    (mustEndElement r.2 "member").2.size < st.size := by
  have h1 := (startElement_size st "member").2 hs
  have h2 := (startElement_size (startElement st "member").2 "name").1
  have h3 := DecodeElement_length (startElement (startElement st "member").2 "name").2.d
    (startElement (startElement st "member").2 "name").1.1.isSome
  have h4 := (startElement (startElement st "member").2 "name").2.toks_le_size
  have h5 := (unmarshalValue_ret_size fuel _ r hv).1
  rw [DecState.size_none] at h5
  have h6 := mustEndElement_size r.2 "member"
  omega

/-! ### A scalar inside an array or a struct -/

theorem decodeValue_ok_ne_nil (tag s : String)
    (htag : tag = "string" ∨ tag = "base64" ∨ tag = "int" ∨ tag = "i4" ∨ tag = "i8" ∨
      tag = "boolean") (h : (decodeValue s tag).2 = none) : (decodeValue s tag).1 ≠ .nil := by
  rcases htag with h1 | h1 | h1 | h1 | h1 | h1 <;> subst h1
  · simp [decodeValue]
  · simp [decodeValue]
  · rcases hp : ParseInt s 32 with ⟨n, _ | e⟩ <;> simp [decodeValue, hp] at h ⊢
  · rcases hp : ParseInt s 32 with ⟨n, _ | e⟩ <;> simp [decodeValue, hp] at h ⊢
  · simp [decodeValue]
  · simp [decodeValue]

theorem unmarshalValue_scalar_any (tag s : String) (rest : List Token) (flt : Option GoError)
    (fuel : Nat)
    (htag : tag = "string" ∨ tag = "base64" ∨ tag = "int" ∨ tag = "i4" ∨ tag = "i8" ∨
      tag = "boolean") :
    unmarshalValue (fuel + 1)
        ⟨none, ⟨startTag "value" :: startTag tag :: (textTokens s ++ endTag tag ::
          endTag "value" :: rest), flt⟩⟩ =
      match (decodeValue s tag).2 with
      | none => .ret (((decodeValue s tag).1, none), ⟨none, ⟨rest, flt⟩⟩)
      | some err => .ret (((decodeValue s tag).1, some err), ⟨none, ⟨endTag "value" :: rest, flt⟩⟩) := by
  rw [unmarshalValue]
  simp only [startElement_start _ _ _ _ (Or.inr rfl), startElement_start _ any _ _ (Or.inl rfl)]
  cases hd : (decodeValue s tag).2 with
  | none => simp [htag, unmarshalScalar, DecodeElement_text, hd, unmarshalValueEnd, mustEndElement_end]
  | some err => simp [htag, unmarshalScalar, DecodeElement_text, hd, unmarshalValueEnd]

theorem unmarshalValue_at_end (n : String) (rest : List Token) (flt : Option GoError)
    (fuel : Nat) :
    unmarshalValue (fuel + 1) ⟨none, ⟨endTag n :: rest, flt⟩⟩ =
      .ret ((.nil, none), ⟨some (endTag n), ⟨rest, flt⟩⟩) := by
  rw [unmarshalValue]
  simp [startElement_end]

theorem mustEndElement_mismatch (n name : String) (ts : List Token) (flt : Option GoError)
    (h : n ≠ name) (hname : name ≠ any) :
    mustEndElement ⟨none, ⟨endTag n :: ts, flt⟩⟩ name =
      ((none, some (.errorsNew ("missing end element: " ++ name))),
        ⟨some (endTag n), ⟨ts, flt⟩⟩) ∧
    mustEndElement ⟨some (endTag n), ⟨ts, flt⟩⟩ name =
      ((none, some (.errorsNew ("missing end element: " ++ name))),
        ⟨some (endTag n), ⟨ts, flt⟩⟩) := by
  constructor <;> simp [mustEndElement, endElement, endElementLoop, endTag, h, hname]

/-- The response whose only param is an array with one scalar element: the
array when `decodeValue` returns no error; otherwise no value and the error
"missing end element: array" in place of the error of `decodeValue`. -/
theorem unmarshalTokens_arrayResponse (tag s : String)
    (htag : tag = "string" ∨ tag = "base64" ∨ tag = "int" ∨ tag = "i4" ∨ tag = "i8" ∨
      tag = "boolean") :
    unmarshalTokens ⟨none⟩ ⟨arrayResponse tag s, none⟩ =
      match (decodeValue s tag).2 with
      | none => .ret (([.slice [(decodeValue s tag).1]], none), ⟨none⟩)
      | some _ =>
        .ret (([], some (.errorsNew "missing end element: array")), ⟨some (endTag "value")⟩) := by
  have hv := unmarshalValue_scalar_any tag s
  have hm1 := fun ts => (mustEndElement_mismatch "value" "data" ts none (by decide) (by decide))
  have hm2 := fun ts => (mustEndElement_mismatch "value" "array" ts none (by decide) (by decide))
  cases hd : (decodeValue s tag).2 with
  | none =>
    have hne := decodeValue_ok_ne_nil tag s htag hd
    refine unmarshalTokens_any_fuel ⟨none⟩ _ 6
      (([.slice [(decodeValue s tag).1]], none), ⟨none, ⟨[], none⟩⟩) ?_
    simp only [arrayResponse, List.cons_append, List.nil_append, unmarshalFrom,
      startElement_start _ _ _ _ (Or.inr rfl), startElement_start _ any _ _ (Or.inl rfl),
      unmarshalParams]
    rw [unmarshalParamsLoop]
    simp only [startElement_start _ _ _ _ (Or.inr rfl)]
    rw [unmarshalValue]
    simp only [startElement_start _ _ _ _ (Or.inr rfl), startElement_start _ any _ _ (Or.inl rfl)]
    rw [unmarshalArray]
    simp only [startElement_start _ _ _ _ (Or.inr rfl)]
    rw [unmarshalArrayLoop, hv _ _ _ htag, hd]
    simp only [Outcome.bind]
    cases hval : (decodeValue s tag).1 with
    | nil => exact absurd hval hne
    | _ =>
      simp [unmarshalArrayLoop, unmarshalValue_at_end, Outcome.bind, mustEndElement_last,
        unmarshalValueEnd, mustEndElement_end, unmarshalParamsLoop, startElement_end]
  | some err =>
    refine unmarshalTokens_any_fuel ⟨none⟩ _ 6
      (([], some (.errorsNew "missing end element: array")), ⟨some (endTag "value"),
        ⟨[endTag "data", endTag "array", endTag "value", endTag "param", endTag "params",
          endTag "methodResponse"], none⟩⟩) ?_
    simp only [arrayResponse, List.cons_append, List.nil_append, unmarshalFrom,
      startElement_start _ _ _ _ (Or.inr rfl), startElement_start _ any _ _ (Or.inl rfl),
      unmarshalParams]
    rw [unmarshalParamsLoop]
    simp only [startElement_start _ _ _ _ (Or.inr rfl)]
    rw [unmarshalValue]
    simp only [startElement_start _ _ _ _ (Or.inr rfl), startElement_start _ any _ _ (Or.inl rfl)]
    rw [unmarshalArray]
    simp only [startElement_start _ _ _ _ (Or.inr rfl)]
    rw [unmarshalArrayLoop, hv _ _ _ htag, hd]
    simp only [Outcome.bind]
    cases hval : (decodeValue s tag).1 with
    | _ =>
      simp [unmarshalArrayLoop, unmarshalValue_at_end, Outcome.bind, hm1, hm2,
        unmarshalValueEnd]

/-- The response whose only param is a struct with one member holding a
scalar: the map when `decodeValue` returns no error; otherwise no value and
the error "missing end element: struct" in place of the error of
`decodeValue`. -/
theorem unmarshalTokens_memberResponse (k tag s : String)
    (htag : tag = "string" ∨ tag = "base64" ∨ tag = "int" ∨ tag = "i4" ∨ tag = "i8" ∨
      tag = "boolean") :
    unmarshalTokens ⟨none⟩ ⟨memberResponse k tag s, none⟩ =
      match (decodeValue s tag).2 with
      | none => .ret (([.map [(k, (decodeValue s tag).1)]], none), ⟨none⟩)
      | some _ =>
        .ret (([], some (.errorsNew "missing end element: struct")), ⟨some (endTag "value")⟩) := by
  have hv := unmarshalValue_scalar_any tag s
  have hm1 := fun ts => (mustEndElement_mismatch "value" "struct" ts none (by decide) (by decide))
  have hde := fun ts => DecodeElement_text k "name" ts none
  cases hd : (decodeValue s tag).2 with
  | none =>
    refine unmarshalTokens_any_fuel ⟨none⟩ _ 6
      (([.map [(k, (decodeValue s tag).1)]], none), ⟨none, ⟨[], none⟩⟩) ?_
    simp only [memberResponse, List.cons_append, List.nil_append, List.append_assoc, unmarshalFrom,
      startElement_start _ _ _ _ (Or.inr rfl), startElement_start _ any _ _ (Or.inl rfl),
      unmarshalParams]
    rw [unmarshalParamsLoop]
    simp only [startElement_start _ _ _ _ (Or.inr rfl)]
    rw [unmarshalValue]
    simp only [startElement_start _ _ _ _ (Or.inr rfl), startElement_start _ any _ _ (Or.inl rfl)]
    rw [unmarshalStructLoop]
    simp only [startElement_start _ _ _ _ (Or.inr rfl)]
    simp [hde, hv _ _ _ htag, hd, Outcome.bind, mustEndElement_end, unmarshalStructLoop_end,
      mapSet, mustEndElement_last, unmarshalValueEnd, unmarshalParamsLoop, startElement_end]
  | some err =>
    refine unmarshalTokens_any_fuel ⟨none⟩ _ 6
      (([], some (.errorsNew "missing end element: struct")), ⟨some (endTag "value"),
        ⟨[endTag "member", endTag "struct", endTag "value", endTag "param", endTag "params",
          endTag "methodResponse"], none⟩⟩) ?_
    simp only [memberResponse, List.cons_append, List.nil_append, List.append_assoc, unmarshalFrom,
      startElement_start _ _ _ _ (Or.inr rfl), startElement_start _ any _ _ (Or.inl rfl),
      unmarshalParams]
    rw [unmarshalParamsLoop]
    simp only [startElement_start _ _ _ _ (Or.inr rfl)]
    rw [unmarshalValue]
    simp only [startElement_start _ _ _ _ (Or.inr rfl), startElement_start _ any _ _ (Or.inl rfl)]
    rw [unmarshalStructLoop]
    simp only [startElement_start _ _ _ _ (Or.inr rfl)]
    simp [hde, hv _ _ _ htag, hd, Outcome.bind, hm1, unmarshalValueEnd]

/-! ### The tokenizer on a text that ends inside an open element -/

theorem readText_escapeChars_end (s : List Char) :
    ∀ (b0 b1 : Char) (acc : List Char), b1 ≠ '\r' →
      readText none b0 b1 acc (escapeChars s) = some (acc ++ s.map sanitize, []) := by
  induction s with
  | nil => intro b0 b1 acc _; simp [escapeChars, readText]
  | cons c s ih =>
    intro b0 b1 acc hb
    obtain ⟨b0', b1', hb', h⟩ := readText_escapeChar c b0 b1 acc (escapeChars s) hb
    simp only [escapeChars]
    rw [h, ih _ _ _ hb']
    simp

theorem tokenize_escaped_end (s : String) (hs : s.data ≠ []) (fuel : Nat)
    (stk : List (List Char)) :
    tokenize (fuel + 1) stk (EscapeText s).data =
      (tokenize fuel stk []).push (.CharData ⟨s.data.map sanitize⟩) := by
  have hr := readText_escapeChars_end s.data (Char.ofNat 0) (Char.ofNat 0) [] (by decide)
  simp only [List.nil_append] at hr
  cases hsd : s.data with
  | nil => exact absurd hsd hs
  | cons c cs =>
    obtain ⟨x, tl, he, hx⟩ := escapeChar_head c
    rw [hsd] at hr
    simp only [EscapeText, hsd, escapeChars, he, List.cons_append] at hr ⊢
    refine tokenize_text x _ _ _ fuel stk hx hr ?_
    simp [sanitize_valid]

theorem tokensText_tag (ts : List Token) (h : ts.head?.map Token.isTag ≠ some false) :
    ts = [] ∨ ∃ t, tokensText ts = '<' :: t := by
  cases ts with
  | nil => exact Or.inl rfl
  | cons x xs =>
    right
    cases x with
    | StartElement n => exact ⟨_, rfl⟩
    | EndElement n => exact ⟨_, rfl⟩
    | _ => simp [Token.isTag] at h

/-- The tokenizer returns the tokens whose text it reads, whatever the open
elements at the end of the text. -/
theorem tokenize_tokensText : ∀ (ts : List Token) (stk stk1 : List (List Char)),
    openAfter stk ts = some stk1 → ∀ fuel : Nat,
    tokenize (ts.length + fuel) stk (tokensText ts) = (tokenize fuel stk1 []).pushAll ts
  | [], stk, stk1, h, fuel => by
    simp only [openAfter, Option.some.injEq] at h
    subst h
    simp only [tokensText, List.length_nil, Nat.zero_add, pushAll_nil]
  | .StartElement n :: ts, stk, stk1, h, fuel => by
    simp only [openAfter] at h
    split at h
    · next hc =>
      have ih := tokenize_tokensText ts _ stk1 h fuel
      have e : (Token.StartElement n :: ts).length + fuel = (ts.length + fuel) + 1 := by
        simp only [List.length_cons]; omega
      obtain ⟨sp, lo⟩ := n
      simp only at hc
      obtain ⟨rfl, hg⟩ := hc
      rw [e]
      simp only [tokensText, tokenText, List.cons_append, List.append_assoc, List.singleton_append]
      rw [tokenize_start lo hg]
      simp only [List.nil_append]
      simp only at ih
      rw [ih]
      simp [Decoder.push, Decoder.pushAll, startTag]
    · exact absurd h (by simp)
  | .EndElement n :: ts, stk, stk1, h, fuel => by
    simp only [openAfter] at h
    split at h
    · next hc =>
      have ih := tokenize_tokensText ts _ stk1 h fuel
      have e : (Token.EndElement n :: ts).length + fuel = (ts.length + fuel) + 1 := by
        simp only [List.length_cons]; omega
      obtain ⟨sp, lo⟩ := n
      simp only at hc
      obtain ⟨rfl, hg, hh⟩ := hc
      cases stk with
      | nil => simp at hh
      | cons top stk2 =>
        simp only [List.head?_cons, Option.some.injEq] at hh
        subst hh
        rw [e]
        simp only [tokensText, tokenText, List.cons_append, List.append_assoc,
          List.singleton_append]
        rw [tokenize_end lo hg]
        simp only [List.tail_cons] at ih
        simp only [List.nil_append]
        rw [ih]
        simp [Decoder.push, Decoder.pushAll, endTag]
    · exact absurd h (by simp)
  | .CharData s :: ts, stk, stk1, h, fuel => by
    simp only [openAfter] at h
    split at h
    · next hc =>
      have ih := tokenize_tokensText ts _ stk1 h fuel
      have e : (Token.CharData s :: ts).length + fuel = (ts.length + fuel) + 1 := by
        simp only [List.length_cons]; omega
      obtain ⟨hne, hval, htag⟩ := hc
      rw [e]
      simp only [tokensText, tokenText]
      rcases tokensText_tag ts htag with rfl | ⟨t, ht⟩
      · simp only [tokensText, List.append_nil, List.length_nil, Nat.zero_add] at ih ⊢
        rw [tokenize_escaped_end s hne, sanitize_of_valid _ hval, ih]
        simp [Decoder.push, Decoder.pushAll]
      · rw [ht, tokenize_escaped s hne, sanitize_of_valid _ hval, ← ht, ih]
        simp [Decoder.push, Decoder.pushAll]
    · exact absurd h (by simp)
  | .Comment _ :: _, _, _, h, _ => by simp [openAfter] at h
  | .ProcInst _ _ :: _, _, _, h, _ => by simp [openAfter] at h
  | .Directive _ :: _, _, _, h, _ => by simp [openAfter] at h

/-- An initial segment of readable tokens is readable. -/
theorem openAfter_initSeg : ∀ (p s : List Token) (stk stk1 : List (List Char)),
    openAfter stk (p ++ s) = some stk1 → ∃ stk2, openAfter stk p = some stk2
  | [], _, stk, _, _ => ⟨stk, rfl⟩
  | .StartElement n :: p, s, stk, stk1, h => by
    simp only [List.cons_append, openAfter] at h ⊢
    split at h
    · next hc => rw [if_pos hc]; exact openAfter_initSeg p s _ stk1 h
    · exact absurd h (by simp)
  | .EndElement n :: p, s, stk, stk1, h => by
    simp only [List.cons_append, openAfter] at h ⊢
    split at h
    · next hc => rw [if_pos hc]; exact openAfter_initSeg p s _ stk1 h
    · exact absurd h (by simp)
  | .CharData c :: p, s, stk, stk1, h => by
    simp only [List.cons_append, openAfter] at h ⊢
    split at h
    · next hc =>
      have hc2 : c.data ≠ [] ∧ c.data.all isInCharacterRange = true ∧
          p.head?.map Token.isTag ≠ some false := by
        refine ⟨hc.1, hc.2.1, ?_⟩
        cases p with
        | nil => simp
        | cons x xs => simpa using hc.2.2
      rw [if_pos hc2]; exact openAfter_initSeg p s _ stk1 h
    · exact absurd h (by simp)
  | .Comment _ :: _, _, _, _, h => by simp [openAfter] at h
  | .ProcInst _ _ :: _, _, _, _, h => by simp [openAfter] at h
  | .Directive _ :: _, _, _, _, h => by simp [openAfter] at h

/-- The outermost element stays open as long as no end tag has its name. -/
theorem openAfter_root (b : String) : ∀ (q : List Token) (stk stk1 : List (List Char)),
    (∀ t ∈ q, t ≠ endTag b) → openAfter (stk ++ [b.data]) q = some stk1 → stk1 ≠ []
  | [], stk, stk1, _, h => by
    simp only [openAfter, Option.some.injEq] at h
    subst h
    simp
  | .StartElement n :: q, stk, stk1, hq, h => by
    simp only [openAfter] at h
    split at h
    · exact openAfter_root b q (n.Local.data :: stk) stk1
        (fun t ht => hq t (List.mem_cons_of_mem _ ht)) (by simpa using h)
    · exact absurd h (by simp)
  | .EndElement n :: q, stk, stk1, hq, h => by
    simp only [openAfter] at h
    split at h
    · next hc =>
      obtain ⟨sp, lo⟩ := n
      simp only at hc
      obtain ⟨rfl, _, hh⟩ := hc
      cases stk with
      | nil =>
        simp only [List.nil_append, List.head?_cons, Option.some.injEq] at hh
        have : b = lo := String.ext hh
        subst this
        exact absurd rfl (hq _ (List.mem_cons_self _ _))
      | cons top stk2 =>
        exact openAfter_root b q stk2 stk1
          (fun t ht => hq t (List.mem_cons_of_mem _ ht)) (by simpa using h)
    · exact absurd h (by simp)
  | .CharData c :: q, stk, stk1, hq, h => by
    simp only [openAfter] at h
    split at h
    · exact openAfter_root b q stk stk1
        (fun t ht => hq t (List.mem_cons_of_mem _ ht)) h
    · exact absurd h (by simp)
  | .Comment _ :: _, _, _, _, h => by simp [openAfter] at h
  | .ProcInst _ _ :: _, _, _, _, h => by simp [openAfter] at h
  | .Directive _ :: _, _, _, _, h => by simp [openAfter] at h

/-- The text of readable tokens has at least one character for each. -/
theorem tokensText_length : ∀ (ts : List Token) (stk stk1 : List (List Char)),
    openAfter stk ts = some stk1 → ts.length ≤ (tokensText ts).length
  | [], _, _, _ => by simp
  | .StartElement n :: ts, stk, stk1, h => by
    simp only [openAfter] at h
    split at h
    · have := tokensText_length ts _ stk1 h
      simp only [tokensText, tokenText, List.length_cons, List.length_append]
      omega
    · exact absurd h (by simp)
  | .EndElement n :: ts, stk, stk1, h => by
    simp only [openAfter] at h
    split at h
    · have := tokensText_length ts _ stk1 h
      simp only [tokensText, tokenText, List.length_cons, List.length_append]
      omega
    · exact absurd h (by simp)
  | .CharData c :: ts, stk, stk1, h => by
    simp only [openAfter] at h
    split at h
    · next hc =>
      have := tokensText_length ts _ stk1 h
      have h1 : 1 ≤ (EscapeText c).data.length := by
        cases hd : c.data with
        | nil => exact absurd hd hc.1
        | cons x xs =>
          obtain ⟨y, tl, he, _⟩ := escapeChar_head x
          simp [EscapeText, hd, escapeChars, he]
      simp only [tokensText, tokenText, List.length_cons, List.length_append]
      omega
    · exact absurd h (by simp)
  | .Comment _ :: _, _, _, h => by simp [openAfter] at h
  | .ProcInst _ _ :: _, _, _, h => by simp [openAfter] at h
  | .Directive _ :: _, _, _, h => by simp [openAfter] at h

theorem plainChar_valid (s : List Char) (h : s.all plainChar = true) :
    s.all isInCharacterRange = true := by
  rw [List.all_eq_true] at h ⊢
  intro y hy
  have := h y hy
  simp only [plainChar, Bool.and_eq_true] at this
  exact this.2

theorem openAfter_text (s : String) (hs : s.data.all isInCharacterRange = true) (n : String)
    (rest : List Token) (stk : List (List Char)) :
    openAfter stk (textTokens s ++ endTag n :: rest) = openAfter stk (endTag n :: rest) := by
  unfold textTokens
  split
  · rfl
  · next h => simp [openAfter, h, hs, endTag, Token.isTag]

mutual
theorem openAfter_type : ∀ (v : GoValue), validValue v = true →
    ∀ (stk : List (List Char)) (rest : List Token),
      openAfter stk (typeTokens v ++ rest) = openAfter stk rest
  | .bytes b, _, stk, rest => by
    have := openAfter_text (EncodeToString b) (plainChar_valid _ (base64Encode_plain b))
      "base64" rest ("base64".data :: stk)
    simp only [typeTokens, List.cons_append, List.append_assoc, List.singleton_append,
      List.nil_append]
    rw [startTag, openAfter, if_pos ⟨rfl, by decide⟩, this]
    simp [openAfter, endTag, goodTag, nameOk, isNameByte]
  | .str s, hv, stk, rest => by
    simp only [validValue] at hv
    have := openAfter_text s hv "string" rest ("string".data :: stk)
    simp only [typeTokens, List.cons_append, List.append_assoc, List.singleton_append,
      List.nil_append]
    rw [startTag, openAfter, if_pos ⟨rfl, by decide⟩, this]
    simp [openAfter, endTag, goodTag, nameOk, isNameByte]
  | .bool b, _, stk, rest => by
    have := openAfter_text (formatInt (asInt b)) (plainChar_valid _ (formatInt_plain _))
      "boolean" rest ("boolean".data :: stk)
    rw [textTokens_formatInt] at this
    simp only [typeTokens, List.cons_append, List.nil_append] at this ⊢
    rw [startTag, openAfter, if_pos ⟨rfl, by decide⟩, this]
    simp [openAfter, endTag, goodTag, nameOk, isNameByte]
  | .int n, _, stk, rest => by
    have := openAfter_text (formatInt n) (plainChar_valid _ (formatInt_plain _))
      "i4" rest ("i4".data :: stk)
    rw [textTokens_formatInt] at this
    simp only [typeTokens, List.cons_append, List.nil_append] at this ⊢
    rw [startTag, openAfter, if_pos ⟨rfl, by decide⟩, this]
    simp [openAfter, endTag, goodTag, nameOk, isNameByte]
  | .int64 n, _, stk, rest => by
    have := openAfter_text (formatInt n) (plainChar_valid _ (formatInt_plain _))
      "i8" rest ("i8".data :: stk)
    rw [textTokens_formatInt] at this
    simp only [typeTokens, List.cons_append, List.nil_append] at this ⊢
    rw [startTag, openAfter, if_pos ⟨rfl, by decide⟩, this]
    simp [openAfter, endTag, goodTag, nameOk, isNameByte]
  | .slice xs, hv, stk, rest => by
    simp only [validValue] at hv
    have := openAfter_elems xs hv ("data".data :: "array".data :: stk)
      (endTag "data" :: endTag "array" :: rest)
    simp only [typeTokens, List.cons_append, List.append_assoc, List.singleton_append,
      List.nil_append]
    rw [startTag, openAfter, if_pos ⟨rfl, by decide⟩, startTag, openAfter,
      if_pos ⟨rfl, by decide⟩, this]
    simp [openAfter, endTag, goodTag, nameOk, isNameByte]
  | .map m, hv, stk, rest => by
    simp only [validValue, Bool.and_eq_true] at hv
    have := openAfter_members m hv.2 ("struct".data :: stk) (endTag "struct" :: rest)
    simp only [typeTokens, List.cons_append, List.append_assoc, List.singleton_append,
      List.nil_append]
    rw [startTag, openAfter, if_pos ⟨rfl, by decide⟩, this]
    simp [openAfter, endTag, goodTag, nameOk, isNameByte]
  | .nil, hv, _, _ => by simp [validValue] at hv
  | .struct _, hv, _, _ => by simp [validValue] at hv
  | .ptr _, hv, _, _ => by simp [validValue] at hv
  | .other _, hv, _, _ => by simp [validValue] at hv
theorem openAfter_elems : ∀ (xs : List GoValue), validValues xs = true →
    ∀ (stk : List (List Char)) (rest : List Token),
      openAfter stk (elemTokens xs ++ rest) = openAfter stk rest
  | [], _, stk, rest => by simp [elemTokens]
  | x :: xs, hv, stk, rest => by
    simp only [validValues, Bool.and_eq_true] at hv
    have h1 := openAfter_type x hv.1 ("value".data :: stk)
      (endTag "value" :: (elemTokens xs ++ rest))
    have h2 := openAfter_elems xs hv.2 stk rest
    simp only [elemTokens, List.cons_append, List.append_assoc]
    rw [startTag, openAfter, if_pos ⟨rfl, by decide⟩, h1, endTag, openAfter,
      if_pos ⟨rfl, by decide, rfl⟩]
    exact h2
theorem openAfter_members : ∀ (m : List (String × GoValue)), validMembers m = true →
    ∀ (stk : List (List Char)) (rest : List Token),
      openAfter stk (memberTokens m ++ rest) = openAfter stk rest
  | [], _, stk, rest => by simp [memberTokens]
  | (k, v) :: m, hv, stk, rest => by
    simp only [validMembers, Bool.and_eq_true] at hv
    have h0 := openAfter_text k hv.1.1 "name"
      (startTag "value" :: (typeTokens v ++ endTag "value" :: endTag "member" ::
        (memberTokens m ++ rest))) ("name".data :: "member".data :: stk)
    have h1 := openAfter_type v hv.1.2 ("value".data :: "member".data :: stk)
      (endTag "value" :: endTag "member" :: (memberTokens m ++ rest))
    have h2 := openAfter_members m hv.2 stk rest
    simp only [memberTokens, List.cons_append, List.append_assoc]
    rw [startTag, openAfter, if_pos ⟨rfl, by decide⟩, startTag, openAfter,
      if_pos ⟨rfl, by decide⟩, h0, endTag, openAfter, if_pos ⟨rfl, by decide, rfl⟩,
      List.tail_cons, startTag, openAfter, if_pos ⟨rfl, by decide⟩, h1, endTag, openAfter,
      if_pos ⟨rfl, by decide, rfl⟩, List.tail_cons, endTag, openAfter,
      if_pos ⟨rfl, by decide, rfl⟩]
    exact h2
end

theorem openAfter_params : ∀ (vs : List GoValue), validValues vs = true →
    ∀ (stk : List (List Char)) (rest : List Token),
      openAfter stk (paramsTokens vs ++ rest) = openAfter stk rest
  | [], _, stk, rest => by simp [paramsTokens]
  | a :: vs, hv, stk, rest => by
    simp only [validValues, Bool.and_eq_true] at hv
    have h1 := openAfter_type a hv.1 ("value".data :: "param".data :: stk)
      (endTag "value" :: endTag "param" :: (paramsTokens vs ++ rest))
    have h2 := openAfter_params vs hv.2 stk rest
    simp only [paramsTokens, valueTokens, List.cons_append, List.append_assoc,
      List.nil_append]
    rw [startTag, openAfter, if_pos ⟨rfl, by decide⟩, startTag, openAfter,
      if_pos ⟨rfl, by decide⟩, h1, endTag, openAfter, if_pos ⟨rfl, by decide, rfl⟩,
      List.tail_cons, endTag, openAfter, if_pos ⟨rfl, by decide, rfl⟩]
    exact h2

theorem openAfter_responseTokens (args : List GoValue) (hv : validValues args = true) :
    openAfter [] (responseTokens args) = some [] := by
  have := openAfter_params args hv ["params".data, "methodResponse".data]
    [endTag "params", endTag "methodResponse"]
  unfold responseTokens
  rw [startTag, openAfter, if_pos ⟨rfl, by decide⟩, startTag, openAfter,
    if_pos ⟨rfl, by decide⟩, this]
  simp [openAfter, endTag, goodTag, nameOk, isNameByte]

theorem mem_textTokens (s : String) (t : Token) (h : t ∈ textTokens s) : t = .CharData s := by
  unfold textTokens at h
  split at h
  · simp at h
  · simpa using h

mutual
theorem typeTokens_no_root : ∀ (v : GoValue) (t : Token), t ∈ typeTokens v →
    t ≠ endTag "methodResponse"
  | .bytes b, t, ht => by
    simp only [typeTokens, List.cons_append, List.append_assoc, List.mem_cons,
      List.mem_append, List.mem_singleton, List.not_mem_nil, or_false, or_assoc] at ht
    rcases ht with rfl | ht | rfl
    · decide
    · rw [mem_textTokens _ _ ht]; simp [endTag]
    · decide
  | .str s, t, ht => by
    simp only [typeTokens, List.cons_append, List.append_assoc, List.mem_cons,
      List.mem_append, List.mem_singleton, List.not_mem_nil, or_false, or_assoc] at ht
    rcases ht with rfl | ht | rfl
    · decide
    · rw [mem_textTokens _ _ ht]; simp [endTag]
    · decide
  | .bool b, t, ht => by
    simp only [typeTokens, List.mem_cons, List.mem_singleton, List.not_mem_nil, or_false] at ht
    rcases ht with rfl | rfl | rfl
    · decide
    · simp [endTag]
    · decide
  | .int n, t, ht => by
    simp only [typeTokens, List.mem_cons, List.mem_singleton, List.not_mem_nil, or_false] at ht
    rcases ht with rfl | rfl | rfl
    · decide
    · simp [endTag]
    · decide
  | .int64 n, t, ht => by
    simp only [typeTokens, List.mem_cons, List.mem_singleton, List.not_mem_nil, or_false] at ht
    rcases ht with rfl | rfl | rfl
    · decide
    · simp [endTag]
    · decide
  | .slice xs, t, ht => by
    simp only [typeTokens, List.cons_append, List.append_assoc, List.mem_cons,
      List.mem_append, List.mem_singleton, List.not_mem_nil, or_false, or_assoc] at ht
    rcases ht with rfl | rfl | ht | rfl | rfl
    · decide
    · decide
    · exact elemTokens_no_root xs t ht
    · decide
    · decide
  | .map m, t, ht => by
    simp only [typeTokens, List.cons_append, List.append_assoc, List.mem_cons,
      List.mem_append, List.mem_singleton, List.not_mem_nil, or_false, or_assoc] at ht
    rcases ht with rfl | ht | rfl
    · decide
    · exact memberTokens_no_root m t ht
    · decide
  | .nil, t, ht => by simp [typeTokens] at ht
  | .struct _, t, ht => by simp [typeTokens] at ht
  | .ptr _, t, ht => by simp [typeTokens] at ht
  | .other _, t, ht => by simp [typeTokens] at ht
theorem elemTokens_no_root : ∀ (xs : List GoValue) (t : Token), t ∈ elemTokens xs →
    t ≠ endTag "methodResponse"
  | [], t, ht => by simp [elemTokens] at ht
  | x :: xs, t, ht => by
    simp only [elemTokens, List.cons_append, List.append_assoc, List.mem_cons,
      List.mem_append, or_assoc] at ht
    rcases ht with rfl | ht | rfl | ht
    · decide
    · exact typeTokens_no_root x t ht
    · decide
    · exact elemTokens_no_root xs t ht
theorem memberTokens_no_root : ∀ (m : List (String × GoValue)) (t : Token),
    t ∈ memberTokens m → t ≠ endTag "methodResponse"
  | [], t, ht => by simp [memberTokens] at ht
  | (k, v) :: m, t, ht => by
    simp only [memberTokens, List.cons_append, List.append_assoc, List.mem_cons,
      List.mem_append, or_assoc] at ht
    rcases ht with rfl | rfl | ht | rfl | rfl | ht | rfl | rfl | ht
    · decide
    · decide
    · rw [mem_textTokens _ _ ht]; simp [endTag]
    · decide
    · decide
    · exact typeTokens_no_root v t ht
    · decide
    · decide
    · exact memberTokens_no_root m t ht
end

theorem paramsTokens_no_root : ∀ (vs : List GoValue) (t : Token), t ∈ paramsTokens vs →
    t ≠ endTag "methodResponse"
  | [], t, ht => by simp [paramsTokens] at ht
  | a :: vs, t, ht => by
    simp only [paramsTokens, valueTokens, List.cons_append, List.append_assoc, List.mem_cons,
      List.mem_append, List.mem_singleton, List.not_mem_nil, or_false, or_assoc,
      List.nil_append] at ht
    rcases ht with rfl | rfl | ht | rfl | rfl | ht
    · decide
    · decide
    · exact typeTokens_no_root a t ht
    · decide
    · decide
    · exact paramsTokens_no_root vs t ht

/-- The decoder of a response document cut before one of its tokens, other
than the first: the tokens before the cut, then the syntax error for the
end of the input inside the open elements. -/
theorem NewDecoder_cut (args : List GoValue) (hv : validValues args = true)
    (p : List Token) (hp : p <+: responseTokens args) (h0 : p ≠ [])
    (hne : p ≠ responseTokens args) :
    NewDecoder ⟨tokensText p⟩ = ⟨p, some .xmlSyntax⟩ := by
  obtain ⟨s, hs⟩ := hp
  have hfull := openAfter_responseTokens args hv
  rw [← hs] at hfull
  obtain ⟨stk2, h2⟩ := openAfter_initSeg p s [] [] hfull
  have hs0 : s ≠ [] := by
    rintro rfl
    exact hne (by simpa using hs)
  have hstk : stk2 ≠ [] := by
    cases p with
    | nil => exact absurd rfl h0
    | cons x q =>
      obtain ⟨s1, l, rfl⟩ : ∃ s1 l, s = s1 ++ [l] :=
        ⟨s.dropLast, s.getLast hs0, (List.dropLast_append_getLast hs0).symm⟩
      have e : responseTokens args = (startTag "methodResponse" :: startTag "params" ::
          (paramsTokens args ++ [endTag "params"])) ++ [endTag "methodResponse"] := by
        simp [responseTokens]
      rw [e, ← List.append_assoc] at hs
      have h3 := (List.append_inj' hs rfl).1
      simp only [List.cons_append, List.cons.injEq] at h3
      obtain ⟨rfl, h4⟩ := h3
      have hq : ∀ t ∈ q, t ≠ endTag "methodResponse" := by
        intro t ht
        have ht2 : t ∈ startTag "params" :: (paramsTokens args ++ [endTag "params"]) := by
          rw [← h4]; exact List.mem_append_left _ ht
        simp only [List.mem_cons, List.mem_append, List.mem_singleton, List.not_mem_nil,
          or_false] at ht2
        rcases ht2 with rfl | ht2 | rfl
        · decide
        · exact paramsTokens_no_root args t ht2
        · decide
      rw [startTag, openAfter, if_pos ⟨rfl, by decide⟩] at h2
      exact openAfter_root "methodResponse" q [] stk2 hq (by simpa using h2)
  have hlen := tokensText_length p [] stk2 h2
  obtain ⟨k, hk⟩ := Nat.exists_eq_add_of_le hlen
  have ht := tokenize_tokensText p [] stk2 h2 k
  unfold NewDecoder
  have hl : (String.mk (tokensText p)).length = p.length + k := hk
  rw [hl]
  simp only
  rw [ht]
  cases k <;> simp [tokenize, hstk, Decoder.pushAll]

/-! ### The text of the tokens is the text that the encoder writes -/

theorem digitChar_kept (d : Nat) (h : d < 10) : keptChar (digitChar d) = true := by
  interval_cases d <;> decide

theorem decimalAux_kept (fuel : Nat) : ∀ (n : Nat) (acc : List Char),
    acc.all keptChar = true → (decimalAux fuel n acc).all keptChar = true := by
  induction fuel with
  | zero => intro n acc h; simpa [decimalAux] using h
  | succ fuel ih =>
    intro n acc h
    have hd := digitChar_kept (n % 10) (Nat.mod_lt _ (by decide))
    unfold decimalAux
    split
    · simp only [List.all_cons, hd, h, Bool.and_self]
    · exact ih _ _ (by simp only [List.all_cons, hd, h, Bool.and_self])

theorem formatInt_kept (n : Int) : (formatInt n).data.all keptChar = true := by
  cases n with
  | ofNat k => exact decimalAux_kept _ _ _ rfl
  | negSucc k =>
    simp only [formatInt, List.all_cons, Bool.and_eq_true]
    exact ⟨by decide, decimalAux_kept _ _ _ rfl⟩

theorem encodeSextet_kept (i : Nat) : keptChar (encodeSextet i) = true := by
  by_cases h : i < 64
  · interval_cases i <;> decide
  · have hlen : base64Alphabet.length = 64 := rfl
    have : encodeSextet i = 'A' := by
      unfold encodeSextet
      exact List.getD_eq_default _ _ (by omega)
    rw [this]; decide

theorem base64Encode_kept (b : List Byte) : (base64Encode b).all keptChar = true := by
  induction b using base64Encode.induct with
  | case1 => rfl
  | case2 a => simp [base64Encode, encodeSextet_kept]; decide
  | case3 a b => simp [base64Encode, encodeSextet_kept]; decide
  | case4 a b c rest ih => simp [base64Encode, encodeSextet_kept, ih]

theorem escapeChars_kept (s : List Char) (h : s.all keptChar = true) : escapeChars s = s := by
  induction s with
  | nil => rfl
  | cons c s ih =>
    simp only [List.all_cons, Bool.and_eq_true, keptChar, decide_eq_true_eq] at h
    have h2 : s.all keptChar = true := h.2
    simp [escapeChars, h.1, ih h2]

theorem tokensText_append (a b : List Token) :
    tokensText (a ++ b) = tokensText a ++ tokensText b := by
  induction a with
  | nil => rfl
  | cons t a ih => simp [tokensText, ih]

theorem tokensText_textTokens (s : String) : tokensText (textTokens s) = (EscapeText s).data := by
  unfold textTokens
  split
  · next h => simp [tokensText, EscapeText, h, escapeChars]
  · simp [tokensText, tokenText]

theorem tokensText_kept (s : String) (h : s.data.all keptChar = true) :
    tokensText (textTokens s) = s.data := by
  rw [tokensText_textTokens, EscapeText, escapeChars_kept _ h]

mutual
theorem tokensText_type : ∀ (v : GoValue), validValue v = true →
    tokensText (typeTokens v) = (marshalType "" v).1.data
  | .bytes b, _ => by
    have := tokensText_kept (EncodeToString b) (base64Encode_kept b)
    simp only [typeTokens, List.cons_append, tokensText, tokensText_append, this]
    simp [marshalType, tokenText, tokensText, tokensText_append, tokensText_textTokens,
      startTag, endTag, String.data_append, *]
  | .str s, _ => by
    simp only [typeTokens, List.cons_append, tokensText, tokensText_append,
      tokensText_textTokens]
    simp [marshalType, tokenText, tokensText, tokensText_append, tokensText_textTokens,
      startTag, endTag, String.data_append, *]
  | .bool b, _ => by
    have := tokensText_kept (formatInt (asInt b)) (formatInt_kept _)
    rw [textTokens_formatInt] at this
    simp only [tokensText, List.append_nil] at this
    simp only [typeTokens, tokensText, this]
    simp [marshalType, tokenText, tokensText, tokensText_append, tokensText_textTokens,
      startTag, endTag, String.data_append, *]
  | .int n, _ => by
    have := tokensText_kept (formatInt n) (formatInt_kept _)
    rw [textTokens_formatInt] at this
    simp only [tokensText, List.append_nil] at this
    simp only [typeTokens, tokensText, this]
    simp [marshalType, tokenText, tokensText, tokensText_append, tokensText_textTokens,
      startTag, endTag, String.data_append, *]
  | .int64 n, _ => by
    have := tokensText_kept (formatInt n) (formatInt_kept _)
    rw [textTokens_formatInt] at this
    simp only [tokensText, List.append_nil] at this
    simp only [typeTokens, tokensText, this]
    simp [marshalType, tokenText, tokensText, tokensText_append, tokensText_textTokens,
      startTag, endTag, String.data_append, *]
  | .slice xs, hv => by
    simp only [validValue] at hv
    have ih := tokensText_elems xs hv
    simp only [marshalType, marshalArrayBody, typeTokens]
    rw [marshalArrayLoop_buf xs ("" ++ "<array><data>")]
    simp only [List.cons_append, tokensText, tokensText_append, ih]
    simp [tokenText, tokensText, tokensText_append, tokensText_textTokens, startTag, endTag,
      String.data_append, *]
  | .map m, hv => by
    simp only [validValue, Bool.and_eq_true, decide_eq_true_eq] at hv
    have ih := tokensText_members m hv.2
    have he := (tokenize_members m hv.2).1
    have hb : marshalType "" (.map m) =
        ("" ++ "<struct>" ++ (marshalMapLoop "" m).1 ++ "</struct>", none) := by
      simp only [marshalType, marshalStructBody]
      rw [marshalMapLoop_buf m ("" ++ "<struct>"), he]
    rw [hb]
    simp only [typeTokens, List.cons_append, tokensText, tokensText_append, ih]
    simp [tokenText, tokensText, tokensText_append, tokensText_textTokens, startTag, endTag,
      String.data_append, *]
  | .nil, hv => by simp [validValue] at hv
  | .struct _, hv => by simp [validValue] at hv
  | .ptr _, hv => by simp [validValue] at hv
  | .other _, hv => by simp [validValue] at hv
theorem tokensText_elems : ∀ (xs : List GoValue), validValues xs = true →
    tokensText (elemTokens xs) = (marshalArrayLoop "" xs).1.data
  | [], _ => by simp [elemTokens, tokensText, marshalArrayLoop]
  | x :: xs, hv => by
    simp only [validValues, Bool.and_eq_true] at hv
    have h1 := tokensText_type x hv.1
    have h2 := tokensText_elems xs hv.2
    have hxe := (tokenize_type x hv.1).1
    have hse := (tokenize_elems xs hv.2).1
    have hb : marshalArrayLoop "" (x :: xs) =
        ("" ++ "<value>" ++ (marshalType "" x).1 ++ "</value>" ++ (marshalArrayLoop "" xs).1,
          none) := by
      simp only [marshalArrayLoop]
      rw [marshalValueBody_ok x "" hxe]
      simp only
      rw [marshalArrayLoop_buf xs _, hse]
    rw [hb]
    simp only [elemTokens, List.cons_append, tokensText, tokensText_append, h1, h2]
    simp [tokenText, tokensText, tokensText_append, tokensText_textTokens, startTag, endTag,
      String.data_append, *]
theorem tokensText_members : ∀ (m : List (String × GoValue)), validMembers m = true →
    tokensText (memberTokens m) = (marshalMapLoop "" m).1.data
  | [], _ => by simp [memberTokens, tokensText, marshalMapLoop]
  | (k, v) :: m, hv => by
    simp only [validMembers, Bool.and_eq_true] at hv
    have h1 := tokensText_type v hv.1.2
    have h2 := tokensText_members m hv.2
    have hxe := (tokenize_type v hv.1.2).1
    have hse := (tokenize_members m hv.2).1
    have hb : marshalMapLoop "" ((k, v) :: m) =
        ("" ++ "<member>" ++ "<name>" ++ EscapeText k ++ "</name>" ++ "<value>" ++
          (marshalType "" v).1 ++ "</value>" ++ "</member>" ++ (marshalMapLoop "" m).1,
          none) := by
      simp only [marshalMapLoop]
      rw [marshalValueBody_ok v _ hxe]
      simp only
      rw [marshalMapLoop_buf m _, hse]
    rw [hb]
    simp only [memberTokens, List.cons_append, tokensText, tokensText_append,
      tokensText_textTokens, h1, h2]
    simp [tokenText, tokensText, tokensText_append, tokensText_textTokens, startTag, endTag,
      String.data_append, *]
end

theorem tokensText_params : ∀ (vs : List GoValue), validValues vs = true →
    tokensText (paramsTokens vs) = (paramsText vs).data
  | [], _ => by simp [paramsTokens, tokensText, paramsText]
  | a :: vs, hv => by
    simp only [validValues, Bool.and_eq_true] at hv
    have h1 := tokensText_type a hv.1
    have h2 := tokensText_params vs hv.2
    have hm : marshalValue "" a = ("" ++ "<value>" ++ (marshalType "" a).1 ++ "</value>", none) :=
      marshalValueBody_ok a "" (tokenize_type a hv.1).1
    simp only [paramsText, hm, paramsTokens, valueTokens, List.cons_append, tokensText,
      tokensText_append, h1, h2]
    simp [tokenText, tokensText, tokensText_append, tokensText_textTokens, startTag, endTag,
      String.data_append, *]

/-- The text of the tokens of a response is the response document. -/
theorem tokensText_responseTokens (args : List GoValue) (hv : validValues args = true) :
    tokensText (responseTokens args) = (responseDocOf args).data := by
  have h := tokensText_params args hv
  simp only [responseTokens, responseDocOf, tokensText, tokensText_append, h]
  simp [tokenText, startTag, endTag, String.data_append]

/-! ### Decoding a stream that ends with the syntax error of the tokenizer -/

theorem initSeg_append {α : Type} (p a b : List α) (h : p <+: a ++ b) :
    p <+: a ∨ ∃ q, p = a ++ q ∧ q <+: b := by
  obtain ⟨s, hs⟩ := h
  rcases List.append_eq_append_iff.mp hs with ⟨a', ha, _⟩ | ⟨c', hc, hb⟩
  · exact Or.inl ⟨a', ha.symm⟩
  · exact Or.inr ⟨c', hc, ⟨s, hb.symm⟩⟩

theorem startElement_fault (name : String) :
    startElement ⟨none, ⟨[], some .xmlSyntax⟩⟩ name =
      ((none, some .xmlSyntax), ⟨none, ⟨[], some .xmlSyntax⟩⟩) := by
  simp [startElement, startElementLoop, Decoder.endError]

theorem mustEndElement_fault (name : String) :
    mustEndElement ⟨none, ⟨[], some .xmlSyntax⟩⟩ name =
      ((none, some .xmlSyntax), ⟨none, ⟨[], some .xmlSyntax⟩⟩) := by
  simp [mustEndElement, endElement, endElementLoop, Decoder.endError]

theorem DecodeElement_fault (s : String) (q : List Token) (hq : q <+: textTokens s)
    (b : Bool) :
    DecodeElement ⟨q, some .xmlSyntax⟩ b = (("", some .xmlSyntax), ⟨[], some .xmlSyntax⟩) := by
  unfold textTokens at hq
  split at hq
  · rw [List.prefix_nil] at hq
    subst hq
    cases b <;> simp [DecodeElement, decodeElementLoop, dropToStart, Decoder.endError]
  · rcases List.prefix_cons_iff.mp hq with h | ⟨t, h, ht⟩
    · subst h
      cases b <;> simp [DecodeElement, decodeElementLoop, dropToStart, Decoder.endError]
    · rw [List.prefix_nil] at ht
      subst ht
      subst h
      cases b <;> simp [DecodeElement, decodeElementLoop, dropToStart, Decoder.endError]

theorem unmarshalValue_fault (fuel : Nat) :
    unmarshalValue (fuel + 1) ⟨none, ⟨[], some .xmlSyntax⟩⟩ =
      .ret ((.nil, some .xmlSyntax), ⟨none, ⟨[], some .xmlSyntax⟩⟩) := by
  rw [unmarshalValue]
  simp [startElement_fault]

theorem unmarshalArrayLoop_fault (fuel : Nat) (arr : List GoValue) :
    unmarshalArrayLoop (fuel + 2) arr ⟨none, ⟨[], some .xmlSyntax⟩⟩ =
      .ret (arr, ⟨none, ⟨[], some .xmlSyntax⟩⟩) := by
  rw [unmarshalArrayLoop, unmarshalValue_fault]
  simp [Outcome.bind]

theorem unmarshalStructLoop_fault (fuel : Nat) (m : List (String × GoValue)) :
    unmarshalStructLoop (fuel + 1) m ⟨none, ⟨[], some .xmlSyntax⟩⟩ =
      .ret ((m, some .xmlSyntax), ⟨none, ⟨[], some .xmlSyntax⟩⟩) := by
  rw [unmarshalStructLoop]
  simp [startElement_fault]

theorem unmarshalParamsLoop_fault (fuel : Nat) (ps : List GoValue) :
    unmarshalParamsLoop (fuel + 1) ps ⟨none, ⟨[], some .xmlSyntax⟩⟩ =
      .ret ((ps, some .xmlSyntax), ⟨none, ⟨[], some .xmlSyntax⟩⟩) := by
  rw [unmarshalParamsLoop]
  simp [startElement_fault]

/-- A scalar value cut off at any token: `unmarshalValue` returns the syntax
error, or the value when nothing is missing. -/
theorem unmarshalValue_scalar_cut (tag txt : String) (v0 : GoValue)
    (htag : tag = "string" ∨ tag = "base64" ∨ tag = "int" ∨ tag = "i4" ∨ tag = "i8" ∨
      tag = "boolean")
    (hd : decodeValue txt tag = (v0, none)) (p : List Token)
    (hp : p <+: startTag "value" :: startTag tag :: (textTokens txt ++
      [endTag tag, endTag "value"])) (fuel : Nat) :
    ∃ x err, unmarshalValue (fuel + 1) ⟨none, ⟨p, some .xmlSyntax⟩⟩ =
        .ret ((x, err), ⟨none, ⟨[], some .xmlSyntax⟩⟩) ∧
      (err = some .xmlSyntax ∨
        (p = startTag "value" :: startTag tag :: (textTokens txt ++
          [endTag tag, endTag "value"]) ∧ err = none)) := by
  rcases List.prefix_cons_iff.mp hp with h | ⟨t, h, ht⟩
  · subst h
    exact ⟨_, _, unmarshalValue_fault fuel, Or.inl rfl⟩
  subst h
  rcases List.prefix_cons_iff.mp ht with h | ⟨t2, h, ht2⟩
  · subst h
    refine ⟨.nil, some .xmlSyntax, ?_, Or.inl rfl⟩
    rw [unmarshalValue]
    simp [startElement_start _ _ _ _ (Or.inr rfl), startElement_fault]
  subst h
  rcases initSeg_append _ _ _ ht2 with h | ⟨q, h, hq⟩
  · refine ⟨.nil, some .xmlSyntax, ?_, Or.inl rfl⟩
    rw [unmarshalValue]
    simp only [startElement_start _ _ _ _ (Or.inr rfl), startElement_start _ any _ _ (Or.inl rfl)]
    simp [htag, unmarshalScalar, DecodeElement_fault txt t2 h]
  subst h
  rcases List.prefix_cons_iff.mp hq with h | ⟨q2, h, hq2⟩
  · subst h
    refine ⟨.nil, some .xmlSyntax, ?_, Or.inl rfl⟩
    rw [unmarshalValue]
    simp only [startElement_start _ _ _ _ (Or.inr rfl), startElement_start _ any _ _ (Or.inl rfl)]
    simp [htag, unmarshalScalar, DecodeElement_fault txt _ (List.prefix_refl _)]
  subst h
  rcases List.prefix_cons_iff.mp hq2 with h | ⟨q3, h, hq3⟩
  · subst h
    refine ⟨v0, some .xmlSyntax, ?_, Or.inl rfl⟩
    rw [unmarshalValue]
    simp only [startElement_start _ _ _ _ (Or.inr rfl), startElement_start _ any _ _ (Or.inl rfl)]
    simp [htag, unmarshalScalar, DecodeElement_text, hd, unmarshalValueEnd, mustEndElement_fault]
  subst h
  rw [List.prefix_nil] at hq3
  subst hq3
  refine ⟨v0, none, ?_, Or.inr ⟨rfl, rfl⟩⟩
  rw [unmarshalValue]
  simp only [startElement_start _ _ _ _ (Or.inr rfl), startElement_start _ any _ _ (Or.inl rfl)]
  simp [htag, unmarshalScalar, DecodeElement_text, hd, unmarshalValueEnd, mustEndElement_end]

theorem valueTokens_scalar_shape (tag : String) (inner : List Token) :
    startTag "value" :: (startTag tag :: inner ++ [endTag tag]) ++ [endTag "value"] =
      startTag "value" :: startTag tag :: (inner ++ [endTag tag, endTag "value"]) := by
  simp

theorem initSeg_two {α : Type} (q : List α) (a b : α) (h : q <+: [a, b]) :
    q = [] ∨ q = [a] ∨ q = [a, b] := by
  rcases List.prefix_cons_iff.mp h with h1 | ⟨t, h1, ht⟩
  · exact Or.inl h1
  rcases List.prefix_cons_iff.mp ht with h2 | ⟨t2, h2, ht2⟩
  · subst h2; exact Or.inr (Or.inl h1)
  · rw [List.prefix_nil] at ht2
    subst ht2; subst h2
    exact Or.inr (Or.inr h1)

theorem initSeg_three {α : Type} (q : List α) (a b c : α) (h : q <+: [a, b, c]) :
    q = [] ∨ q = [a] ∨ q = [a, b] ∨ q = [a, b, c] := by
  rcases List.prefix_cons_iff.mp h with h1 | ⟨t, h1, ht⟩
  · exact Or.inl h1
  rcases initSeg_two t b c ht with h2 | h2 | h2
  · subst h2; exact Or.inr (Or.inl h1)
  · subst h2; exact Or.inr (Or.inr (Or.inl h1))
  · subst h2; exact Or.inr (Or.inr (Or.inr h1))

mutual
/-- A value cut off at any token, on a stream that ends with the syntax error
of the tokenizer: `unmarshalValue` returns that error and leaves nothing to
read; when no token is missing it returns the value. -/
theorem unmarshalValue_cut : ∀ (v : GoValue), validValue v = true →
    ∀ (p : List Token), p <+: valueTokens v →
    ∀ (fuel : Nat), (valueTokens v).length ≤ fuel →
    ∃ x err, unmarshalValue fuel ⟨none, ⟨p, some .xmlSyntax⟩⟩ =
        .ret ((x, err), ⟨none, ⟨[], some .xmlSyntax⟩⟩) ∧
      (err = some .xmlSyntax ∨ (p = valueTokens v ∧ err = none))
  | .bytes b, _, p, hp, fuel, hf => by
    obtain ⟨f, rfl⟩ : ∃ f, fuel = f + 1 := ⟨fuel - 1, by simp [valueTokens] at hf; omega⟩
    have hd : decodeValue (EncodeToString b) "base64" = (.bytes b, none) := by
      simp [decodeValue, DecodeString_EncodeToString]
    have e : valueTokens (.bytes b) = startTag "value" :: startTag "base64" ::
        (textTokens (EncodeToString b) ++ [endTag "base64", endTag "value"]) := by
      simp [valueTokens, typeTokens]
    rw [e] at hp ⊢
    exact unmarshalValue_scalar_cut "base64" _ _ (by decide) hd p hp f
  | .str s, _, p, hp, fuel, hf => by
    obtain ⟨f, rfl⟩ : ∃ f, fuel = f + 1 := ⟨fuel - 1, by simp [valueTokens] at hf; omega⟩
    have hd : decodeValue s "string" = (.str s, none) := by
      simp [decodeValue]
    have e : valueTokens (.str s) = startTag "value" :: startTag "string" ::
        (textTokens s ++ [endTag "string", endTag "value"]) := by
      simp [valueTokens, typeTokens]
    rw [e] at hp ⊢
    exact unmarshalValue_scalar_cut "string" _ _ (by decide) hd p hp f
  | .bool b, _, p, hp, fuel, hf => by
    obtain ⟨f, rfl⟩ : ∃ f, fuel = f + 1 := ⟨fuel - 1, by simp [valueTokens] at hf; omega⟩
    have hd : decodeValue (formatInt (asInt b)) "boolean" = (.bool b, none) := by
      cases b <;> rfl
    have e : valueTokens (.bool b) = startTag "value" :: startTag "boolean" ::
        (textTokens (formatInt (asInt b)) ++ [endTag "boolean", endTag "value"]) := by
      rw [textTokens_formatInt]
      simp [valueTokens, typeTokens]
    rw [e] at hp ⊢
    exact unmarshalValue_scalar_cut "boolean" _ _ (by decide) hd p hp f
  | .int n, hv, p, hp, fuel, hf => by
    obtain ⟨f, rfl⟩ : ∃ f, fuel = f + 1 := ⟨fuel - 1, by simp [valueTokens] at hf; omega⟩
    simp only [validValue, decide_eq_true_eq] at hv
    have hd : decodeValue (formatInt n) "i4" = (.int n, none) := by
      have := ParseInt_formatInt 32 n (by simpa using hv.1) (by simpa using hv.2)
        (by decide) (by decide)
      simp [decodeValue, this]
    have e : valueTokens (.int n) = startTag "value" :: startTag "i4" ::
        (textTokens (formatInt n) ++ [endTag "i4", endTag "value"]) := by
      rw [textTokens_formatInt]
      simp [valueTokens, typeTokens]
    rw [e] at hp ⊢
    exact unmarshalValue_scalar_cut "i4" _ _ (by decide) hd p hp f
  | .int64 n, hv, p, hp, fuel, hf => by
    obtain ⟨f, rfl⟩ : ∃ f, fuel = f + 1 := ⟨fuel - 1, by simp [valueTokens] at hf; omega⟩
    simp only [validValue, decide_eq_true_eq] at hv
    have hd : decodeValue (formatInt n) "i8" = (.int64 n, none) := by
      have := ParseInt_formatInt 64 n (by simpa using hv.1) (by simpa using hv.2)
        (by decide) (by decide)
      simp [decodeValue, this]
    have e : valueTokens (.int64 n) = startTag "value" :: startTag "i8" ::
        (textTokens (formatInt n) ++ [endTag "i8", endTag "value"]) := by
      rw [textTokens_formatInt]
      simp [valueTokens, typeTokens]
    rw [e] at hp ⊢
    exact unmarshalValue_scalar_cut "i8" _ _ (by decide) hd p hp f
  | .slice xs, hv, p, hp, fuel, hf => by
    have hfull := unmarshalValue_tokens (.slice xs) hv fuel hf [] (some .xmlSyntax)
    simp only [validValue] at hv
    have e : valueTokens (.slice xs) = startTag "value" :: startTag "array" ::
        startTag "data" :: (elemTokens xs ++ [endTag "data", endTag "array", endTag "value"]) := by
      simp [valueTokens, typeTokens]
    rw [e] at hp hf hfull ⊢
    simp only [List.length_cons, List.length_append, List.length_nil] at hf
    obtain ⟨f, rfl⟩ : ∃ f, fuel = f + 2 := ⟨fuel - 2, by omega⟩
    rcases List.prefix_cons_iff.mp hp with h | ⟨t, h, ht⟩
    · subst h
      exact ⟨_, _, unmarshalValue_fault (f + 1), Or.inl rfl⟩
    subst h
    rcases List.prefix_cons_iff.mp ht with h | ⟨t2, h, ht2⟩
    · subst h
      refine ⟨.nil, some .xmlSyntax, ?_, Or.inl rfl⟩
      rw [unmarshalValue]
      simp [startElement_start _ _ _ _ (Or.inr rfl), startElement_fault]
    subst h
    rcases List.prefix_cons_iff.mp ht2 with h | ⟨t3, h, ht3⟩
    · subst h
      refine ⟨.slice [], some .xmlSyntax, ?_, Or.inl rfl⟩
      rw [unmarshalValue]
      simp only [startElement_start _ _ _ _ (Or.inr rfl),
        startElement_start _ any _ _ (Or.inl rfl)]
      simp [unmarshalArray, startElement_fault, Outcome.bind, mustEndElement_fault,
        unmarshalValueEnd]
    subst h
    rcases initSeg_append _ _ _ ht3 with h | ⟨q, h, hq⟩
    · obtain ⟨arr, harr⟩ := unmarshalArrayLoop_cut xs hv t3 h f (by omega) []
      refine ⟨.slice arr, some .xmlSyntax, ?_, Or.inl rfl⟩
      rw [unmarshalValue]
      simp only [startElement_start _ _ _ _ (Or.inr rfl),
        startElement_start _ any _ _ (Or.inl rfl)]
      simp [unmarshalArray, startElement_start _ _ _ _ (Or.inr rfl), harr, Outcome.bind,
        mustEndElement_fault, unmarshalValueEnd]
    subst h
    have hl := unmarshalArrayLoop_tokens xs hv f (by omega) []
    rcases initSeg_three q _ _ _ hq with h | h | h | h <;> subst h
    · obtain ⟨arr, harr⟩ := unmarshalArrayLoop_cut xs hv (elemTokens xs)
        (List.prefix_refl _) f (by omega) []
      refine ⟨.slice arr, some .xmlSyntax, ?_, Or.inl rfl⟩
      rw [unmarshalValue]
      simp only [startElement_start _ _ _ _ (Or.inr rfl),
        startElement_start _ any _ _ (Or.inl rfl)]
      simp [unmarshalArray, startElement_start _ _ _ _ (Or.inr rfl), harr, Outcome.bind,
        mustEndElement_fault, unmarshalValueEnd]
    · refine ⟨.slice xs, some .xmlSyntax, ?_, Or.inl rfl⟩
      rw [unmarshalValue]
      simp only [startElement_start _ _ _ _ (Or.inr rfl),
        startElement_start _ any _ _ (Or.inl rfl)]
      simp [unmarshalArray, startElement_start _ _ _ _ (Or.inr rfl), hl, Outcome.bind,
        mustEndElement_last, mustEndElement_fault, unmarshalValueEnd]
    · refine ⟨.slice xs, some .xmlSyntax, ?_, Or.inl rfl⟩
      rw [unmarshalValue]
      simp only [startElement_start _ _ _ _ (Or.inr rfl),
        startElement_start _ any _ _ (Or.inl rfl)]
      simp [unmarshalArray, startElement_start _ _ _ _ (Or.inr rfl), hl, Outcome.bind,
        mustEndElement_last, mustEndElement_end, mustEndElement_fault, unmarshalValueEnd]
    · exact ⟨_, _, by simpa using hfull, Or.inr ⟨rfl, rfl⟩⟩
  | .map ms, hv, p, hp, fuel, hf => by
    have hfull := unmarshalValue_tokens (.map ms) hv fuel hf [] (some .xmlSyntax)
    simp only [validValue, Bool.and_eq_true, decide_eq_true_eq] at hv
    have e : valueTokens (.map ms) = startTag "value" :: startTag "struct" ::
        (memberTokens ms ++ [endTag "struct", endTag "value"]) := by
      simp [valueTokens, typeTokens]
    rw [e] at hp hf hfull ⊢
    simp only [List.length_cons, List.length_append, List.length_nil] at hf
    obtain ⟨f, rfl⟩ : ∃ f, fuel = f + 1 := ⟨fuel - 1, by omega⟩
    rcases List.prefix_cons_iff.mp hp with h | ⟨t, h, ht⟩
    · subst h
      exact ⟨_, _, unmarshalValue_fault f, Or.inl rfl⟩
    subst h
    rcases List.prefix_cons_iff.mp ht with h | ⟨t2, h, ht2⟩
    · subst h
      refine ⟨.nil, some .xmlSyntax, ?_, Or.inl rfl⟩
      rw [unmarshalValue]
      simp [startElement_start _ _ _ _ (Or.inr rfl), startElement_fault]
    subst h
    rcases initSeg_append _ _ _ ht2 with h | ⟨q, h, hq⟩
    · obtain ⟨m1, hm1⟩ := unmarshalStructLoop_cut ms hv.2 t2 h f (by omega) []
      refine ⟨.map m1, some .xmlSyntax, ?_, Or.inl rfl⟩
      rw [unmarshalValue]
      simp only [startElement_start _ _ _ _ (Or.inr rfl),
        startElement_start _ any _ _ (Or.inl rfl)]
      simp [hm1, Outcome.bind, mustEndElement_fault, unmarshalValueEnd]
    subst h
    have hl := unmarshalStructLoop_tokens ms hv.2 f (by omega) [] (by simpa using hv.1)
    rcases initSeg_two q _ _ hq with h | h | h <;> subst h
    · obtain ⟨m1, hm1⟩ := unmarshalStructLoop_cut ms hv.2 (memberTokens ms)
        (List.prefix_refl _) f (by omega) []
      refine ⟨.map m1, some .xmlSyntax, ?_, Or.inl rfl⟩
      rw [unmarshalValue]
      simp only [startElement_start _ _ _ _ (Or.inr rfl),
        startElement_start _ any _ _ (Or.inl rfl)]
      simp [hm1, Outcome.bind, mustEndElement_fault, unmarshalValueEnd]
    · refine ⟨.map ms, some .xmlSyntax, ?_, Or.inl rfl⟩
      rw [unmarshalValue]
      simp only [startElement_start _ _ _ _ (Or.inr rfl),
        startElement_start _ any _ _ (Or.inl rfl)]
      simp [hl, Outcome.bind, mustEndElement_last, mustEndElement_fault, unmarshalValueEnd]
    · exact ⟨_, _, by simpa using hfull, Or.inr ⟨rfl, rfl⟩⟩
  | .nil, hv, _, _, _, _ => by simp [validValue] at hv
  | .struct _, hv, _, _, _, _ => by simp [validValue] at hv
  | .ptr _, hv, _, _, _, _ => by simp [validValue] at hv
  | .other _, hv, _, _, _, _ => by simp [validValue] at hv
/-- The array loop on elements cut off at any token: it returns and leaves
nothing to read. -/
theorem unmarshalArrayLoop_cut : ∀ (xs : List GoValue), validValues xs = true →
    ∀ (p : List Token), p <+: elemTokens xs →
    ∀ (fuel : Nat), (elemTokens xs).length + 2 ≤ fuel → ∀ (arr : List GoValue),
    ∃ arr1, unmarshalArrayLoop fuel arr ⟨none, ⟨p, some .xmlSyntax⟩⟩ =
      .ret (arr1, ⟨none, ⟨[], some .xmlSyntax⟩⟩)
  | [], _, p, hp, fuel, hf, arr => by
    obtain ⟨f, rfl⟩ : ∃ f, fuel = f + 2 := ⟨fuel - 2, by simp [elemTokens] at hf; omega⟩
    simp only [elemTokens, List.prefix_nil] at hp
    subst hp
    exact ⟨arr, unmarshalArrayLoop_fault f arr⟩
  | x :: xs, hv, p, hp, fuel, hf, arr => by
    simp only [validValues, Bool.and_eq_true] at hv
    have e : elemTokens (x :: xs) = valueTokens x ++ elemTokens xs := by
      simp [elemTokens, valueTokens]
    rw [e] at hp hf
    simp only [List.length_append] at hf
    have hl2 : 2 ≤ (valueTokens x).length := by simp [valueTokens]
    obtain ⟨f, rfl⟩ : ∃ f, fuel = f + 3 := ⟨fuel - 3, by omega⟩
    rcases initSeg_append _ _ _ hp with h | ⟨q, h, hq⟩
    · obtain ⟨x1, err, h1, _⟩ := unmarshalValue_cut x hv.1 p h (f + 2) (by omega)
      rw [unmarshalArrayLoop, h1]
      cases x1 with
      | nil => exact ⟨arr, by simp [Outcome.bind]⟩
      | _ => exact ⟨_, by simp [Outcome.bind, unmarshalArrayLoop_fault]; rfl⟩
    · subst h
      have h1 := unmarshalValue_tokens x hv.1 (f + 2) (by omega) q (some .xmlSyntax)
      obtain ⟨arr1, h2⟩ := unmarshalArrayLoop_cut xs hv.2 q hq (f + 2) (by omega) (arr ++ [x])
      have hx : x ≠ .nil := by rintro rfl; simp [validValue] at hv
      refine ⟨arr1, ?_⟩
      rw [unmarshalArrayLoop, h1]
      cases x with
      | nil => exact absurd rfl hx
      | _ => simpa [Outcome.bind] using h2
/-- The struct loop on members cut off at any token: it returns the syntax
error and leaves nothing to read. -/
theorem unmarshalStructLoop_cut : ∀ (ms : List (String × GoValue)),
    validMembers ms = true → ∀ (p : List Token), p <+: memberTokens ms →
    ∀ (fuel : Nat), (memberTokens ms).length + 1 ≤ fuel → ∀ (m : List (String × GoValue)),
    ∃ m1, unmarshalStructLoop fuel m ⟨none, ⟨p, some .xmlSyntax⟩⟩ =
      .ret ((m1, some .xmlSyntax), ⟨none, ⟨[], some .xmlSyntax⟩⟩)
  | [], _, p, hp, fuel, hf, m => by
    obtain ⟨f, rfl⟩ : ∃ f, fuel = f + 1 := ⟨fuel - 1, by omega⟩
    simp only [memberTokens, List.prefix_nil] at hp
    subst hp
    exact ⟨m, unmarshalStructLoop_fault f m⟩
  | (k, v) :: ms, hv, p, hp, fuel, hf, m => by
    simp only [validMembers, Bool.and_eq_true] at hv
    have e : memberTokens ((k, v) :: ms) = startTag "member" :: startTag "name" ::
        (textTokens k ++ endTag "name" :: (valueTokens v ++ endTag "member" ::
          memberTokens ms)) := by
      simp [memberTokens, valueTokens]
    rw [e] at hp hf
    simp only [List.length_cons, List.length_append] at hf
    obtain ⟨f, rfl⟩ : ∃ f, fuel = f + 2 := ⟨fuel - 2, by omega⟩
    rcases List.prefix_cons_iff.mp hp with h | ⟨t, h, ht⟩
    · subst h
      exact ⟨m, unmarshalStructLoop_fault (f + 1) m⟩
    subst h
    rcases List.prefix_cons_iff.mp ht with h | ⟨t2, h, ht2⟩
    · subst h
      refine ⟨m, ?_⟩
      rw [unmarshalStructLoop]
      simp [startElement_start _ _ _ _ (Or.inr rfl), startElement_fault]
    subst h
    rcases initSeg_append _ _ _ ht2 with h | ⟨q, h, hq⟩
    · refine ⟨m, ?_⟩
      rw [unmarshalStructLoop]
      simp only [startElement_start _ _ _ _ (Or.inr rfl)]
      simp [DecodeElement_fault k t2 h]
    subst h
    rcases List.prefix_cons_iff.mp hq with h | ⟨q2, h, hq2⟩
    · subst h
      refine ⟨m, ?_⟩
      rw [unmarshalStructLoop]
      simp only [startElement_start _ _ _ _ (Or.inr rfl)]
      simp [DecodeElement_fault k _ (List.prefix_refl _)]
    subst h
    have hde := DecodeElement_text k "name" q2 (some .xmlSyntax)
    rcases initSeg_append _ _ _ hq2 with h | ⟨q3, h, hq3⟩
    · obtain ⟨x1, err, h1, herr⟩ := unmarshalValue_cut v hv.1.2 q2 h (f + 1) (by omega)
      rcases herr with herr | ⟨_, herr⟩
      · subst herr
        refine ⟨m, ?_⟩
        rw [unmarshalStructLoop]
        simp only [startElement_start _ _ _ _ (Or.inr rfl)]
        simp [hde, h1, Outcome.bind]
      · subst herr
        refine ⟨mapSet m k x1, ?_⟩
        rw [unmarshalStructLoop]
        simp only [startElement_start _ _ _ _ (Or.inr rfl)]
        simp [hde, h1, Outcome.bind, mustEndElement_fault, unmarshalStructLoop_fault]
    · subst h
      have hde2 := DecodeElement_text k "name" (valueTokens v ++ q3) (some .xmlSyntax)
      have h1 := unmarshalValue_tokens v hv.1.2 (f + 1) (by omega) q3 (some .xmlSyntax)
      rcases List.prefix_cons_iff.mp hq3 with h | ⟨q4, h, hq4⟩
      · subst h
        simp only [List.append_nil] at hde2 h1
        refine ⟨mapSet m k v, ?_⟩
        rw [unmarshalStructLoop]
        simp only [startElement_start _ _ _ _ (Or.inr rfl)]
        simp [hde2, h1, Outcome.bind, mustEndElement_fault, unmarshalStructLoop_fault]
      · subst h
        obtain ⟨m1, h2⟩ := unmarshalStructLoop_cut ms hv.2 q4 hq4 (f + 1) (by omega)
          (mapSet m k v)
        refine ⟨m1, ?_⟩
        rw [unmarshalStructLoop]
        simp only [startElement_start _ _ _ _ (Or.inr rfl)]
        simp [hde2, h1, Outcome.bind, mustEndElement_end, h2]
end

/-- The params loop on params cut off at any token: it returns the syntax
error and leaves nothing to read. -/
theorem unmarshalParamsLoop_cut : ∀ (vs : List GoValue), validValues vs = true →
    ∀ (p : List Token), p <+: paramsTokens vs →
    ∀ (fuel : Nat), (paramsTokens vs).length + 1 ≤ fuel → ∀ (ps : List GoValue),
    ∃ ps1, unmarshalParamsLoop fuel ps ⟨none, ⟨p, some .xmlSyntax⟩⟩ =
      .ret ((ps1, some .xmlSyntax), ⟨none, ⟨[], some .xmlSyntax⟩⟩)
  | [], _, p, hp, fuel, hf, ps => by
    obtain ⟨f, rfl⟩ : ∃ f, fuel = f + 1 := ⟨fuel - 1, by omega⟩
    simp only [paramsTokens, List.prefix_nil] at hp
    subst hp
    exact ⟨ps, unmarshalParamsLoop_fault f ps⟩
  | a :: vs, hv, p, hp, fuel, hf, ps => by
    simp only [validValues, Bool.and_eq_true] at hv
    have e : paramsTokens (a :: vs) = startTag "param" ::
        (valueTokens a ++ endTag "param" :: paramsTokens vs) := by
      simp [paramsTokens]
    rw [e] at hp hf
    simp only [List.length_cons, List.length_append] at hf
    obtain ⟨f, rfl⟩ : ∃ f, fuel = f + 2 := ⟨fuel - 2, by omega⟩
    rcases List.prefix_cons_iff.mp hp with h | ⟨t, h, ht⟩
    · subst h
      exact ⟨ps, unmarshalParamsLoop_fault (f + 1) ps⟩
    subst h
    rcases initSeg_append _ _ _ ht with h | ⟨q, h, hq⟩
    · obtain ⟨x1, err, h1, herr⟩ := unmarshalValue_cut a hv.1 t h (f + 1) (by omega)
      rcases herr with herr | ⟨_, herr⟩
      · subst herr
        refine ⟨ps, ?_⟩
        rw [unmarshalParamsLoop]
        simp only [startElement_start _ _ _ _ (Or.inr rfl)]
        simp [h1, Outcome.bind]
      · subst herr
        refine ⟨ps ++ [x1], ?_⟩
        rw [unmarshalParamsLoop]
        simp only [startElement_start _ _ _ _ (Or.inr rfl)]
        simp [h1, Outcome.bind, mustEndElement_fault]
    · subst h
      have h1 := unmarshalValue_tokens a hv.1 (f + 1) (by omega) q (some .xmlSyntax)
      rcases List.prefix_cons_iff.mp hq with h | ⟨q2, h, hq2⟩
      · subst h
        simp only [List.append_nil] at h1
        refine ⟨ps ++ [a], ?_⟩
        rw [unmarshalParamsLoop]
        simp only [startElement_start _ _ _ _ (Or.inr rfl)]
        simp [h1, Outcome.bind, mustEndElement_fault]
      · subst h
        obtain ⟨ps1, h2⟩ := unmarshalParamsLoop_cut vs hv.2 q2 hq2 (f + 1) (by omega)
          (ps ++ [a])
        refine ⟨ps1, ?_⟩
        rw [unmarshalParamsLoop]
        simp only [startElement_start _ _ _ _ (Or.inr rfl)]
        simp [h1, Outcome.bind, mustEndElement_end, h2]

/-- A response cut off at any token before its end, on a stream that ends
with the syntax error of the tokenizer: the run returns that error. -/
theorem unmarshalFrom_cut (args : List GoValue) (hv : validValues args = true)
    (p : List Token) (hp : p <+: responseTokens args) (hne : p ≠ responseTokens args)
    (fuel : Nat) (hf : (paramsTokens args).length + 1 ≤ fuel) :
    ∃ vals, unmarshalFrom fuel ⟨none, ⟨p, some .xmlSyntax⟩⟩ =
      .ret ((vals, some .xmlSyntax), ⟨none, ⟨[], some .xmlSyntax⟩⟩) := by
  unfold responseTokens at hp hne
  rcases List.prefix_cons_iff.mp hp with h | ⟨t, h, ht⟩
  · subst h
    exact ⟨[], by simp [unmarshalFrom, startElement_fault]⟩
  subst h
  rcases List.prefix_cons_iff.mp ht with h | ⟨t2, h, ht2⟩
  · subst h
    refine ⟨[], ?_⟩
    simp only [unmarshalFrom, startElement_start _ _ _ _ (Or.inr rfl)]
    simp [startElement_fault]
  subst h
  rcases initSeg_append _ _ _ ht2 with h | ⟨q, h, hq⟩
  · obtain ⟨ps1, h1⟩ := unmarshalParamsLoop_cut args hv t2 h fuel hf []
    refine ⟨ps1, ?_⟩
    simp only [unmarshalFrom, startElement_start _ _ _ _ (Or.inr rfl),
      startElement_start _ any _ _ (Or.inl rfl)]
    simp [unmarshalParams, h1, Outcome.bind]
  subst h
  rcases initSeg_two q _ _ hq with h | h | h <;> subst h
  · obtain ⟨ps1, h1⟩ := unmarshalParamsLoop_cut args hv (paramsTokens args)
      (List.prefix_refl _) fuel hf []
    refine ⟨ps1, ?_⟩
    simp only [unmarshalFrom, startElement_start _ _ _ _ (Or.inr rfl),
      startElement_start _ any _ _ (Or.inl rfl)]
    simp [unmarshalParams, h1, Outcome.bind]
  · have h1 := unmarshalParamsLoop_tokens args hv fuel hf [] [] (some .xmlSyntax)
    refine ⟨args, ?_⟩
    simp only [unmarshalFrom, startElement_start _ _ _ _ (Or.inr rfl),
      startElement_start _ any _ _ (Or.inl rfl)]
    simp only [List.nil_append] at h1
    simp [unmarshalParams, h1, Outcome.bind, mustEndElement_last, mustEndElement_fault]
  · exact absurd rfl hne

theorem unmarshalTokens_cut (args : List GoValue) (hv : validValues args = true)
    (p : List Token) (hp : p <+: responseTokens args) (hne : p ≠ responseTokens args) :
    ∃ vals, unmarshalTokens ⟨none⟩ ⟨p, some .xmlSyntax⟩ =
      .ret ((vals, some .xmlSyntax), ⟨none⟩) := by
  obtain ⟨vals, h⟩ := unmarshalFrom_cut args hv p hp hne _ (Nat.le_refl _)
  exact ⟨vals, unmarshalTokens_any_fuel ⟨none⟩ _ _ _ h⟩

/-! ### The claims -/

/-- C1 (counterexample): decoding the document that `marshal` produces for
the call ("m", ["a"]) returns the empty list, not the list holding "a". -/
theorem unmarshal_marshal_not_roundtrip :
    marshal "m" [.str "a"] =
      (some ("<?xml version=\"1.0\" encoding=\"UTF-8\"?><methodCall><methodName>m</methodName>" ++
        "<params><param><value><string>a</string></value></param></params></methodCall>"),
       none) ∧
    unmarshal ⟨none⟩
        ("<?xml version=\"1.0\" encoding=\"UTF-8\"?><methodCall><methodName>m</methodName>" ++
        "<params><param><value><string>a</string></value></param></params></methodCall>") =
      .ret (([], none), ⟨some (startTag "methodCall")⟩) ∧
    ([] : List GoValue) ≠ [.str "a"] := by
  refine ⟨rfl, rfl, ?_⟩
  intro h
  cases h

/-- C1 (amended): for every method name and every list `args` of valid
values, `marshal` returns its document with no error; the response document
whose params are the `<param>` elements that `marshal` wrote decodes to
exactly the list `args` with no error; the `methodCall` document of `marshal`
itself decodes to no values. -/
theorem marshal_unmarshal_roundtrip (method : String) (args : List GoValue)
    (hv : validValues args = true) :
    marshal method args =
      (some ("<?xml version=\"1.0\" encoding=\"UTF-8\"?><methodCall><methodName>" ++ method ++
        "</methodName><params>" ++ paramsText args ++ "</params></methodCall>"), none) ∧
    unmarshal ⟨none⟩ (responseDocOf args) = .ret ((args, none), ⟨none⟩) ∧
    ∃ (err : Option GoError) (u1 : unmarshaller),
      unmarshal ⟨none⟩
          ("<?xml version=\"1.0\" encoding=\"UTF-8\"?><methodCall><methodName>" ++ method ++
          "</methodName><params>" ++ paramsText args ++ "</params></methodCall>") =
        .ret (([], err), u1) := by
  have hm : marshal method args =
      (some ("<?xml version=\"1.0\" encoding=\"UTF-8\"?><methodCall><methodName>" ++ method ++
        "</methodName><params>" ++ paramsText args ++ "</params></methodCall>"), none) := by
    unfold marshal
    simp only
    rw [marshalArgs_ok args _ (tokenize_params args hv).1]
    simp [String.append_assoc]
  exact ⟨hm, unmarshal_responseDocOf args hv,
    unmarshal_methodCall_no_values method args _ (by rw [hm])⟩

/-- C1 (witness): the amended statement at the call ("m", ["a", 5]). -/
theorem marshal_unmarshal_roundtrip_witness :
    validValues [.str "a", .int 5] = true ∧
    unmarshal ⟨none⟩ (responseDocOf [.str "a", .int 5]) =
      .ret (([.str "a", .int 5], none), ⟨none⟩) :=
  ⟨rfl, (marshal_unmarshal_roundtrip "m" [.str "a", .int 5] rfl).2.1⟩

/-- C2 (counterexample): a string holding the control character U+0001 does
not survive the round trip: `xml.EscapeText` writes U+FFFD in its place, and
the decoded value is the string U+FFFD. -/
theorem value_roundtrip_fails_on_control_char :
    unmarshal ⟨none⟩ (responseDoc (.str (String.singleton (Char.ofNat 1)))) =
      .ret (([.str (String.singleton (Char.ofNat 0xFFFD))], none), ⟨none⟩) ∧
    GoValue.str (String.singleton (Char.ofNat 0xFFFD)) ≠
      GoValue.str (String.singleton (Char.ofNat 1)) := by
  refine ⟨rfl, ?_⟩
  intro h
  injection h with h
  exact absurd h (by decide)

/-- C2 (amended): for every valid value `v` (see `validValue`: strings and
member names made of characters of the XML character range, ints in the
signed 32-bit range, each map key once), the response document that wraps
the text of `marshalValue` is tokenized into the tokens of `v` and decoded,
from an empty pushback, into the list `[v]` with no error; and
`unmarshalValue` on the tokens of `v` returns `v` and consumes exactly those
tokens. -/
theorem value_roundtrip (v : GoValue) (hv : validValue v = true) :
    unmarshal ⟨none⟩ (responseDoc v) = .ret (([v], none), ⟨none⟩) ∧
    NewDecoder (responseDoc v) =
      ⟨startTag "methodResponse" :: startTag "params" :: startTag "param" ::
        (valueTokens v ++ [endTag "param", endTag "params", endTag "methodResponse"]), none⟩ ∧
    ∀ (fuel : Nat) (rest : List Token) (flt : Option GoError), (valueTokens v).length ≤ fuel →
      unmarshalValue fuel ⟨none, ⟨valueTokens v ++ rest, flt⟩⟩ =
        .ret ((v, none), ⟨none, ⟨rest, flt⟩⟩) := by
  refine ⟨?_, NewDecoder_responseDoc v hv,
    fun fuel rest flt hf => unmarshalValue_tokens v hv fuel hf rest flt⟩
  unfold unmarshal
  rw [NewDecoder_responseDoc v hv]
  have hsize : 2 * (DecState.size ⟨none, ⟨startTag "methodResponse" :: startTag "params" ::
      startTag "param" :: (valueTokens v ++
        [endTag "param", endTag "params", endTag "methodResponse"]), none⟩⟩) + 4 =
      ((valueTokens v).length + ((valueTokens v).length + 14)) + 2 := by
    simp [DecState.size]; omega
  have h1 := unmarshalValue_tokens v hv ((valueTokens v).length + ((valueTokens v).length + 14) + 1)
    (by omega) [endTag "param", endTag "params", endTag "methodResponse"] none
  simp only [unmarshalTokens]
  rw [hsize]
  simp only [unmarshalFrom, startElement_start _ _ _ _ (Or.inr rfl),
    startElement_start _ any _ _ (Or.inl rfl)]
  simp [unmarshalParams, unmarshalParamsLoop, startElement_start, startElement_end, h1,
    Outcome.bind, mustEndElement_end, mustEndElement_last]

/-- C2 (witness): the nested array of the specification is a valid value and
round-trips. -/
theorem value_roundtrip_witness :
    validValue nestedExample = true ∧
    unmarshal ⟨none⟩ (responseDoc nestedExample) = .ret (([nestedExample], none), ⟨none⟩) :=
  ⟨rfl, (value_roundtrip nestedExample rfl).1⟩

/-- C3: for every code `c` in the signed 32-bit range, written in an `<int>`
or `<i4>` element, and every text `s`, decoding the fault response with the
members faultCode and faultString returns no values and the error
"error response, code: c, text: s". -/
theorem fault_response_decodes (tag : String) (htag : tag = "int" ∨ tag = "i4") (c : Int)
    (hlo : -(2 ^ 31 : Int) ≤ c) (hhi : c < (2 ^ 31 : Int)) (s : String) :
    unmarshalTokens ⟨none⟩ ⟨faultTokens tag c s, none⟩ =
      .ret (([], some (.errorsNew ("error response, code: " ++ formatInt c ++ ", text: " ++ s))),
        ⟨none⟩) := by
  have hp := ParseInt_formatInt 32 c (by simpa using hlo) (by simpa using hhi)
    (by decide) (by decide)
  have hd1 : decodeValue (formatInt c) tag = (.int c, none) := by
    rcases htag with rfl | rfl <;> simp [decodeValue, hp]
  have hd3 : decodeValue s "string" = (.str s, none) := by simp [decodeValue]
  have htag1 : tag = "string" ∨ tag = "base64" ∨ tag = "int" ∨ tag = "i4" ∨ tag = "i8" ∨
      tag = "boolean" := by
    rcases htag with rfl | rfl <;> simp
  have v1 := fun rest => unmarshalValue_scalar tag (formatInt c) (.int c) htag1 hd1 57 rest none
  have v2 := fun rest => unmarshalValue_scalar "string" s (.str s) (Or.inl rfl) hd3 56 rest none
  have m2 := unmarshalStructLoop_member "faultString" (.str s)
    [startTag "value", startTag "string", .CharData s, endTag "string", endTag "value"]
    [endTag "struct", endTag "value", endTag "fault", endTag "methodResponse"]
    (mapSet [] "faultCode" (.int c)) 57 none (v2 _)
  have m1 := unmarshalStructLoop_member "faultCode" (.int c)
    [startTag "value", startTag tag, .CharData (formatInt c), endTag tag, endTag "value"]
    (startTag "member" :: startTag "name" :: .CharData "faultString" :: endTag "name" ::
      ([startTag "value", startTag "string", .CharData s, endTag "string", endTag "value"] ++
        endTag "member" ::
        [endTag "struct", endTag "value", endTag "fault", endTag "methodResponse"]))
    [] 58 none (v1 _)
  rw [m2, unmarshalStructLoop_end] at m1
  simp only [List.cons_append, List.nil_append] at m1
  simp only [unmarshalTokens, unmarshalFrom, faultTokens, DecState.size,
    startElement_start _ _ _ _ (Or.inr rfl), startElement_start _ any _ _ (Or.inl rfl)]
  simp [unmarshalFault, unmarshalValue, startElement_start, any, m1, Outcome.bind,
    mustEndElement_last, mustEndElement_end, unmarshalValueEnd, asMap, mapGet, mapSet]

/-- C3 (witness): the fault of the test, code 3 and text "something went
wrong". -/
theorem fault_response_decodes_witness :
    ("int" = "int" ∨ "int" = "i4") ∧ -(2 ^ 31 : Int) ≤ 3 ∧ (3 : Int) < 2 ^ 31 ∧
    unmarshalTokens ⟨none⟩ ⟨faultTokens "int" 3 "something went wrong", none⟩ =
      .ret (([], some (.errorsNew ("error response, code: " ++ formatInt 3 ++ ", text: " ++
        "something went wrong"))), ⟨none⟩) ∧
    "error response, code: " ++ formatInt 3 ++ ", text: " ++ "something went wrong" =
      "error response, code: 3, text: something went wrong" :=
  ⟨Or.inl rfl, by decide, by decide,
   fault_response_decodes "int" (Or.inl rfl) 3 (by decide) (by decide) "something went wrong",
   by decide⟩

/-- C4: an empty array is written as
`<value><array><data></data></array></value>`; decoding these tokens gives
the empty slice as a non-nil value with no error and consumes exactly them;
inside an enclosing array, and as a param, the empty slice is appended and
the loop goes on with the tokens that follow. -/
theorem empty_array_roundtrip :
    (∀ buf, marshalValue buf (.slice []) =
      (buf ++ "<value><array><data></data></array></value>", none)) ∧
    (∀ fuel rest flt, unmarshalValue (fuel + 4) ⟨none, ⟨emptyArrayTokens ++ rest, flt⟩⟩ =
      .ret ((.slice [], none), ⟨none, ⟨rest, flt⟩⟩)) ∧
    (∀ fuel arr rest flt,
      unmarshalArrayLoop (fuel + 5) arr ⟨none, ⟨emptyArrayTokens ++ rest, flt⟩⟩ =
        unmarshalArrayLoop (fuel + 4) (arr ++ [.slice []]) ⟨none, ⟨rest, flt⟩⟩) ∧
    (∀ fuel params rest flt,
      unmarshalParamsLoop (fuel + 5) params
          ⟨none, ⟨startTag "param" :: (emptyArrayTokens ++ endTag "param" :: rest), flt⟩⟩ =
        unmarshalParamsLoop (fuel + 4) (params ++ [.slice []]) ⟨none, ⟨rest, flt⟩⟩) ∧
    unmarshal ⟨none⟩ ("<methodResponse><params><param><value><array><data>" ++
        "<value><array><data></data></array></value><value><i4>1</i4></value>" ++
        "</data></array></value></param><param><value><array><data></data></array></value>" ++
        "</param><param><value><i4>2</i4></value></param></params></methodResponse>") =
      .ret (([.slice [.slice [], .int 1], .slice [], .int 2], none), ⟨none⟩) := by
  refine ⟨?_, ?_, ?_, ?_, rfl⟩
  · intro buf
    simp [marshalValue, marshalValueBody, marshalType, marshalArrayBody, marshalArrayLoop,
      String.append_assoc]
  · intro fuel rest flt
    simp [unmarshalValue, unmarshalArray, unmarshalArrayLoop, emptyArrayTokens, startTag, endTag,
      startElement, startElementLoop, any, Outcome.bind, mustEndElement, endElement,
      endElementLoop, unmarshalValueEnd]
  · intro fuel arr rest flt
    simp [unmarshalValue, unmarshalArray, unmarshalArrayLoop, emptyArrayTokens, startTag, endTag,
      startElement, startElementLoop, any, Outcome.bind, mustEndElement, endElement,
      endElementLoop, unmarshalValueEnd]
  · intro fuel params rest flt
    simp [unmarshalValue, unmarshalArray, unmarshalArrayLoop, emptyArrayTokens, startTag, endTag,
      startElement, startElementLoop, any, Outcome.bind, mustEndElement, endElement,
      endElementLoop, unmarshalValueEnd, unmarshalParamsLoop]

/-- C5: for every method name and every list of arguments that `marshalValue`
encodes without error, `marshal` returns, with a nil error, the XML
declaration, `<methodCall><methodName>`, the method name verbatim,
`</methodName><params>`, then for each argument in order `<param>`, its
`marshalValue` text and `</param>`, then `</params></methodCall>`. -/
theorem marshal_format (method : String) (args : List GoValue)
    (h : ∀ a ∈ args, (marshalValue "" a).2 = none) :
    marshal method args =
      (some ("<?xml version=\"1.0\" encoding=\"UTF-8\"?><methodCall><methodName>" ++ method ++
        "</methodName><params>" ++ paramsText args ++ "</params></methodCall>"), none) := by
  unfold marshal
  simp only
  rw [marshalArgs_ok args _ h]
  simp [String.append_assoc]

/-- C5 (witness): a call with a string and an int argument. -/
theorem marshal_format_witness :
    (∀ a ∈ [GoValue.str "x<y", GoValue.int 5], (marshalValue "" a).2 = none) ∧
    marshal "sum" [GoValue.str "x<y", GoValue.int 5] =
      (some ("<?xml version=\"1.0\" encoding=\"UTF-8\"?><methodCall><methodName>" ++ "sum" ++
        "</methodName><params>" ++ paramsText [GoValue.str "x<y", GoValue.int 5] ++
        "</params></methodCall>"), none) :=
  ⟨by intro a ha; simp at ha; rcases ha with rfl | rfl <;> rfl,
   marshal_format "sum" [GoValue.str "x<y", GoValue.int 5]
    (by intro a ha; simp at ha; rcases ha with rfl | rfl <;> rfl)⟩

/-- C6: `marshalValue` writes an `int` as `<i4>` and an `int64` as `<i8>`
around the decimal numeral, a `bool` as `<boolean>1</boolean>` or
`<boolean>0</boolean>`, and a `[]byte` as one `<base64>` element holding its
padded standard base64 text (which `DecodeString` maps back to the bytes;
the bytes of "hello" give `aGVsbG8=`); the numeral read back digit by digit
is the number. -/
theorem marshalValue_scalars :
    (∀ buf n, marshalValue buf (.int n) =
      (buf ++ "<value>" ++ "<i4>" ++ formatInt n ++ "</i4>" ++ "</value>", none)) ∧
    (∀ buf n, marshalValue buf (.int64 n) =
      (buf ++ "<value>" ++ "<i8>" ++ formatInt n ++ "</i8>" ++ "</value>", none)) ∧
    (∀ buf, marshalValue buf (.bool true) = (buf ++ "<value><boolean>1</boolean></value>", none)) ∧
    (∀ buf, marshalValue buf (.bool false) = (buf ++ "<value><boolean>0</boolean></value>", none)) ∧
    (∀ buf b, marshalValue buf (.bytes b) =
      (buf ++ "<value>" ++ "<base64>" ++ EncodeToString b ++ "</base64>" ++ "</value>", none)) ∧
    EncodeToString [104, 101, 108, 108, 111] = "aGVsbG8=" ∧
    (∀ b, DecodeString (EncodeToString b) = (b, none)) ∧
    (∀ k : Nat, parseDigits (formatInt k).data 0 = some k) ∧
    (∀ k : Nat, parseDigits (formatInt (-(k + 1 : Nat))).data.tail 0 = some (k + 1) ∧
      (formatInt (-(k + 1 : Nat))).data.head? = some '-') ∧
    formatInt 123 = "123" ∧ formatInt (-2147483648) = "-2147483648" := by
  refine ⟨fun _ _ => rfl, fun _ _ => rfl, ?_, ?_, fun _ _ => rfl, rfl,
    DecodeString_EncodeToString, ?_, ?_, rfl, rfl⟩
  · intro buf; simp [marshalValue, marshalValueBody, marshalType, String.append_assoc]; rfl
  · intro buf; simp [marshalValue, marshalValueBody, marshalType, String.append_assoc]; rfl
  · intro k; exact parseDigits_decimalNat k
  · intro k
    have : (-((k + 1 : Nat) : Int)) = Int.negSucc k := by simp [Int.negSucc_eq]
    rw [this]
    exact ⟨parseDigits_decimalNat (k + 1), rfl⟩

/-- C7 (code defect): an unsupported value inside an array does not make
`marshal` fail.  `marshalArray` leaves its loop at the error and then
overwrites it with the result of the last write, so `marshal` returns a nil
error and a document whose `<value>` of the failed element is never closed. -/
theorem marshal_unsupported_in_array_swallowed :
    marshal "m" [.slice [.other "float64"]] =
      (some ("<?xml version=\"1.0\" encoding=\"UTF-8\"?><methodCall><methodName>m</methodName>" ++
        "<params><param><value><array><data><value></data></array></value></param></params>" ++
        "</methodCall>"), none) ∧
    marshal "m" [.other "float64"] = (none, some (.errorsNew "unsupported type: float64")) ∧
    marshal "m" [.map [("k", .other "float64")]] =
      (none, some (.errorsNew "unsupported type: float64")) := by
  refine ⟨rfl, rfl, rfl⟩

/-- C8 (code defect): `unmarshal` returns the params decoded so far together
with an error.  On a stream that ends after one complete param, without
`</params>`, the result is the list holding that param and the error
"missing end element: params"; on the document with the same tags the value
comes with the syntax error of the tokenizer. -/
theorem unmarshal_partial_result_with_error :
    unmarshalTokens ⟨none⟩
        ⟨[startTag "methodResponse", startTag "params", startTag "param", startTag "value",
          startTag "string", .CharData "a", endTag "string", endTag "value", endTag "param"],
         none⟩ =
      .ret (([.str "a"], some (.errorsNew "missing end element: params")), ⟨none⟩) ∧
    unmarshal ⟨none⟩
        "<methodResponse><params><param><value><string>a</string></value></param>" =
      .ret (([.str "a"], some .xmlSyntax), ⟨none⟩) := by
  refine ⟨rfl, rfl⟩

/-- C9 (code defect): the pushed-back token survives a call.  Decoding the
document `<methodCall></methodCall>` leaves its start tag in `last`; the next
call on the same `unmarshaller` then returns no values and no error for a
response that a fresh `unmarshaller` decodes to one value.  The same happens
after a response that fails with an error: a `<double>` inside an array
leaves `</double>` in `last`. -/
theorem unmarshal_state_survives_call :
    unmarshal ⟨none⟩ "<methodCall></methodCall>" =
      .ret (([], none), ⟨some (startTag "methodCall")⟩) ∧
    unmarshal ⟨some (startTag "methodCall")⟩
        "<methodResponse><params><param><value><i4>7</i4></value></param></params></methodResponse>" =
      .ret (([], none), ⟨some (startTag "methodCall")⟩) ∧
    unmarshal ⟨none⟩
        "<methodResponse><params><param><value><i4>7</i4></value></param></params></methodResponse>" =
      .ret (([.int 7], none), ⟨none⟩) ∧
    unmarshal ⟨none⟩ ("<methodResponse><params><param><value><array><data>" ++
        "<value><double>1</double></value></data></array></value></param></params>" ++
        "</methodResponse>") =
      .ret (([], some (.errorsNew "missing end element: array")), ⟨some (endTag "double")⟩) ∧
    unmarshal ⟨some (endTag "double")⟩
        "<methodResponse><params><param><value><i4>7</i4></value></param></params></methodResponse>" =
      .ret (([], none), ⟨some (endTag "double")⟩) := by
  refine ⟨rfl, rfl, rfl, rfl, rfl⟩

/-- C10 (code defect): `unmarshal` panics on malformed responses.  An empty
`<methodResponse>` and a `<value>` without a type element dereference the nil
start element; a fault whose value is not a struct fails the type assertion
of the fault code. -/
theorem unmarshal_panics_on_malformed :
    unmarshal ⟨none⟩ "<methodResponse></methodResponse>" =
      .panic "nil pointer dereference" ∧
    unmarshal ⟨none⟩ "<methodResponse><params><param><value></value></param></params></methodResponse>" =
      .panic "nil pointer dereference" ∧
    unmarshal ⟨none⟩ "<methodResponse><fault><value><string>x</string></value></fault></methodResponse>" =
      .panic "interface conversion: interface {} is not int" := by
  refine ⟨rfl, rfl, rfl⟩

/-- C11 (code defect): a missing root element is not reported.  For the
empty document, for a document whose root is another element and for a
`methodCall` request, `unmarshal` returns the empty list and a nil error;
an unknown element inside `methodResponse` is reported as an error. -/
theorem unmarshal_missing_root_not_reported :
    unmarshal ⟨none⟩ "" = .ret (([], none), ⟨none⟩) ∧
    unmarshal ⟨none⟩ "<html></html>" = .ret (([], none), ⟨some (startTag "html")⟩) ∧
    unmarshal ⟨none⟩ "<params><param><value><i4>7</i4></value></param></params>" =
      .ret (([], none), ⟨some (startTag "params")⟩) ∧
    unmarshalTokens ⟨none⟩ ⟨[.CharData "plain text"], none⟩ = .ret (([], none), ⟨none⟩) ∧
    unmarshal ⟨none⟩ "<methodResponse><html></html></methodResponse>" =
      .ret (([], some (.errorsNew "invalid xml, unknown element html")), ⟨none⟩) := by
  refine ⟨rfl, rfl, rfl, rfl, rfl⟩

/-- C12 (code defect): an invalid fault makes `unmarshal` panic.  A fault
struct without `faultCode`, one without `faultString`, an empty one, and a
fault value that is not a struct all end in a failed type assertion, not in
an error. -/
theorem unmarshal_invalid_fault_panics :
    unmarshal ⟨none⟩ ("<methodResponse><fault><value><struct>" ++
        "<member><name>faultString</name><value><string>x</string></value></member>" ++
        "</struct></value></fault></methodResponse>") =
      .panic "interface conversion: interface {} is not int" ∧
    unmarshal ⟨none⟩ ("<methodResponse><fault><value><struct>" ++
        "<member><name>faultCode</name><value><int>3</int></value></member>" ++
        "</struct></value></fault></methodResponse>") =
      .panic "interface conversion: interface {} is not string" ∧
    unmarshal ⟨none⟩
        "<methodResponse><fault><value><struct></struct></value></fault></methodResponse>" =
      .panic "interface conversion: interface {} is not int" ∧
    unmarshal ⟨none⟩
        "<methodResponse><fault><value><i4>3</i4></value></fault></methodResponse>" =
      .panic "interface conversion: interface {} is not int" := by
  refine ⟨rfl, rfl, rfl, rfl⟩

/-- C13: unknown top-level element.  On every token stream whose first tag
is the start tag of `methodResponse` and whose next tag is a start tag with a
local name other than `params` and `fault` (only character data, comments,
processing instructions and directives before and between them), `unmarshal`
with an empty pushback returns no values and the error
"invalid xml, unknown element NAME", whatever follows. -/
theorem unmarshal_unknown_element (pre mid rest : List Token) (root n : Name)
    (flt : Option GoError) (hpre : noTags pre = true) (hmid : noTags mid = true)
    (hroot : root.Local = "methodResponse") (h1 : n.Local ≠ "params")
    (h2 : n.Local ≠ "fault") :
    unmarshalTokens ⟨none⟩
        ⟨pre ++ .StartElement root :: (mid ++ .StartElement n :: rest), flt⟩ =
      .ret (([], some (.errorsNew ("invalid xml, unknown element " ++ n.Local))), ⟨none⟩) :=
  unmarshalTokens_any_fuel ⟨none⟩ _ 0 _
    (unmarshalFrom_unknown pre mid rest root n flt 0 hpre hmid hroot h1 h2)

/-- C13 (witness): the response `<methodResponse>`, a line break, `<result>`
and what follows, as a token stream and as a document. -/
theorem unmarshal_unknown_element_witness :
    unmarshalTokens ⟨none⟩
        ⟨[.ProcInst "xml" "version=\"1.0\" encoding=\"UTF-8\""] ++
          .StartElement ⟨"", "methodResponse"⟩ ::
          ([.CharData "\n"] ++ .StartElement ⟨"", "result"⟩ ::
            [.CharData "1", endTag "result", endTag "methodResponse"]), none⟩ =
      .ret (([], some (.errorsNew ("invalid xml, unknown element " ++ "result"))), ⟨none⟩) ∧
    unmarshal ⟨none⟩ ("<?xml version=\"1.0\" encoding=\"UTF-8\"?><methodResponse>\n" ++
        "<result>1</result></methodResponse>") =
      .ret (([], some (.errorsNew "invalid xml, unknown element result")), ⟨none⟩) :=
  ⟨unmarshal_unknown_element [.ProcInst "xml" "version=\"1.0\" encoding=\"UTF-8\""] [.CharData "\n"]
    [.CharData "1", endTag "result", endTag "methodResponse"] ⟨"", "methodResponse"⟩
    ⟨"", "result"⟩ none rfl rfl rfl (by decide) (by decide), rfl⟩

/-- C14 (counterexample): missing end element.  A response that ends after
`<methodResponse><params>`, one that ends after its first param, and one
that ends inside a struct after a complete member: the tokenizer ends each
stream with its syntax error for the end of the input inside an open
element, and `unmarshal` returns that error, which is not the error
"missing end element: params" nor "missing end element: struct". -/
theorem unmarshal_cut_not_missing_end_element :
    NewDecoder "<methodResponse><params>" =
      ⟨[startTag "methodResponse", startTag "params"], some .xmlSyntax⟩ ∧
    unmarshal ⟨none⟩ "<methodResponse><params>" = .ret (([], some .xmlSyntax), ⟨none⟩) ∧
    unmarshal ⟨none⟩
        "<methodResponse><params><param><value><string>a</string></value></param>" =
      .ret (([.str "a"], some .xmlSyntax), ⟨none⟩) ∧
    unmarshal ⟨none⟩ ("<methodResponse><params><param><value><struct>" ++
        "<member><name>k</name><value><i4>1</i4></value></member>") =
      .ret (([], some .xmlSyntax), ⟨none⟩) ∧
    GoError.xmlSyntax ≠ .errorsNew "missing end element: params" ∧
    GoError.xmlSyntax ≠ .errorsNew "missing end element: struct" :=
  ⟨rfl, rfl, rfl, rfl, (fun h => by cases h), (fun h => by cases h)⟩

/-- C14 (amended): a response cut off before its end.  Let `args` be valid
values; the tokens of the response document `responseDocOf args` are
`responseTokens args`.  For every cut of these tokens `p`, neither empty nor
the whole list (so the document ends after `<methodResponse>`, after
`<params>` and zero or more complete params, or anywhere inside an unclosed
param, value, array, struct or member), the text of `p` is an initial
segment of the document, the tokenizer returns the tokens `p` and then its
syntax error for the end of the input inside an open element, and
`unmarshal` returns: its error is that syntax error.  In particular this is
what `unmarshal` returns on the document that ends after
`<methodResponse><params>` and the params of `args`. -/
theorem unmarshal_cut_response (args : List GoValue) (hv : validValues args = true)
    (p : List Token) (hp : p <+: responseTokens args) (h0 : p ≠ [])
    (hne : p ≠ responseTokens args) :
    NewDecoder (responseDocOf args) = ⟨responseTokens args, none⟩ ∧
    tokensText p <+: (responseDocOf args).data ∧
    NewDecoder ⟨tokensText p⟩ = ⟨p, some .xmlSyntax⟩ ∧
    (∃ vals, unmarshal ⟨none⟩ ⟨tokensText p⟩ = .ret ((vals, some .xmlSyntax), ⟨none⟩)) ∧
    ∃ vals, unmarshal ⟨none⟩ ("<methodResponse><params>" ++ paramsText args) =
      .ret ((vals, some .xmlSyntax), ⟨none⟩) := by
  refine ⟨NewDecoder_responseDocOf args hv, ?_, NewDecoder_cut args hv p hp h0 hne, ?_, ?_⟩
  · obtain ⟨s, hs⟩ := hp
    rw [← tokensText_responseTokens args hv, ← hs, tokensText_append]
    exact List.prefix_append _ _
  · unfold unmarshal
    rw [NewDecoder_cut args hv p hp h0 hne]
    exact unmarshalTokens_cut args hv p hp hne
  · have hq : startTag "methodResponse" :: startTag "params" :: paramsTokens args <+:
        responseTokens args := ⟨[endTag "params", endTag "methodResponse"], by
      simp [responseTokens]⟩
    have hq2 : startTag "methodResponse" :: startTag "params" :: paramsTokens args ≠
        responseTokens args := by
      intro h
      have := congrArg List.length h
      simp [responseTokens] at this
    have e : "<methodResponse><params>" ++ paramsText args =
        ⟨tokensText (startTag "methodResponse" :: startTag "params" :: paramsTokens args)⟩ := by
      apply String.ext
      simp [tokensText, tokenText, startTag, tokensText_params args hv, String.data_append]
    unfold unmarshal
    rw [e, NewDecoder_cut args hv _ hq (List.cons_ne_nil _ _) hq2]
    exact unmarshalTokens_cut args hv _ hq hq2

/-- C14 (witness): the response with a string and a struct, cut after the
`<value>` of the member of the struct. -/
theorem unmarshal_cut_response_witness :
    validValues [.str "a", .map [("k", .int 1)]] = true ∧
    [startTag "methodResponse", startTag "params", startTag "param", startTag "value",
      startTag "string", .CharData "a", endTag "string", endTag "value", endTag "param",
      startTag "param", startTag "value", startTag "struct", startTag "member",
      startTag "name", .CharData "k", endTag "name", startTag "value"] <+:
      responseTokens [.str "a", .map [("k", .int 1)]] ∧
    tokensText [startTag "methodResponse", startTag "params", startTag "param",
      startTag "value", startTag "string", .CharData "a", endTag "string", endTag "value",
      endTag "param", startTag "param", startTag "value", startTag "struct",
      startTag "member", startTag "name", .CharData "k", endTag "name", startTag "value"] =
      ("<methodResponse><params><param><value><string>a</string></value></param>" ++
        "<param><value><struct><member><name>k</name><value>").data ∧
    (NewDecoder (responseDocOf [.str "a", .map [("k", .int 1)]]) =
        ⟨responseTokens [.str "a", .map [("k", .int 1)]], none⟩ ∧
      tokensText [startTag "methodResponse", startTag "params", startTag "param",
        startTag "value", startTag "string", .CharData "a", endTag "string", endTag "value",
        endTag "param", startTag "param", startTag "value", startTag "struct",
        startTag "member", startTag "name", .CharData "k", endTag "name", startTag "value"] <+:
        (responseDocOf [.str "a", .map [("k", .int 1)]]).data ∧
      NewDecoder ⟨tokensText [startTag "methodResponse", startTag "params", startTag "param",
        startTag "value", startTag "string", .CharData "a", endTag "string", endTag "value",
        endTag "param", startTag "param", startTag "value", startTag "struct",
        startTag "member", startTag "name", .CharData "k", endTag "name",
        startTag "value"]⟩ =
        ⟨[startTag "methodResponse", startTag "params", startTag "param",
          startTag "value", startTag "string", .CharData "a", endTag "string", endTag "value",
          endTag "param", startTag "param", startTag "value", startTag "struct",
          startTag "member", startTag "name", .CharData "k", endTag "name",
          startTag "value"], some .xmlSyntax⟩ ∧
      (∃ vals, unmarshal ⟨none⟩ ⟨tokensText [startTag "methodResponse", startTag "params",
        startTag "param", startTag "value", startTag "string", .CharData "a", endTag "string",
        endTag "value", endTag "param", startTag "param", startTag "value", startTag "struct",
        startTag "member", startTag "name", .CharData "k", endTag "name",
        startTag "value"]⟩ = .ret ((vals, some .xmlSyntax), ⟨none⟩)) ∧
      ∃ vals, unmarshal ⟨none⟩
          ("<methodResponse><params>" ++ paramsText [.str "a", .map [("k", .int 1)]]) =
        .ret ((vals, some .xmlSyntax), ⟨none⟩)) :=
  ⟨rfl, ⟨_, rfl⟩, rfl,
    unmarshal_cut_response [.str "a", .map [("k", .int 1)]] rfl _ ⟨_, rfl⟩
      (List.cons_ne_nil _ _) (by decide)⟩

/-- C15: struct duplicate member is last-write-wins.  For every list of
members with valid values, in which names may repeat, the response whose only
param is the struct with these members decodes to one map `M` with no error;
each name occurs once among the keys of `M`; a name that some member has maps
to the value of the last member with that name, and no other name is
present. -/
theorem struct_last_write_wins (ms : List (String × GoValue))
    (hv : ∀ e ∈ ms, validValue e.2 = true) :
    ∃ M : List (String × GoValue),
      unmarshalTokens ⟨none⟩ ⟨structResponse ms, none⟩ = .ret (([.map M], none), ⟨none⟩) ∧
      (M.map Prod.fst).Nodup ∧
      ∀ k : String, mapGet M k =
        match lastValue ms k with
        | some v => (v, true)
        | none => (.nil, false) :=
  ⟨ms.foldl (fun m e => mapSet m e.1 e.2) [],
    unmarshalTokens_any_fuel ⟨none⟩ _ _ _ (unmarshalFrom_structResponse ms hv),
    foldl_mapSet_nodup ms [] List.nodup_nil,
    fun k => mapGet_foldl_mapSet ms [] k⟩

/-- C15 (witness): the members a = 1, b = "x", a = 2, as tokens and as a
document: the map holds a = 2 and b = "x". -/
theorem struct_last_write_wins_witness :
    (∃ M : List (String × GoValue),
      unmarshalTokens ⟨none⟩
          ⟨structResponse [("a", .int 1), ("b", .str "x"), ("a", .int 2)], none⟩ =
        .ret (([.map M], none), ⟨none⟩) ∧
      (M.map Prod.fst).Nodup ∧
      ∀ k : String, mapGet M k =
        match lastValue [("a", .int 1), ("b", .str "x"), ("a", .int 2)] k with
        | some v => (v, true)
        | none => (.nil, false)) ∧
    unmarshal ⟨none⟩ ("<methodResponse><params><param><value><struct>" ++
        "<member><name>a</name><value><i4>1</i4></value></member>" ++
        "<member><name>b</name><value><string>x</string></value></member>" ++
        "<member><name>a</name><value><i4>2</i4></value></member>" ++
        "</struct></value></param></params></methodResponse>") =
      .ret (([.map [("a", .int 2), ("b", .str "x")]], none), ⟨none⟩) :=
  ⟨struct_last_write_wins [("a", .int 1), ("b", .str "x"), ("a", .int 2)]
    (by
      intro e he
      simp only [List.mem_cons, List.mem_singleton, List.mem_nil_iff, or_false] at he
      rcases he with h | h | h <;> subst h <;> rfl), rfl⟩

/-- C16: integer scalar decoding.  For every text `t`, `decodeValue` gives the
same result for "i4" and "int": the int `n` with no error when `t` is a
base-10 numeral of `n` (an optional sign, then one or more decimal digits)
and `n` is in the signed 32-bit range, and no value and an error otherwise: a
range error for a numeral out of range, and for a text that is not a numeral
a syntax error, or a range error when the digits in front of it already pass
`2^32 - 1` (`ParseUint` stops at that digit).  For "i8" it gives the int64
`n` with no error when `n` is in the signed 64-bit range and an error
otherwise, of the same two kinds with the bound `2^64 - 1` (with the nearest
bound of the range on a range error and 0 on a syntax error as the value).
The decimal text that `formatInt` writes for `n` is a numeral of `n`. -/
theorem decodeValue_integer (t : String) :
    decodeValue t "i4" = decodeValue t "int" ∧
    decodeValue t "int" =
      (match numeralValue t with
      | some n =>
        if -(2 ^ 31 : Int) ≤ n ∧ n ≤ 2 ^ 31 - 1 then (.int n, none)
        else (.nil, some (.numError "ParseInt" t true))
      | none => (.nil, some (.numError "ParseInt" t (leadingOverflow 32 t)))) ∧
    decodeValue t "i8" =
      (match numeralValue t with
      | some n =>
        if -(2 ^ 63 : Int) ≤ n ∧ n ≤ 2 ^ 63 - 1 then (.int64 n, none)
        else (.int64 (if n < 0 then -(2 ^ 63 : Int) else 2 ^ 63 - 1),
          some (.numError "ParseInt" t true))
      | none =>
        if leadingOverflow 64 t = true then
          (.int64 (if t.data.head? = some '-' then -(2 ^ 63 : Int) else 2 ^ 63 - 1),
            some (.numError "ParseInt" t true))
        else (.int64 0, some (.numError "ParseInt" t false))) ∧
    (∀ n : Int, numeralValue (formatInt n) = some n) ∧
    numeralValue "123" = some 123 ∧ numeralValue "-42" = some (-42) ∧
    numeralValue "+5" = some 5 ∧ numeralValue "007" = some 7 ∧
    numeralValue "" = none ∧ numeralValue "-" = none ∧ numeralValue "1.5" = none ∧
    numeralValue " 1" = none ∧ numeralValue "0x10" = none ∧ numeralValue "--1" = none ∧
    decodeValue "2147483647" "i4" = (.int 2147483647, none) ∧
    decodeValue "-2147483648" "i4" = (.int (-2147483648), none) ∧
    decodeValue "2147483648" "i4" = (.nil, some (.numError "ParseInt" "2147483648" true)) ∧
    decodeValue "12x" "i4" = (.nil, some (.numError "ParseInt" "12x" false)) ∧
    decodeValue "4294967295x" "i4" = (.nil, some (.numError "ParseInt" "4294967295x" false)) ∧
    decodeValue "4294967296x" "i4" = (.nil, some (.numError "ParseInt" "4294967296x" true)) ∧
    decodeValue "99999999999x" "i4" = (.nil, some (.numError "ParseInt" "99999999999x" true)) ∧
    decodeValue "99999999999x" "i8" =
      (.int64 0, some (.numError "ParseInt" "99999999999x" false)) ∧
    decodeValue "-99999999999999999999x" "i8" =
      (.int64 (-9223372036854775808),
        some (.numError "ParseInt" "-99999999999999999999x" true)) := by
  refine ⟨rfl, ?_, ?_, numeralValue_formatInt, by decide, by decide, by decide, by decide,
    by decide, by decide, by decide, by decide, by decide, by decide, rfl, rfl, rfl, rfl, rfl,
    rfl, rfl, rfl, rfl⟩
  · have e : decodeValue t "int" = match ParseInt t 32 with
        | (i64, none) => (.int i64, none)
        | (_, some err) => (.nil, some err) := by
      rw [decodeValue, if_neg (by decide), if_neg (by decide), if_pos (by decide)]
    rw [e, ParseInt_numeral t 32 (by decide) (by decide)]
    cases numeralValue t with
    | none =>
      cases leadingOverflow 32 t with
      | true => simp
      | false => simp
    | some n =>
      simp only [Nat.add_one_sub_one]
      split_ifs <;> first | rfl | (exfalso; omega)
  · have e : decodeValue t "i8" = (.int64 (ParseInt t 64).1, (ParseInt t 64).2) := by
      rw [decodeValue, if_neg (by decide), if_neg (by decide), if_neg (by decide),
        if_pos (by decide)]
    rw [e, ParseInt_numeral t 64 (by decide) (by decide)]
    cases numeralValue t with
    | none =>
      simp only [Nat.add_one_sub_one]
      split_ifs <;> rfl
    | some n =>
      simp only [Nat.add_one_sub_one]
      split_ifs <;> first | rfl | (exfalso; omega)

/-- C17 (counterexample): the literals "true", "false" and "t" are decoded as
booleans with no error; the response with `<boolean>true</boolean>` decodes
to the value true. -/
theorem boolean_word_literals_accepted :
    decodeValue "true" "boolean" = (.bool true, none) ∧
    decodeValue "false" "boolean" = (.bool false, none) ∧
    decodeValue "t" "boolean" = (.bool true, none) ∧
    unmarshal ⟨none⟩ ("<methodResponse><params><param><value><boolean>true</boolean></value>" ++
        "</param></params></methodResponse>") =
      .ret (([.bool true], none), ⟨none⟩) := by
  refine ⟨rfl, rfl, rfl, rfl⟩

/-- C17 (amended): boolean scalar decoding.  The six literals 1, t, T, TRUE,
true, True decode to true and the six literals 0, f, F, FALSE, false, False
decode to false, in `decodeValue` and in a response; every other text `s`
gives the error of `ParseBool` naming `s`, and the response whose param is
`<boolean>s</boolean>` returns no values and that error. -/
theorem boolean_decoding (s : String) (h : s ∉ trueLiterals ++ falseLiterals) :
    decodeValue s "boolean" = (.bool false, some (.numError "ParseBool" s false)) ∧
    unmarshalTokens ⟨none⟩ ⟨scalarResponse "boolean" s, none⟩ =
      .ret (([], some (.numError "ParseBool" s false)), ⟨none⟩) ∧
    trueLiterals.map (fun t => decodeValue t "boolean") =
      trueLiterals.map (fun _ => (.bool true, none)) ∧
    falseLiterals.map (fun t => decodeValue t "boolean") =
      falseLiterals.map (fun _ => (.bool false, none)) ∧
    trueLiterals.map (fun t => unmarshalTokens ⟨none⟩ ⟨scalarResponse "boolean" t, none⟩) =
      trueLiterals.map (fun _ => .ret (([.bool true], none), ⟨none⟩)) ∧
    falseLiterals.map (fun t => unmarshalTokens ⟨none⟩ ⟨scalarResponse "boolean" t, none⟩) =
      falseLiterals.map (fun _ => .ret (([.bool false], none), ⟨none⟩)) := by
  have h1 : s ∉ trueLiterals := fun hc => h (List.mem_append_left _ hc)
  have h2 : s ∉ falseLiterals := fun hc => h (List.mem_append_right _ hc)
  have hd : decodeValue s "boolean" = (.bool false, some (.numError "ParseBool" s false)) := by
    rw [decodeValue, if_neg (by decide), if_neg (by decide), if_neg (by decide),
      if_neg (by decide), if_pos (by decide), ParseBool_other s h1 h2]
  refine ⟨hd, ?_, rfl, rfl, rfl, rfl⟩
  rw [unmarshalTokens_scalarResponse "boolean" s (by decide), hd]

/-- C17 (witness): the text "yes" and the empty text are not boolean
literals. -/
theorem boolean_decoding_witness :
    decodeValue "yes" "boolean" = (.bool false, some (.numError "ParseBool" "yes" false)) ∧
    unmarshalTokens ⟨none⟩ ⟨scalarResponse "boolean" "", none⟩ =
      .ret (([], some (.numError "ParseBool" "" false)), ⟨none⟩) :=
  ⟨(boolean_decoding "yes" (by decide)).1, (boolean_decoding "" (by decide)).2.1⟩

/-- C18 (code defect): a pointer is not transparent to the encoder.  The
pointer case of `marshalType` calls `marshalValue`, so the value behind the
pointer is written inside a second `<value>` element: for every `v`,
`marshalValue` of a pointer to `v` is `<value>`, then all of `marshalValue`
of `v`, then `</value>`.  The response carrying that text is rejected by
`unmarshal`. -/
theorem marshalValue_pointer_doubles_value :
    marshalValue "" (.ptr (.str "a")) =
      ("<value><value><string>a</string></value></value>", none) ∧
    marshalValue "" (.str "a") = ("<value><string>a</string></value>", none) ∧
    (∀ (v : GoValue) (buf : String),
      marshalValue buf (.ptr v) = marshalValueBody (fun b => marshalValue b v) buf) ∧
    marshal "m" [.ptr (.int 5)] =
      (some ("<?xml version=\"1.0\" encoding=\"UTF-8\"?><methodCall><methodName>m</methodName>" ++
        "<params><param><value><value><i4>5</i4></value></value></param></params></methodCall>"),
       none) ∧
    unmarshal ⟨none⟩ (responseDoc (.ptr (.str "a"))) =
      .ret (([], some (.errorsNew "unsupported type: value")), ⟨none⟩) := by
  refine ⟨rfl, rfl, fun _ _ => rfl, rfl, rfl⟩

/-- C19: decoder termination.  For every token stream `d` (after its tokens
the decoder reports its end forever) and every pushback `u`, the run of
`unmarshal` ends: the fuel of `unmarshalTokens`, twice the number of tokens
plus four, is never used up, and every larger fuel gives the same result.
Each iteration that does not leave its loop consumes a token: in the param
loop and in the struct member loop the state at the next iteration has fewer
tokens to read than at this one, and the array loop goes on only after an
`unmarshalValue` that consumed at least two. -/
theorem unmarshal_terminates (u : unmarshaller) (d : Decoder) :
    unmarshalTokens u d ≠ .outOfFuel ∧
    (∀ fuel, 2 * (DecState.size ⟨u.last, d⟩) + 4 ≤ fuel →
      unmarshalFrom fuel ⟨u.last, d⟩ =
        unmarshalFrom (2 * (DecState.size ⟨u.last, d⟩) + 4) ⟨u.last, d⟩) ∧
    (∀ (st : DecState) (fuel : Nat) (r : (GoValue × Option GoError) × DecState),
      (startElement st "param").1.1.isSome = true →
      unmarshalValue fuel (startElement st "param").2 = .ret r →
      (mustEndElement r.2 "param").2.size < st.size) ∧
    (∀ (st : DecState) (fuel : Nat) (r : (GoValue × Option GoError) × DecState),
      unmarshalValue fuel st = .ret r → r.1.1 ≠ .nil → r.2.size + 2 ≤ st.size) ∧
    (∀ (st : DecState) (fuel : Nat) (r : (GoValue × Option GoError) × DecState),
      (startElement st "member").1.1.isSome = true →
      unmarshalValue fuel
        ⟨none, (DecodeElement (startElement (startElement st "member").2 "name").2.d
          (startElement (startElement st "member").2 "name").1.1.isSome).2⟩ = .ret r →
      (mustEndElement r.2 "member").2.size < st.size) :=
  ⟨unmarshalTokens_ne_outOfFuel u d, unmarshalFrom_fuel_ge ⟨u.last, d⟩,
    fun st fuel r hs hv => paramLoop_progress st fuel r hs hv,
    fun st fuel r hv hn => (unmarshalValue_ret_size fuel st r hv).2 hn,
    fun st fuel r hs hv => structLoop_progress st fuel r hs hv⟩

/-- C19 (witness): a stream that ends inside an array, read with a pushed-back
token: the run ends with an error, with the fuel of the model and with more. -/
theorem unmarshal_terminates_witness :
    unmarshalTokens ⟨some (.CharData "x")⟩
        ⟨[startTag "methodResponse", startTag "params", startTag "param", startTag "value",
          startTag "array", startTag "data", startTag "value", startTag "i4", .CharData "1",
          endTag "i4", endTag "value"], none⟩ ≠ .outOfFuel ∧
    unmarshalFrom 100 ⟨some (.CharData "x"),
        ⟨[startTag "methodResponse", startTag "params", startTag "param", startTag "value",
          startTag "array", startTag "data", startTag "value", startTag "i4", .CharData "1",
          endTag "i4", endTag "value"], none⟩⟩ =
      .ret (([], some (.errorsNew "missing end element: array")), ⟨none, ⟨[], none⟩⟩) :=
  ⟨(unmarshal_terminates ⟨some (.CharData "x")⟩ _).1,
    ((unmarshal_terminates ⟨some (.CharData "x")⟩
      ⟨[startTag "methodResponse", startTag "params", startTag "param", startTag "value",
          startTag "array", startTag "data", startTag "value", startTag "i4", .CharData "1",
          endTag "i4", endTag "value"], none⟩).2.1 100 (by decide)).trans rfl⟩

/-- C20: the pushback contract of the read primitives.  From an empty
pushback, on a stream whose first tag is an end tag `e` (only character data,
comments, processing instructions and directives before it), `startElement`
returns no element and no error and leaves `e` in the pushback, the tokens
after `e` untouched; `endElement` for any name then returns `e`, empties the
pushback and reads no token.  Symmetrically `endElement` pushes back a start
tag that comes first, and `startElement` for any name then returns it.  On a
stream that holds no tag and ends with end-of-stream both primitives return
no element and no error. -/
theorem pushback_contract (pre rest : List Token) (e : Name) (name : String)
    (flt : Option GoError) (hpre : noTags pre = true) :
    startElement ⟨none, ⟨pre ++ .EndElement e :: rest, flt⟩⟩ name =
      ((none, none), ⟨some (.EndElement e), ⟨rest, flt⟩⟩) ∧
    endElement ⟨some (.EndElement e), ⟨rest, flt⟩⟩ any =
      ((some e, none), ⟨none, ⟨rest, flt⟩⟩) ∧
    endElement ⟨none, ⟨pre ++ .StartElement e :: rest, flt⟩⟩ name =
      ((none, none), ⟨some (.StartElement e), ⟨rest, flt⟩⟩) ∧
    startElement ⟨some (.StartElement e), ⟨rest, flt⟩⟩ any =
      ((some e, none), ⟨none, ⟨rest, flt⟩⟩) ∧
    startElement ⟨none, ⟨pre, none⟩⟩ name = ((none, none), ⟨none, ⟨[], none⟩⟩) ∧
    endElement ⟨none, ⟨pre, none⟩⟩ name = ((none, none), ⟨none, ⟨[], none⟩⟩) := by
  refine ⟨startElement_skip_end pre rest e name flt hpre, ?_,
    endElement_skip_start pre rest e name flt hpre, ?_, ?_, ?_⟩
  · simp [endElement, endElementLoop]
  · simp [startElement, startElementLoop]
  · exact startElementLoop_eof name pre hpre none none_not_tag
  · exact endElementLoop_eof name pre hpre none none_not_tag

/-- C20 (witness): the stream of the text "ab", `</data>`, `</array>`, read
with `startElement("value")`. -/
theorem pushback_contract_witness :
    noTags [.CharData "ab"] = true ∧
    startElement ⟨none, ⟨[.CharData "ab"] ++ .EndElement ⟨"", "data"⟩ :: [endTag "array"], none⟩⟩
        "value" =
      ((none, none), ⟨some (.EndElement ⟨"", "data"⟩), ⟨[endTag "array"], none⟩⟩) :=
  ⟨rfl, (pushback_contract [.CharData "ab"] [endTag "array"] ⟨"", "data"⟩ "value" none rfl).1⟩

/-- C21 (code defect): the error of an array element or of a member value is
replaced.  For every text and each of the six scalar type names, the response
whose param is an array (a struct) holding that one scalar returns, whenever
`decodeValue` fails, the error "missing end element: array"
("missing end element: struct") instead of the error of `decodeValue`.  So
do the documents with an unknown type tag, a text that is not a numeral, a
numeral out of range, an invalid boolean and malformed base64; the same
elements as a param of their own come back with their own error.  The array
loop appends the failed boolean, int64 and base64 elements before it
stops. -/
theorem unmarshal_nested_error_replaced :
    (∀ s : String,
      scalarTags.map (fun tag => unmarshalTokens ⟨none⟩ ⟨arrayResponse tag s, none⟩) =
        scalarTags.map (fun tag =>
          match (decodeValue s tag).2 with
          | none => .ret (([.slice [(decodeValue s tag).1]], none), ⟨none⟩)
          | some _ =>
            .ret (([], some (.errorsNew "missing end element: array")),
              ⟨some (endTag "value")⟩))) ∧
    (∀ k s : String,
      scalarTags.map (fun tag => unmarshalTokens ⟨none⟩ ⟨memberResponse k tag s, none⟩) =
        scalarTags.map (fun tag =>
          match (decodeValue s tag).2 with
          | none => .ret (([.map [(k, (decodeValue s tag).1)]], none), ⟨none⟩)
          | some _ =>
            .ret (([], some (.errorsNew "missing end element: struct")),
              ⟨some (endTag "value")⟩))) ∧
    unmarshal ⟨none⟩ ("<methodResponse><params><param><value><array><data>" ++
        "<value><double>1</double></value></data></array></value></param></params>" ++
        "</methodResponse>") =
      .ret (([], some (.errorsNew "missing end element: array")), ⟨some (endTag "double")⟩) ∧
    unmarshal ⟨none⟩ ("<methodResponse><params><param><value><array><data>" ++
        "<value><i4>abc</i4></value></data></array></value></param></params>" ++
        "</methodResponse>") =
      .ret (([], some (.errorsNew "missing end element: array")), ⟨some (endTag "value")⟩) ∧
    unmarshal ⟨none⟩ ("<methodResponse><params><param><value><array><data>" ++
        "<value><i4>99999999999</i4></value></data></array></value></param></params>" ++
        "</methodResponse>") =
      .ret (([], some (.errorsNew "missing end element: array")), ⟨some (endTag "value")⟩) ∧
    unmarshal ⟨none⟩ ("<methodResponse><params><param><value><array><data>" ++
        "<value><boolean>2</boolean></value></data></array></value></param></params>" ++
        "</methodResponse>") =
      .ret (([], some (.errorsNew "missing end element: array")), ⟨some (endTag "value")⟩) ∧
    unmarshal ⟨none⟩ ("<methodResponse><params><param><value><array><data>" ++
        "<value><base64>!</base64></value></data></array></value></param></params>" ++
        "</methodResponse>") =
      .ret (([], some (.errorsNew "missing end element: array")), ⟨some (endTag "value")⟩) ∧
    unmarshal ⟨none⟩ ("<methodResponse><params><param><value><struct><member>" ++
        "<name>a</name><value><i4>abc</i4></value></member></struct></value></param></params>" ++
        "</methodResponse>") =
      .ret (([], some (.errorsNew "missing end element: struct")), ⟨some (endTag "value")⟩) ∧
    unmarshal ⟨none⟩ ("<methodResponse><params><param><value><struct><member>" ++
        "<name>a</name><value><double>1</double></value></member></struct></value></param>" ++
        "</params></methodResponse>") =
      .ret (([], some (.errorsNew "missing end element: struct")), ⟨some (endTag "double")⟩) ∧
    unmarshal ⟨none⟩
        "<methodResponse><params><param><value><double>1</double></value></param></params></methodResponse>" =
      .ret (([], some (.errorsNew "unsupported type: double")), ⟨none⟩) ∧
    unmarshal ⟨none⟩
        "<methodResponse><params><param><value><i4>abc</i4></value></param></params></methodResponse>" =
      .ret (([], some (.numError "ParseInt" "abc" false)), ⟨none⟩) ∧
    unmarshal ⟨none⟩
        "<methodResponse><params><param><value><boolean>2</boolean></value></param></params></methodResponse>" =
      .ret (([], some (.numError "ParseBool" "2" false)), ⟨none⟩) ∧
    resultOf (unmarshalValue 10 ⟨none, NewDecoder ("<value><array><data>" ++
        "<value><boolean>2</boolean></value><value><i4>7</i4></value></data></array></value>")⟩) =
      .ret (.slice [.bool false], some (.errorsNew "missing end element: array")) ∧
    resultOf (unmarshalValue 10 ⟨none, NewDecoder
        "<value><array><data><value><i8>x</i8></value></data></array></value>"⟩) =
      .ret (.slice [.int64 0], some (.errorsNew "missing end element: array")) ∧
    resultOf (unmarshalValue 10 ⟨none, NewDecoder
        "<value><array><data><value><base64>!</base64></value></data></array></value>"⟩) =
      .ret (.slice [.bytes []], some (.errorsNew "missing end element: array")) := by
  refine ⟨?_, ?_, rfl, rfl, rfl, rfl, rfl, rfl, rfl, rfl, rfl, rfl, rfl, rfl, rfl⟩
  · intro s
    simp only [scalarTags, List.map_cons, List.map_nil]
    rw [unmarshalTokens_arrayResponse "string" s (by decide),
      unmarshalTokens_arrayResponse "base64" s (by decide),
      unmarshalTokens_arrayResponse "int" s (by decide),
      unmarshalTokens_arrayResponse "i4" s (by decide),
      unmarshalTokens_arrayResponse "i8" s (by decide),
      unmarshalTokens_arrayResponse "boolean" s (by decide)]
  · intro k s
    simp only [scalarTags, List.map_cons, List.map_nil]
    rw [unmarshalTokens_memberResponse k "string" s (by decide),
      unmarshalTokens_memberResponse k "base64" s (by decide),
      unmarshalTokens_memberResponse k "int" s (by decide),
      unmarshalTokens_memberResponse k "i4" s (by decide),
      unmarshalTokens_memberResponse k "i8" s (by decide),
      unmarshalTokens_memberResponse k "boolean" s (by decide)]

/-- C22 (code defect): decoded results can hold the nil interface.  A
`<param>` without a `<value>` element gives the nil interface as a returned
value, and a `<member>` without one gives it as a member value, at the top and
inside an array, each with a nil error; the nil interface is none of the
seven variants. -/
theorem unmarshal_returns_absent_value :
    unmarshal ⟨none⟩ "<methodResponse><params><param></param></params></methodResponse>" =
      .ret (([.nil], none), ⟨none⟩) ∧
    allVariants [.nil] = false ∧
    unmarshal ⟨none⟩ ("<methodResponse><params><param>text</param>" ++
        "<param><value><i4>1</i4></value></param></params></methodResponse>") =
      .ret (([.nil, .int 1], none), ⟨none⟩) ∧
    allVariants [.nil, .int 1] = false ∧
    unmarshal ⟨none⟩ ("<methodResponse><params><param><value><struct>" ++
        "<member><name>a</name></member></struct></value></param></params></methodResponse>") =
      .ret (([.map [("a", .nil)]], none), ⟨none⟩) ∧
    allVariants [.map [("a", .nil)]] = false ∧
    unmarshal ⟨none⟩ ("<methodResponse><params><param><value><array><data><value><struct>" ++
        "<member><name>a</name></member></struct></value></data></array></value></param>" ++
        "</params></methodResponse>") =
      .ret (([.slice [.map [("a", .nil)]]], none), ⟨none⟩) ∧
    allVariants [.slice [.map [("a", .nil)]]] = false ∧
    allVariants [.str "a", .slice [.int 1, .map [("k", .bool true)]]] = true := by
  refine ⟨rfl, rfl, rfl, rfl, rfl, rfl, rfl, rfl, rfl⟩

end Xmlrpc
